import Mathlib

/-!
Verification of the SchedSim CPU-scheduling simulator (src/SchedSim/schedsim.c)
against its natural-language specification.

The C code is shallowly embedded: `ProcessType` becomes the `Process`
structure, arrays become `List`s, C `int` arithmetic becomes `Int`
(no overflow occurs in the runs covered by the theorems; the `INT_MAX`
sentinel used by the SRTF scan is modelled by the literal 2147483647),
and the `while` loops of the SRTF and RR engines become fuel-indexed
recursions returning `Option` (with enough fuel that `none` means the
C loop does not terminate).
-/

set_option maxHeartbeats 1000000

/-- `INT_MAX` on the platform targeted by the C code (32-bit `int`). -/
def INTMAX : Int := 2147483647

/-- One process record, with the fields of `ProcessType` that
`schedsim.c` uses: `pid`, `bt` (burst time), `art` (arrival time),
`pri` (priority), `wt` (waiting time), `tat` (turnaround time). -/
structure Process where
  pid : Int
  bt : Int
  art : Int
  pri : Int
  wt : Int
  tat : Int
deriving DecidableEq, Repr

/-- Default process used as the `getD` fallback (never hit under the
length side conditions carried by the proofs). -/
def dP : Process := ⟨0, 0, 0, 0, 0, 0⟩

/-- A valid batch, from spec §3 and §7: nonempty, every burst time
positive, every arrival time non-negative, and all values representable
in a C `int`. -/
def ValidBatch (ps : List Process) : Prop :=
  ps ≠ [] ∧ ∀ p ∈ ps, 0 < p.bt ∧ p.bt ≤ INTMAX ∧ 0 ≤ p.art ∧ p.art ≤ INTMAX

instance : DecidablePred ValidBatch := fun _ =>
  inferInstanceAs (Decidable (_ ∧ _))

/-- Loop body of `findWaitingTimeFCFS` (schedsim.c lines 30-42):
`sPrev` is `service_time[i-1]`, `btPrev` is `plist[i-1].bt`. -/
def fcfsGo (sPrev btPrev : Int) : List Process → List Process
  | [] => []
  | p :: rest =>
    let st0 := sPrev + btPrev
    let st := if st0 < p.art then p.art else st0
    let w0 := st - p.art
    let w := if w0 < 0 then 0 else w0
    { p with wt := w } :: fcfsGo st p.bt rest

/-- `findWaitingTimeFCFS` (schedsim.c lines 24-43): first process gets
`service_time = art`, `wt = 0`; the loop handles the rest. -/
def findWaitingTimeFCFS : List Process → List Process
  | [] => []
  | p :: rest => { p with wt := 0 } :: fcfsGo p.art p.bt rest

/-- `findTurnAroundTime` (schedsim.c lines 46-50): `tat = bt + wt`. -/
def findTurnAroundTime (ps : List Process) : List Process :=
  ps.map fun p => { p with tat := p.bt + p.wt }

/-- `my_comparer` (schedsim.c lines 10-14): `p2->pri - p1->pri`. -/
def my_comparer (p1 p2 : Process) : Int := p2.pri - p1.pri

/-- Contract of C `qsort` with comparator `my_comparer` (C11 §7.22.5.2):
the output is a permutation of the input in which any element placed
before another compares `≤ 0` against it; the relative order of
elements that compare equal is unspecified. -/
def qsortPost (ps ps' : List Process) : Prop :=
  ps'.Perm ps ∧ ps'.Sorted fun a b => my_comparer a b ≤ 0

/-- `findavgTimeFCFS` (schedsim.c lines 216-220), minus the printing. -/
def findavgTimeFCFS (ps : List Process) : List Process :=
  findTurnAroundTime (findWaitingTimeFCFS ps)

/-- `findavgTimePriority` (schedsim.c lines 223-228), minus the
printing, parameterized by the reordering that `qsort` produced
(any function satisfying `qsortPost` on the batch). -/
def findavgTimePriority (sortFn : List Process → List Process)
    (ps : List Process) : List Process :=
  findTurnAroundTime (findWaitingTimeFCFS (sortFn ps))

/-- State of the `findWaitingTimeSJF` loop (schedsim.c lines 54-107):
`rem` is `rem_bt`, `wt` collects the `plist[i].wt` writes, `t` the
clock, `complete` the completion counter. -/
structure SrtfState where
  rem : List Int
  wt : List Int
  t : Int
  complete : Nat
deriving DecidableEq, Repr

/-- Scan of schedsim.c lines 69-74 over the (arrival, remaining) pairs,
carrying the running pair `(shortest, minm)`; `j` is the index of the
head entry. -/
def selectGo (t : Int) :
    List (Int × Int) → Nat → Option Nat → Int → Option Nat × Int
  | [], _, shortest, minm => (shortest, minm)
  | ar :: rest, j, shortest, minm =>
    if ar.1 ≤ t ∧ 0 < ar.2 ∧ ar.2 < minm then
      selectGo t rest (j + 1) (some j) ar.2
    else
      selectGo t rest (j + 1) shortest minm

/-- The `shortest` computed by schedsim.c lines 65-74 (`-1` becomes
`none`, `minm` starts at `INT_MAX`). -/
def srtfSelect (ps : List Process) (rem : List Int) (t : Int) : Option Nat :=
  (selectGo t ((ps.map Process.art).zip rem) 0 none INTMAX).1

/-- Scan of schedsim.c lines 78-83: fold the `next_arrival` update over
the (arrival, remaining) pairs. -/
def nextArrGo : List (Int × Int) → Int → Int
  | [], na => na
  | ar :: rest, na =>
    nextArrGo rest (if 0 < ar.2 ∧ ar.1 < na then ar.1 else na)

/-- The `next_arrival` of schedsim.c lines 78-84 (starts at `INT_MAX`). -/
def srtfNextArr (ps : List Process) (rem : List Int) : Int :=
  nextArrGo ((ps.map Process.art).zip rem) INTMAX

/-- One iteration of the `while (complete != n)` loop of
`findWaitingTimeSJF` (schedsim.c lines 64-103). -/
def srtfStep (ps : List Process) (s : SrtfState) : SrtfState :=
  match srtfSelect ps s.rem s.t with
  | none => { s with t := srtfNextArr ps s.rem }
  | some j =>
    let rem' := s.rem.set j (s.rem.getD j 0 - 1)
    let t' := s.t + 1
    if rem'.getD j 0 = 0 then
      let p := ps.getD j dP
      let w0 := t' - p.bt - p.art
      let w := if w0 < 0 then 0 else w0
      { rem := rem', wt := s.wt.set j w, t := t', complete := s.complete + 1 }
    else
      { rem := rem', wt := s.wt, t := t', complete := s.complete }

/-- The `while (complete != n)` loop, indexed by fuel; `none` means the
fuel ran out before the C loop exited. -/
def srtfLoop (ps : List Process) : Nat → SrtfState → Option SrtfState
  | 0, s => if s.complete = ps.length then some s else none
  | fuel + 1, s =>
    if s.complete = ps.length then some s
    else srtfLoop ps fuel (srtfStep ps s)

/-- Initial SRTF state: `rem_bt` copied from the burst times
(schedsim.c lines 60-62), clock 0, nothing complete. -/
def srtfInit (ps : List Process) : SrtfState :=
  { rem := ps.map Process.bt, wt := ps.map Process.wt, t := 0, complete := 0 }

/-- Fuel sufficient for any terminating run: every iteration either
executes one time unit (at most `Σ bt` of those) or jumps across an
idle gap, and a jump is always followed by an execution. -/
def srtfFuel (ps : List Process) : Nat :=
  2 * ((ps.map Process.bt).foldr (· + ·) 0).toNat + 2

/-- `findWaitingTimeSJF` (schedsim.c lines 54-107): run the loop and
write the computed waiting times back into the batch. -/
def findWaitingTimeSJF (ps : List Process) : Option (List Process) :=
  (srtfLoop ps (srtfFuel ps) (srtfInit ps)).map fun s =>
    List.zipWith (fun p w => { p with wt := w }) ps s.wt

/-- `findavgTimeSJF` (schedsim.c lines 231-235), minus the printing. -/
def findavgTimeSJF (ps : List Process) : Option (List Process) :=
  (findWaitingTimeSJF ps).map findTurnAroundTime

/-- Index `j` is eligible to run in SRTF state `s`: it has arrived and
has remaining work (the scan condition of schedsim.c line 70, minus the
`minm` threshold). -/
def SrtfElig (ps : List Process) (s : SrtfState) (j : Nat) : Prop :=
  j < s.rem.length ∧ (ps.getD j dP).art ≤ s.t ∧ 0 < s.rem.getD j 0

instance (ps : List Process) (s : SrtfState) (j : Nat) :
    Decidable (SrtfElig ps s j) :=
  inferInstanceAs (Decidable (_ ∧ _))

/-- One pass of the bubble sort of schedsim.c lines 129-137, doing at
most `m` adjacent comparisons: walking left to right swapping adjacent
out-of-order entries is the same as carrying the larger entry forward. -/
def bpassN (key : Nat → Int) : Nat → List Nat → List Nat
  | 0, l => l
  | _ + 1, [] => []
  | _ + 1, [a] => [a]
  | m + 1, a :: b :: rest =>
    if key b < key a then b :: bpassN key m (a :: rest)
    else a :: bpassN key m (b :: rest)

/-- The outer loop of the bubble sort: pass `i` of schedsim.c line 129
performs `n - i - 1` comparisons, so the pass sizes are
`n-1, n-2, ..., 1`. -/
def bubbleGo (key : Nat → Int) : Nat → List Nat → List Nat
  | 0, l => l
  | k + 1, l => bubbleGo key k (bpassN key (k + 1) l)

/-- Arrival-time key of index `j` (the comparison of schedsim.c
line 131). -/
def artKey (ps : List Process) (j : Nat) : Int := (ps.getD j dP).art

/-- `sorted_idx` after the bubble sort of schedsim.c lines 125-137,
started from index list `l` (the code uses `0, 1, ..., n-1`). -/
def sortIdx (ps : List Process) (l : List Nat) : List Nat :=
  bubbleGo (artKey ps) (l.length - 1) l

/-- State of the `findWaitingTimeRR` loop (schedsim.c lines 111-206).
The circular buffer `queue[]`/`front`/`rear`/`queue_size` is modelled
as a FIFO list (the queue never holds more than `n` distinct indices,
so the buffer never wraps into live data), and the cursor
`next_arrival_idx` into `sorted_idx` is modelled by `pending`, the
not-yet-scanned suffix of `sorted_idx`. -/
structure RRState where
  rem : List Int
  finish : List Int
  wt : List Int
  inq : List Bool
  queue : List Nat
  pending : List Nat
  t : Int
  completed : Nat
deriving DecidableEq, Repr

/-- The unchecked arrival scans of schedsim.c lines 144-151 and
159-166: enqueue every pending index whose arrival time is `≤ t`,
setting its `in_queue` flag. Returns the new pending suffix, flags and
queue. -/
def scanArrNC (ps : List Process) (t : Int) :
    List Nat → List Bool → List Nat → List Nat × List Bool × List Nat
  | [], inq, queue => ([], inq, queue)
  | idx :: rest, inq, queue =>
    if (ps.getD idx dP).art ≤ t then
      scanArrNC ps t rest (inq.set idx true) (queue ++ [idx])
    else (idx :: rest, inq, queue)

/-- The checked arrival scan of schedsim.c lines 181-191: same walk,
but an index is enqueued only if `!in_queue[idx] && rem_bt[idx] > 0`
(the cursor advances past it either way). -/
def scanArrC (ps : List Process) (t : Int) (rem : List Int) :
    List Nat → List Bool → List Nat → List Nat × List Bool × List Nat
  | [], inq, queue => ([], inq, queue)
  | idx :: rest, inq, queue =>
    if (ps.getD idx dP).art ≤ t then
      if inq.getD idx false = false ∧ 0 < rem.getD idx 0 then
        scanArrC ps t rem rest (inq.set idx true) (queue ++ [idx])
      else scanArrC ps t rem rest inq queue
    else (idx :: rest, inq, queue)

/-- One iteration of the `while (completed < n)` loop of
`findWaitingTimeRR` (schedsim.c lines 153-206). With an empty queue and
no pending arrivals the C loop spins forever; that is modelled by the
step being the identity. -/
def rrStep (ps : List Process) (q : Int) (s : RRState) : RRState :=
  match s.queue with
  | [] =>
    match s.pending with
    | [] => s
    | idx :: _ =>
      let t' := (ps.getD idx dP).art
      let r := scanArrNC ps t' s.pending s.inq s.queue
      { s with t := t', pending := r.1, inq := r.2.1, queue := r.2.2 }
  | curr :: qrest =>
    let rc := s.rem.getD curr 0
    let exec := if q < rc then q else rc
    let t' := s.t + exec
    let rem' := s.rem.set curr (rc - exec)
    let r := scanArrC ps t' rem' s.pending s.inq qrest
    if rem'.getD curr 0 = 0 then
      let p := ps.getD curr dP
      let w0 := t' - p.bt - p.art
      let w := if w0 < 0 then 0 else w0
      { rem := rem', finish := s.finish.set curr t', wt := s.wt.set curr w,
        inq := r.2.1, queue := r.2.2, pending := r.1, t := t',
        completed := s.completed + 1 }
    else
      { rem := rem', finish := s.finish, wt := s.wt,
        inq := r.2.1, queue := r.2.2 ++ [curr], pending := r.1, t := t',
        completed := s.completed }

/-- Initial RR state (schedsim.c lines 112-151): remaining burst times
copied, `finish_time` and `in_queue` zeroed, `sorted_idx` computed by
the bubble sort, and every process with `art <= 0` enqueued. -/
def rrInit (ps : List Process) : RRState :=
  let n := ps.length
  let sidx := sortIdx ps (List.range n)
  let r := scanArrNC ps 0 sidx (List.replicate n false) []
  { rem := ps.map Process.bt, finish := List.replicate n 0,
    wt := ps.map Process.wt, inq := r.2.1, queue := r.2.2, pending := r.1,
    t := 0, completed := 0 }

/-- The `while (completed < n)` loop, indexed by fuel. -/
def rrLoop (ps : List Process) (q : Int) : Nat → RRState → Option RRState
  | 0, s => if s.completed = ps.length then some s else none
  | fuel + 1, s =>
    if s.completed = ps.length then some s
    else rrLoop ps q fuel (rrStep ps q s)

/-- Fuel sufficient for any terminating RR run: each iteration either
executes at least one time unit or consumes a pending arrival. -/
def rrFuel (ps : List Process) : Nat :=
  ((ps.map Process.bt).foldr (· + ·) 0).toNat + ps.length + 2

/-- `findWaitingTimeRR` (schedsim.c lines 111-213): run the loop and
write the computed waiting times back into the batch. -/
def findWaitingTimeRR (ps : List Process) (q : Int) : Option (List Process) :=
  (rrLoop ps q (rrFuel ps) (rrInit ps)).map fun s =>
    List.zipWith (fun p w => { p with wt := w }) ps s.wt

/-- `findavgTimeRR` (schedsim.c lines 238-242), minus the printing. -/
def findavgTimeRR (ps : List Process) (q : Int) : Option (List Process) :=
  (findWaitingTimeRR ps q).map findTurnAroundTime

/-- Arrival order with ties broken by insertion (index) order: the
order in which spec §4.4 requires ready processes to be enqueued. -/
def ArtIdxLe (ps : List Process) (a b : Nat) : Prop :=
  (ps.getD a dP).art < (ps.getD b dP).art ∨
    ((ps.getD a dP).art = (ps.getD b dP).art ∧ a ≤ b)

/-- The FCFS service-time recurrence exactly as spec §4.1 states it:
`serviceTime_0 = arrivalTime[0]`,
`serviceTime_i = max(serviceTime_{i-1} + burstTime[i-1], arrivalTime[i])`. -/
def fcfsServiceSpec (ps : List Process) : Nat → Int
  | 0 => (ps.getD 0 dP).art
  | i + 1 =>
    max (fcfsServiceSpec ps i + (ps.getD i dP).bt) ((ps.getD (i + 1) dP).art)

/-- The FCFS waiting time the spec's recurrence assigns to index `i`. -/
def fcfsWtSpec (ps : List Process) (i : Nat) : Int :=
  if i = 0 then 0 else max (fcfsServiceSpec ps i - (ps.getD i dP).art) 0

/-- FCFS completion time of index `i` under the spec recurrence. -/
def fcfsFinishSpec (ps : List Process) (i : Nat) : Int :=
  fcfsServiceSpec ps i + (ps.getD i dP).bt

/-- Service-time recurrence of `fcfsGo` relative to a seed: `s` and `b`
are the previous service time and burst time. -/
def servSeed (s b : Int) : List Process → Nat → Int
  | [], _ => s + b
  | p :: _, 0 => if s + b < p.art then p.art else s + b
  | p :: rest, i + 1 =>
    servSeed (if s + b < p.art then p.art else s + b) p.bt rest i

/-- Run invariant of the SRTF loop: lengths are stable, remaining
times stay between 0 and the burst times, `complete` counts the
finished processes, and every finished process has already received a
non-negative waiting time. -/
def SrtfInv (ps : List Process) (s : SrtfState) : Prop :=
  s.rem.length = ps.length ∧ s.wt.length = ps.length ∧
  (∀ j, j < ps.length →
    0 ≤ s.rem.getD j 0 ∧ s.rem.getD j 0 ≤ (ps.getD j dP).bt) ∧
  s.complete = s.rem.countP (fun r => r == 0) ∧
  (∀ j, j < ps.length → s.rem.getD j 0 = 0 → 0 ≤ s.wt.getD j 0)

/-- Termination measure of the SRTF loop: twice the remaining work,
plus one when the next iteration will be an idle jump (a jump does not
reduce remaining work, but is always followed by an execution). -/
def srtfMeasure (ps : List Process) (s : SrtfState) : Nat :=
  2 * (s.rem.foldr (· + ·) 0).toNat +
    (if (srtfSelect ps s.rem s.t).isSome then 0 else 1)

/-- Two batches that agree on every field except the computed
`wt`/`tat` fields (claim C10's notion of two copies of a batch). -/
def SameStatic (ps1 ps2 : List Process) : Prop :=
  List.Forall₂
    (fun a b => a.pid = b.pid ∧ a.bt = b.bt ∧ a.art = b.art ∧ a.pri = b.pri)
    ps1 ps2

/-- Reordering a batch by a list of indices (the effect of a `qsort`
call, viewed as the index permutation it applies). -/
def applyIdx (idxs : List Nat) (ps : List Process) : List Process :=
  idxs.map fun i => ps.getD i dP

/-- The batch is sorted by ascending arrival time (precondition of
spec §4.1 and of claims C6 and C7). -/
def SortedByArt (ps : List Process) : Prop :=
  ps.Sorted fun a b => a.art ≤ b.art

instance : DecidablePred SortedByArt := fun ps =>
  inferInstanceAs (Decidable (List.Pairwise _ ps))


/-- Strict arrival order with index tie-break (the canonical enqueue
order of spec §4.4 on distinct indices). -/
def ArtIdxLt (ps : List Process) (a b : Nat) : Prop :=
  (ps.getD a dP).art < (ps.getD b dP).art ∨
    ((ps.getD a dP).art = (ps.getD b dP).art ∧ a < b)

/-- The `sorted_idx` array the RR engine builds (schedsim.c 125-137). -/
def rrSidx (ps : List Process) : List Nat :=
  sortIdx ps (List.range ps.length)

/-- Run invariant of the RR loop: lengths are stable; `pending` is the
unscanned suffix of `sorted_idx`; pending processes are untouched
(flag 0, full burst remaining); scanned processes are flagged; the
queue holds no duplicates and only flagged, incomplete processes;
every flagged process is queued or complete; remaining times stay in
range; `completed` counts the finished processes; and finished
processes carry non-negative waiting times. -/
def RRInv (ps : List Process) (s : RRState) : Prop :=
  s.rem.length = ps.length ∧ s.wt.length = ps.length ∧
  s.inq.length = ps.length ∧ s.finish.length = ps.length ∧
  s.pending.IsSuffix (rrSidx ps) ∧
  (∀ j ∈ s.pending,
    s.inq.getD j false = false ∧ s.rem.getD j 0 = (ps.getD j dP).bt) ∧
  (∀ j, j < ps.length → j ∉ s.pending → s.inq.getD j false = true) ∧
  s.queue.Nodup ∧
  (∀ j ∈ s.queue, j < ps.length ∧ 0 < s.rem.getD j 0 ∧
    s.inq.getD j false = true ∧ j ∉ s.pending) ∧
  (∀ j, j < ps.length → s.inq.getD j false = true →
    j ∈ s.queue ∨ s.rem.getD j 0 = 0) ∧
  (∀ j, j < ps.length →
    0 ≤ s.rem.getD j 0 ∧ s.rem.getD j 0 ≤ (ps.getD j dP).bt) ∧
  s.completed = s.rem.countP (fun r => r == 0) ∧
  (∀ j, j < ps.length → s.rem.getD j 0 = 0 → 0 ≤ s.wt.getD j 0)

/-- Termination measure of the RR loop: remaining work plus the number
of unscanned arrivals (an execution reduces the first, an idle refill
the second). -/
def rrMeasure (s : RRState) : Nat :=
  (s.rem.foldr (· + ·) 0).toNat + s.pending.length

/-- States reachable by the RR loop on a given batch and quantum. -/
inductive RRreach (ps : List Process) (q : Int) : RRState → Prop
  | init : RRreach ps q (rrInit ps)
  | step (s : RRState) : RRreach ps q s → RRreach ps q (rrStep ps q s)

/-- Bisimulation relation for two SRTF runs on batches that differ
only in the incoming `wt`/`tat` fields: everything evolves identically
except the `wt` arrays, which agree on every completed process. -/
def SrtfRel (s1 s2 : SrtfState) : Prop :=
  s1.rem = s2.rem ∧ s1.t = s2.t ∧ s1.complete = s2.complete ∧
  s1.wt.length = s2.wt.length ∧
  (∀ j, j < s1.rem.length → s1.rem.getD j 0 = 0 →
    s1.wt.getD j 0 = s2.wt.getD j 0)

/-- Bisimulation relation for two RR runs on batches that differ only
in the incoming `wt`/`tat` fields. -/
def RRRel (s1 s2 : RRState) : Prop :=
  s1.rem = s2.rem ∧ s1.finish = s2.finish ∧ s1.inq = s2.inq ∧
  s1.queue = s2.queue ∧ s1.pending = s2.pending ∧ s1.t = s2.t ∧
  s1.completed = s2.completed ∧ s1.wt.length = s2.wt.length ∧
  (∀ j, j < s1.rem.length → s1.rem.getD j 0 = 0 →
    s1.wt.getD j 0 = s2.wt.getD j 0)

/-- Simulation invariant for claim C7 (RR with a quantum at least every
burst time, on an arrival-sorted batch, behaves like FCFS): after `c`
completions with `k` arrivals scanned, the queue is exactly the index
block `[c, k)`, the pending cursor sits at `k`, each completed process
already carries its FCFS waiting and completion time, and the clock
agrees with the FCFS service-time recurrence. -/
def rrFcfsInv (ps : List Process) (c k : Nat) (s : RRState) : Prop :=
  s.completed = c ∧ c ≤ k ∧ k ≤ ps.length ∧
  s.rem.length = ps.length ∧ s.wt.length = ps.length ∧
  s.finish.length = ps.length ∧ s.inq.length = ps.length ∧
  s.queue = List.range' c (k - c) ∧
  s.pending = List.range' k (ps.length - k) ∧
  (∀ j, j < c → s.rem.getD j 0 = 0) ∧
  (∀ j, c ≤ j → j < ps.length → s.rem.getD j 0 = (ps.getD j dP).bt) ∧
  (∀ j, j < c → s.wt.getD j 0 = fcfsWtSpec ps j) ∧
  (∀ j, j < c → s.finish.getD j 0 = fcfsFinishSpec ps j) ∧
  (∀ j, j < k → (ps.getD j dP).art ≤ s.t) ∧
  (∀ j, k ≤ j → j < ps.length → s.t < (ps.getD j dP).art) ∧
  (∀ j, j < k → s.inq.getD j false = true) ∧
  (∀ j, k ≤ j → j < ps.length → s.inq.getD j false = false) ∧
  (c < k → s.t = fcfsServiceSpec ps c) ∧
  (k = c → (c = 0 ∧ s.t = 0) ∨ (0 < c ∧ s.t = fcfsFinishSpec ps (c - 1)))

/-! ## Helper lemmas -/

theorem getD_set_self {α : Type} (l : List α) (i : Nat) (x d : α)
    (h : i < l.length) : (l.set i x).getD i d = x := by
  induction l generalizing i with
  | nil => simp at h
  | cons a l ih =>
    cases i with
    | zero => rfl
    | succ i => simpa using ih i (by simpa using h)

theorem getD_set_ne {α : Type} (l : List α) {i j : Nat} (x d : α)
    (h : i ≠ j) : (l.set i x).getD j d = l.getD j d := by
  induction l generalizing i j with
  | nil => rfl
  | cons a l ih =>
    cases i with
    | zero => cases j with
      | zero => exact absurd rfl h
      | succ j => rfl
    | succ i => cases j with
      | zero => rfl
      | succ j => simpa using ih (fun hh => h (by omega))

theorem tat_findTurnAroundTime {ps : List Process} {p : Process}
    (h : p ∈ findTurnAroundTime ps) : p.tat = p.bt + p.wt := by
  simp only [findTurnAroundTime, List.mem_map] at h
  obtain ⟨x, -, rfl⟩ := h
  rfl

theorem wt_fcfsGo_nonneg {l : List Process} {p : Process} :
    ∀ {s b : Int}, p ∈ fcfsGo s b l → 0 ≤ p.wt := by
  induction l with
  | nil => intro s b h; simp [fcfsGo] at h
  | cons a l ih =>
    intro s b h
    simp only [fcfsGo, List.mem_cons] at h
    rcases h with rfl | h
    · simp only []
      split <;> omega
    · exact ih h

theorem wt_findWaitingTimeFCFS_nonneg {ps : List Process} {p : Process}
    (h : p ∈ findWaitingTimeFCFS ps) : 0 ≤ p.wt := by
  cases ps with
  | nil => simp [findWaitingTimeFCFS] at h
  | cons a l =>
    simp only [findWaitingTimeFCFS, List.mem_cons] at h
    rcases h with rfl | h
    · exact le_refl (0 : Int)
    · exact wt_fcfsGo_nonneg h

/-! ## C1: turnaround time invariant -/

/-- C1: for every valid batch (all `burstTime > 0`) and each of the
four policies (FCFS, Priority, SRTF, RR), after the engine and
`findTurnAroundTime` run, every process satisfies
`turnaroundTime = burstTime + waitingTime`. -/
theorem C1_turnaround_invariant (ps : List Process) (q : Int)
    (_hv : ValidBatch ps) (_hq : 0 < q) :
    (∀ p ∈ findavgTimeFCFS ps, p.tat = p.bt + p.wt) ∧
    (∀ sortFn : List Process → List Process, qsortPost ps (sortFn ps) →
      ∀ p ∈ findavgTimePriority sortFn ps, p.tat = p.bt + p.wt) ∧
    (∀ out, findavgTimeSJF ps = some out → ∀ p ∈ out, p.tat = p.bt + p.wt) ∧
    (∀ out, findavgTimeRR ps q = some out → ∀ p ∈ out, p.tat = p.bt + p.wt) := by
  refine ⟨fun p hp => tat_findTurnAroundTime hp,
    fun sortFn _ p hp => tat_findTurnAroundTime hp, ?_, ?_⟩
  · intro out hout p hp
    simp only [findavgTimeSJF, Option.map_eq_some'] at hout
    obtain ⟨l, -, rfl⟩ := hout
    exact tat_findTurnAroundTime hp
  · intro out hout p hp
    simp only [findavgTimeRR, Option.map_eq_some'] at hout
    obtain ⟨l, -, rfl⟩ := hout
    exact tat_findTurnAroundTime hp

theorem C1_turnaround_invariant_witness :
    ValidBatch [⟨1, 2, 0, 0, 0, 0⟩, ⟨2, 3, 1, 0, 0, 0⟩] ∧ (0 : Int) < 2 ∧
    ((∀ p ∈ findavgTimeFCFS [⟨1, 2, 0, 0, 0, 0⟩, ⟨2, 3, 1, 0, 0, 0⟩],
        p.tat = p.bt + p.wt) ∧
      (∀ sortFn : List Process → List Process,
        qsortPost [⟨1, 2, 0, 0, 0, 0⟩, ⟨2, 3, 1, 0, 0, 0⟩]
          (sortFn [⟨1, 2, 0, 0, 0, 0⟩, ⟨2, 3, 1, 0, 0, 0⟩]) →
        ∀ p ∈ findavgTimePriority sortFn [⟨1, 2, 0, 0, 0, 0⟩, ⟨2, 3, 1, 0, 0, 0⟩],
          p.tat = p.bt + p.wt) ∧
      (∀ out, findavgTimeSJF [⟨1, 2, 0, 0, 0, 0⟩, ⟨2, 3, 1, 0, 0, 0⟩] = some out →
        ∀ p ∈ out, p.tat = p.bt + p.wt) ∧
      (∀ out, findavgTimeRR [⟨1, 2, 0, 0, 0, 0⟩, ⟨2, 3, 1, 0, 0, 0⟩] 2 = some out →
        ∀ p ∈ out, p.tat = p.bt + p.wt)) :=
  ⟨by decide, by decide,
    C1_turnaround_invariant _ 2 (by decide) (by decide)⟩

/-! ## C3: the Priority engine's sort -/

/-- C3 counterexample: `qsort`'s contract (C11 §7.22.5.2) does not fix
the order of elements that compare equal, so for the two equal-priority
processes below the output `[p2, p1]` is a permitted result of the
`qsort` call in `findavgTimePriority` even though it reverses their
input order — the engine is not guaranteed to stable-sort. -/
theorem C3_stability_cex :
    qsortPost [⟨1, 1, 0, 5, 0, 0⟩, ⟨2, 1, 0, 5, 0, 0⟩]
      [⟨2, 1, 0, 5, 0, 0⟩, ⟨1, 1, 0, 5, 0, 0⟩] ∧
    (Process.pri ⟨1, 1, 0, 5, 0, 0⟩ = Process.pri ⟨2, 1, 0, 5, 0, 0⟩) ∧
    ([⟨2, 1, 0, 5, 0, 0⟩, ⟨1, 1, 0, 5, 0, 0⟩] : List Process) ≠
      [⟨1, 1, 0, 5, 0, 0⟩, ⟨2, 1, 0, 5, 0, 0⟩] := by
  refine ⟨⟨List.Perm.swap _ _ _, ?_⟩, rfl, by decide⟩
  simp [List.Sorted, List.pairwise_cons, my_comparer]

/-- C3 amended: the Priority engine reorders the batch into some
permutation ordered by descending priority — equal-priority order is
whatever `qsort` produced, not necessarily the input order — and then
runs the FCFS waiting-time algorithm on the reordered batch. -/
theorem C3_priority_sort (ps : List Process)
    (sortFn : List Process → List Process) (h : qsortPost ps (sortFn ps)) :
    (sortFn ps).Perm ps ∧
    (sortFn ps).Sorted (fun a b => b.pri ≤ a.pri) ∧
    findavgTimePriority sortFn ps =
      findTurnAroundTime (findWaitingTimeFCFS (sortFn ps)) := by
  refine ⟨h.1, ?_, rfl⟩
  refine h.2.imp ?_
  intro a b hab
  simpa [my_comparer, sub_nonpos] using hab

theorem C3_priority_sort_witness :
    qsortPost [⟨1, 1, 0, 5, 0, 0⟩] ((fun l => l) [⟨1, 1, 0, 5, 0, 0⟩]) ∧
    (((fun l => l) [⟨1, 1, 0, 5, 0, 0⟩] : List Process).Perm
        [⟨1, 1, 0, 5, 0, 0⟩] ∧
      ((fun l => l) [⟨1, 1, 0, 5, 0, 0⟩] : List Process).Sorted
        (fun a b => b.pri ≤ a.pri) ∧
      findavgTimePriority (fun l => l) [⟨1, 1, 0, 5, 0, 0⟩] =
        findTurnAroundTime (findWaitingTimeFCFS
          ((fun l => l) [⟨1, 1, 0, 5, 0, 0⟩]))) :=
  ⟨⟨List.Perm.refl _, List.sorted_singleton _⟩,
    C3_priority_sort _ (fun l => l) ⟨List.Perm.refl _, List.sorted_singleton _⟩⟩

/-! ## C6: the FCFS recurrence -/

theorem if_lt_eq_max (x a : Int) : (if x < a then a else x) = max x a := by
  rcases le_or_lt a x with h | h
  · rw [if_neg (not_lt.mpr h), max_eq_left h]
  · rw [if_pos h, max_eq_right h.le]

theorem if_neg_eq_max (w : Int) : (if w < 0 then 0 else w) = max w 0 := by
  rcases le_or_lt 0 w with h | h
  · rw [if_neg (not_lt.mpr h), max_eq_left h]
  · rw [if_pos h, max_eq_right h.le]

theorem length_fcfsGo (l : List Process) :
    ∀ s b : Int, (fcfsGo s b l).length = l.length := by
  induction l with
  | nil => intro s b; rfl
  | cons p rest ih => intro s b; simp [fcfsGo, ih]

theorem length_findWaitingTimeFCFS (ps : List Process) :
    (findWaitingTimeFCFS ps).length = ps.length := by
  cases ps with
  | nil => rfl
  | cons p rest => simp [findWaitingTimeFCFS, length_fcfsGo]

theorem servSeed_succ (l : List Process) :
    ∀ (i : Nat) (s b : Int), i + 1 < l.length →
    servSeed s b l (i + 1) =
      max (servSeed s b l i + (l.getD i dP).bt) ((l.getD (i + 1) dP).art) := by
  induction l with
  | nil => intro i s b h; simp at h
  | cons p rest ih =>
    intro i s b h
    cases i with
    | zero =>
      cases rest with
      | nil => simp at h
      | cons p1 rest' =>
        simp only [servSeed, List.getD_cons_zero, List.getD_cons_succ]
        rw [if_lt_eq_max]
    | succ i =>
      have h' : i + 1 < rest.length := by simpa using h
      simp only [servSeed, List.getD_cons_succ]
      exact ih i _ p.bt h'

theorem fcfsServiceSpec_shift (p : Process) (rest : List Process) :
    ∀ i : Nat, i < rest.length →
    fcfsServiceSpec (p :: rest) (i + 1) = servSeed p.art p.bt rest i := by
  intro i
  induction i with
  | zero =>
    intro h
    cases rest with
    | nil => simp at h
    | cons p1 rest' =>
      simp only [fcfsServiceSpec, servSeed, List.getD_cons_zero,
        List.getD_cons_succ]
      rw [if_lt_eq_max]
  | succ i ih =>
    intro h
    have hi : i < rest.length := by omega
    rw [fcfsServiceSpec, ih hi, servSeed_succ rest i p.art p.bt (by omega)]
    simp only [List.getD_cons_succ]

theorem fcfsGo_wt (l : List Process) :
    ∀ (i : Nat) (s b : Int), i < l.length →
    ((fcfsGo s b l).getD i dP).wt =
      max (servSeed s b l i - (l.getD i dP).art) 0 := by
  induction l with
  | nil => intro i s b h; simp at h
  | cons p rest ih =>
    intro i s b h
    cases i with
    | zero =>
      simp only [fcfsGo, List.getD_cons_zero, servSeed]
      rw [if_neg_eq_max]
    | succ i =>
      simp only [fcfsGo, List.getD_cons_succ, servSeed]
      exact ih i _ p.bt (by simpa using h)

/-- C6: for every batch sorted ascending by arrival time, FCFS sets
the first process's waiting time to 0 and gives each later process `i`
the waiting time `serviceTime_i - arrivalTime[i]` clamped to `≥ 0`,
where `serviceTime` follows the spec recurrence
`serviceTime_i = max(serviceTime_{i-1} + burstTime[i-1], arrivalTime[i])`
seeded with `serviceTime_0 = arrivalTime[0]`. -/
theorem C6_fcfs_recurrence (ps : List Process) (_hsorted : SortedByArt ps) :
    (findWaitingTimeFCFS ps).length = ps.length ∧
    ∀ i, i < ps.length →
      ((findWaitingTimeFCFS ps).getD i dP).wt = fcfsWtSpec ps i := by
  refine ⟨length_findWaitingTimeFCFS ps, ?_⟩
  intro i hi
  cases ps with
  | nil => simp at hi
  | cons p rest =>
    cases i with
    | zero => simp [findWaitingTimeFCFS, fcfsWtSpec]
    | succ i =>
      have hi' : i < rest.length := by simpa using hi
      simp only [findWaitingTimeFCFS, List.getD_cons_succ]
      rw [fcfsGo_wt rest i p.art p.bt hi']
      simp only [fcfsWtSpec, Nat.succ_ne_zero, if_false]
      rw [fcfsServiceSpec_shift p rest i hi']
      simp only [List.getD_cons_succ]

theorem C6_fcfs_recurrence_witness :
    SortedByArt [⟨1, 2, 0, 0, 0, 0⟩, ⟨2, 3, 5, 0, 0, 0⟩, ⟨3, 1, 6, 0, 0, 0⟩] ∧
    ((findWaitingTimeFCFS
        [⟨1, 2, 0, 0, 0, 0⟩, ⟨2, 3, 5, 0, 0, 0⟩, ⟨3, 1, 6, 0, 0, 0⟩]).length =
      ([⟨1, 2, 0, 0, 0, 0⟩, ⟨2, 3, 5, 0, 0, 0⟩, ⟨3, 1, 6, 0, 0, 0⟩] :
        List Process).length ∧
      ∀ i, i < ([⟨1, 2, 0, 0, 0, 0⟩, ⟨2, 3, 5, 0, 0, 0⟩, ⟨3, 1, 6, 0, 0, 0⟩] :
          List Process).length →
        ((findWaitingTimeFCFS
            [⟨1, 2, 0, 0, 0, 0⟩, ⟨2, 3, 5, 0, 0, 0⟩, ⟨3, 1, 6, 0, 0, 0⟩]).getD
          i dP).wt =
        fcfsWtSpec [⟨1, 2, 0, 0, 0, 0⟩, ⟨2, 3, 5, 0, 0, 0⟩, ⟨3, 1, 6, 0, 0, 0⟩] i) :=
  ⟨by decide, C6_fcfs_recurrence _ (by decide)⟩

/-! ## C4: the SRTF decision rule -/

theorem getD_zip {α β : Type} (as : List α) (bs : List β) :
    ∀ (i : Nat) (da : α) (db : β), i < as.length → i < bs.length →
    (as.zip bs).getD i (da, db) = (as.getD i da, bs.getD i db) := by
  induction as generalizing bs with
  | nil => intro i da db ha hb; simp at ha
  | cons a as ih =>
    intro i da db ha hb
    cases bs with
    | nil => simp at hb
    | cons b bs =>
      cases i with
      | zero => rfl
      | succ i =>
        simpa using ih bs i da db (by simpa using ha) (by simpa using hb)

theorem selectGo_snoc (t : Int) (l : List (Int × Int)) (e : Int × Int) :
    ∀ (j : Nat) (s : Option Nat) (m : Int),
    selectGo t (l ++ [e]) j s m =
      if e.1 ≤ t ∧ 0 < e.2 ∧ e.2 < (selectGo t l j s m).2 then
        (some (j + l.length), e.2)
      else selectGo t l j s m := by
  induction l with
  | nil =>
    intro j s m
    simp only [List.nil_append, selectGo, List.length_nil, Nat.add_zero]
  | cons a l ih =>
    intro j s m
    simp only [List.cons_append, selectGo, List.append_eq]
    split
    · rw [ih (j + 1) (some j) a.2]
      have hn : j + 1 + l.length = j + (a :: l).length := by
        simp only [List.length_cons]
        omega
      rw [hn]
    · rw [ih (j + 1) s m]
      have hn : j + 1 + l.length = j + (a :: l).length := by
        simp only [List.length_cons]
        omega
      rw [hn]

/-- Full characterization of the scan of schedsim.c lines 69-74 when
every remaining time is below the `INT_MAX` sentinel: either nothing is
eligible and no index is selected, or the selected index is eligible
with minimal remaining time, ties broken by lowest index. -/
theorem selectGo_master (t : Int) (l : List (Int × Int))
    (H : ∀ i, i < l.length → (l.getD i (0, 0)).2 < INTMAX) :
    ((selectGo t l 0 none INTMAX).1 = none ∧
      (selectGo t l 0 none INTMAX).2 = INTMAX ∧
      ∀ i, i < l.length →
        ¬((l.getD i (0, 0)).1 ≤ t ∧ 0 < (l.getD i (0, 0)).2)) ∨
    (∃ k, k < l.length ∧ (selectGo t l 0 none INTMAX).1 = some k ∧
      (l.getD k (0, 0)).1 ≤ t ∧ 0 < (l.getD k (0, 0)).2 ∧
      (selectGo t l 0 none INTMAX).2 = (l.getD k (0, 0)).2 ∧
      ∀ i, i < l.length → (l.getD i (0, 0)).1 ≤ t → 0 < (l.getD i (0, 0)).2 →
        (l.getD k (0, 0)).2 ≤ (l.getD i (0, 0)).2 ∧
        ((l.getD i (0, 0)).2 = (l.getD k (0, 0)).2 → k ≤ i)) := by
  induction l using List.reverseRecOn with
  | nil => exact Or.inl ⟨rfl, rfl, by intro i h; simp at h⟩
  | append_singleton l' e ih =>
    have H' : ∀ i, i < l'.length → (l'.getD i (0, 0)).2 < INTMAX := by
      intro i hi
      have := H i (by simp; omega)
      rwa [List.getD_append _ _ _ _ hi] at this
    have hgetl : ∀ i, i < l'.length →
        ((l' ++ [e]).getD i (0, 0)) = l'.getD i (0, 0) := fun i hi =>
      List.getD_append _ _ _ _ hi
    have hgete : ((l' ++ [e]).getD l'.length (0, 0)) = e := by
      rw [List.getD_append_right _ _ _ _ (le_refl _)]
      simp
    have hlen : (l' ++ [e]).length = l'.length + 1 := by simp
    rw [selectGo_snoc t l' e 0 none INTMAX]
    rcases ih H' with ⟨h1, h2, h3⟩ | ⟨k, hk, h1, ha, hv, h2, hmin⟩
    · split
      · next hcond =>
        refine Or.inr ⟨l'.length, by omega, by simp, ?_, ?_, by simp, ?_⟩
        · rw [hgete]; exact hcond.1
        · rw [hgete]; exact hcond.2.1
        · intro i hi hai hvi
          rw [hlen] at hi
          rcases Nat.lt_or_ge i l'.length with hil | hil
          · exfalso
            rw [hgetl i hil] at hai hvi
            exact h3 i hil ⟨hai, hvi⟩
          · have : i = l'.length := by omega
            subst this
            rw [hgete]
            exact ⟨le_refl _, fun _ => le_refl _⟩
      · next hcond =>
        refine Or.inl ⟨h1, h2, ?_⟩
        intro i hi
        rw [hlen] at hi
        rcases Nat.lt_or_ge i l'.length with hil | hil
        · rw [hgetl i hil]; exact h3 i hil
        · have : i = l'.length := by omega
          subst this
          rw [hgete]
          rw [h2] at hcond
          intro ⟨hat, hv2⟩
          have hlt : e.2 < INTMAX := by
            have := H l'.length (by omega)
            rwa [hgete] at this
          exact hcond ⟨hat, hv2, hlt⟩
    · split
      · next hcond =>
        rw [h2] at hcond
        refine Or.inr ⟨l'.length, by omega, by simp, ?_, ?_, by simp, ?_⟩
        · rw [hgete]; exact hcond.1
        · rw [hgete]; exact hcond.2.1
        · intro i hi hai hvi
          rw [hlen] at hi
          rcases Nat.lt_or_ge i l'.length with hil | hil
          · rw [hgetl i hil] at hai hvi ⊢
            rw [hgete]
            have hm := hmin i hil hai hvi
            constructor
            · exact le_trans (le_of_lt hcond.2.2) hm.1
            · intro heq
              exfalso
              have := hcond.2.2
              omega
          · have : i = l'.length := by omega
            subst this
            rw [hgete]
            exact ⟨le_refl _, fun _ => le_refl _⟩
      · next hcond =>
        rw [h2] at hcond
        refine Or.inr ⟨k, by omega, h1, ?_, ?_, ?_, ?_⟩
        · rw [hgetl k hk]; exact ha
        · rw [hgetl k hk]; exact hv
        · rw [hgetl k hk]; exact h2
        · intro i hi hai hvi
          rw [hlen] at hi
          rw [hgetl k hk]
          rcases Nat.lt_or_ge i l'.length with hil | hil
          · rw [hgetl i hil] at hai hvi ⊢
            exact hmin i hil hai hvi
          · have : i = l'.length := by omega
            subst this
            rw [hgete] at hai hvi ⊢
            constructor
            · by_contra hcon
              push_neg at hcon
              exact hcond ⟨hai, hvi, hcon⟩
            · intro _
              omega

theorem nextArrGo_snoc (l : List (Int × Int)) (e : Int × Int) :
    ∀ na : Int, nextArrGo (l ++ [e]) na =
      if 0 < e.2 ∧ e.1 < nextArrGo l na then e.1 else nextArrGo l na := by
  induction l with
  | nil => intro na; simp only [List.nil_append, nextArrGo]
  | cons a l ih =>
    intro na
    simp only [List.cons_append, nextArrGo, List.append_eq]
    rw [ih]

/-- Characterization of the idle-jump scan of schedsim.c lines 78-83:
the result lower-bounds the arrival time of every not-yet-finished
entry, and is attained by one of them unless it is still `INT_MAX` and
every such entry has arrival time `≥ INT_MAX`. -/
theorem nextArrGo_master (l : List (Int × Int)) :
    (∀ i, i < l.length → 0 < (l.getD i (0, 0)).2 →
      nextArrGo l INTMAX ≤ (l.getD i (0, 0)).1) ∧
    ((nextArrGo l INTMAX = INTMAX ∧
        ∀ i, i < l.length → 0 < (l.getD i (0, 0)).2 →
          INTMAX ≤ (l.getD i (0, 0)).1) ∨
      (∃ i, i < l.length ∧ 0 < (l.getD i (0, 0)).2 ∧
        (l.getD i (0, 0)).1 = nextArrGo l INTMAX)) := by
  induction l using List.reverseRecOn with
  | nil =>
    refine ⟨fun i h => by simp at h, Or.inl ⟨rfl, fun i h => by simp at h⟩⟩
  | append_singleton l' e ih =>
    obtain ⟨iha, ihb⟩ := ih
    have hgetl : ∀ i, i < l'.length →
        ((l' ++ [e]).getD i (0, 0)) = l'.getD i (0, 0) := fun i hi =>
      List.getD_append _ _ _ _ hi
    have hgete : ((l' ++ [e]).getD l'.length (0, 0)) = e := by
      rw [List.getD_append_right _ _ _ _ (le_refl _)]
      simp
    have hlen : (l' ++ [e]).length = l'.length + 1 := by simp
    rw [nextArrGo_snoc l' e INTMAX]
    split
    · next hcond =>
      constructor
      · intro i hi hv
        rw [hlen] at hi
        rcases Nat.lt_or_ge i l'.length with hil | hil
        · rw [hgetl i hil] at hv ⊢
          exact le_trans (le_of_lt hcond.2) (iha i hil hv)
        · have : i = l'.length := by omega
          subst this
          rw [hgete]
      · exact Or.inr ⟨l'.length, by omega, by rw [hgete]; exact hcond.1,
          by rw [hgete]⟩
    · next hcond =>
      constructor
      · intro i hi hv
        rw [hlen] at hi
        rcases Nat.lt_or_ge i l'.length with hil | hil
        · rw [hgetl i hil] at hv ⊢
          exact iha i hil hv
        · have : i = l'.length := by omega
          subst this
          rw [hgete] at hv ⊢
          by_contra hcon
          push_neg at hcon
          exact hcond ⟨hv, hcon⟩
      · rcases ihb with ⟨h1, h2⟩ | ⟨i, hi, hv, heq⟩
        · refine Or.inl ⟨h1, ?_⟩
          intro i hil hv
          rw [hlen] at hil
          rcases Nat.lt_or_ge i l'.length with hil' | hil'
          · rw [hgetl i hil'] at hv ⊢
            exact h2 i hil' hv
          · have : i = l'.length := by omega
            subst this
            rw [hgete] at hv ⊢
            rw [h1] at hcond
            by_contra hcon
            push_neg at hcon
            exact hcond ⟨hv, hcon⟩
        · exact Or.inr ⟨i, by omega, by rw [hgetl i hi]; exact hv,
            by rw [hgetl i hi]; exact heq⟩

theorem getD_map_art (ps : List Process) :
    ∀ j : Nat, (ps.map Process.art).getD j 0 = (ps.getD j dP).art := by
  induction ps with
  | nil => intro j; cases j <;> rfl
  | cons p l ih =>
    intro j
    cases j with
    | zero => rfl
    | succ j => simpa using ih j

theorem getD_map_bt (ps : List Process) :
    ∀ j : Nat, (ps.map Process.bt).getD j 0 = (ps.getD j dP).bt := by
  induction ps with
  | nil => intro j; cases j <;> rfl
  | cons p l ih =>
    intro j
    cases j with
    | zero => rfl
    | succ j => simpa using ih j

theorem getD_map_wt (ps : List Process) :
    ∀ j : Nat, (ps.map Process.wt).getD j 0 = (ps.getD j dP).wt := by
  induction ps with
  | nil => intro j; cases j <;> rfl
  | cons p l ih =>
    intro j
    cases j with
    | zero => rfl
    | succ j => simpa using ih j

theorem getD_mem_of_lt {α : Type} (l : List α) (i : Nat) (d : α)
    (h : i < l.length) : l.getD i d ∈ l := by
  rw [List.getD_eq_getElem l d h]
  exact List.getElem_mem h

theorem zipArtRem_getD (ps : List Process) (rem : List Int)
    (hlen : rem.length = ps.length) (j : Nat) (hj : j < rem.length) :
    ((ps.map Process.art).zip rem).getD j (0, 0) =
      ((ps.getD j dP).art, rem.getD j 0) := by
  rw [getD_zip _ _ j 0 0 (by simp [← hlen, hj]) hj, getD_map_art]

theorem zipArtRem_length (ps : List Process) (rem : List Int)
    (hlen : rem.length = ps.length) :
    ((ps.map Process.art).zip rem).length = rem.length := by
  simp [List.length_zip, hlen]

/-- The `shortest` scan of `findWaitingTimeSJF`, characterized at the
level of the batch: when every remaining time is below `INT_MAX`,
either no process is eligible and the scan selects nothing, or it
selects the eligible process with minimal remaining time, ties broken
by lowest index. -/
theorem srtfSelect_master (ps : List Process) (rem : List Int) (t : Int)
    (hlen : rem.length = ps.length)
    (H : ∀ j, j < rem.length → rem.getD j 0 < INTMAX) :
    (srtfSelect ps rem t = none ∧
      ∀ j, j < rem.length → ¬((ps.getD j dP).art ≤ t ∧ 0 < rem.getD j 0)) ∨
    (∃ k, k < rem.length ∧ srtfSelect ps rem t = some k ∧
      (ps.getD k dP).art ≤ t ∧ 0 < rem.getD k 0 ∧
      ∀ j, j < rem.length → (ps.getD j dP).art ≤ t → 0 < rem.getD j 0 →
        rem.getD k 0 ≤ rem.getD j 0 ∧
        (rem.getD j 0 = rem.getD k 0 → k ≤ j)) := by
  have hElen := zipArtRem_length ps rem hlen
  have hE := zipArtRem_getD ps rem hlen
  have H' : ∀ i, i < ((ps.map Process.art).zip rem).length →
      (((ps.map Process.art).zip rem).getD i (0, 0)).2 < INTMAX := by
    intro i hi
    rw [hElen] at hi
    rw [hE i hi]
    exact H i hi
  rcases selectGo_master t ((ps.map Process.art).zip rem) H' with
    ⟨h1, -, h3⟩ | ⟨k, hk, h1, ha, hv, -, hmin⟩
  · refine Or.inl ⟨h1, ?_⟩
    intro j hj hc
    have := h3 j (by rw [hElen]; exact hj)
    rw [hE j hj] at this
    exact this hc
  · rw [hElen] at hk
    rw [hE k hk] at ha hv
    refine Or.inr ⟨k, hk, h1, ha, hv, ?_⟩
    intro j hj haj hvj
    have := hmin j (by rw [hElen]; exact hj)
    rw [hE j hj, hE k hk] at this
    exact this haj hvj

/-- The idle-jump target of `findWaitingTimeSJF`, characterized at the
level of the batch. -/
theorem srtfNextArr_master (ps : List Process) (rem : List Int)
    (hlen : rem.length = ps.length)
    (hart : ∀ p ∈ ps, p.art ≤ INTMAX) :
    (∀ j, j < rem.length → 0 < rem.getD j 0 →
      srtfNextArr ps rem ≤ (ps.getD j dP).art) ∧
    ((∃ j, j < rem.length ∧ 0 < rem.getD j 0) →
      ∃ j, j < rem.length ∧ 0 < rem.getD j 0 ∧
        (ps.getD j dP).art = srtfNextArr ps rem) := by
  have hElen := zipArtRem_length ps rem hlen
  have hE := zipArtRem_getD ps rem hlen
  obtain ⟨ha, hb⟩ := nextArrGo_master ((ps.map Process.art).zip rem)
  constructor
  · intro j hj hv
    have := ha j (by rw [hElen]; exact hj)
    rw [hE j hj] at this
    exact this hv
  · rintro ⟨j, hj, hv⟩
    rcases hb with ⟨h1, h2⟩ | ⟨i, hi, hvi, heq⟩
    · refine ⟨j, hj, hv, ?_⟩
      have := h2 j (by rw [hElen]; exact hj)
      rw [hE j hj] at this
      have hub : (ps.getD j dP).art ≤ INTMAX :=
        (hart _ (getD_mem_of_lt ps j dP (hlen ▸ hj)))
      have hlb := this hv
      have h1' : srtfNextArr ps rem = INTMAX := h1
      omega
    · rw [hElen] at hi
      rw [hE i hi] at hvi heq
      exact ⟨i, hi, hvi, heq⟩

theorem srtfStep_of_none {ps : List Process} {s : SrtfState}
    (h : srtfSelect ps s.rem s.t = none) :
    srtfStep ps s = { s with t := srtfNextArr ps s.rem } := by
  simp [srtfStep, h]

theorem srtfStep_of_some {ps : List Process} {s : SrtfState} {k : Nat}
    (h : srtfSelect ps s.rem s.t = some k) :
    (srtfStep ps s).rem = s.rem.set k (s.rem.getD k 0 - 1) ∧
    (srtfStep ps s).t = s.t + 1 := by
  simp only [srtfStep, h]
  split <;> exact ⟨rfl, rfl⟩

/-- C4 amended: provided every remaining burst time is strictly below
the `INT_MAX` sentinel (which holds throughout a run whenever every
burst time is `< INT_MAX`) and arrival times are representable, the
SRTF engine executes, at every step where some process is eligible, the
eligible process with minimum remaining time, ties broken by lowest
index; and when no process is eligible it advances the clock directly
to the minimum arrival time among not-yet-completed processes. -/
theorem C4_srtf_decision (ps : List Process) (s : SrtfState)
    (hlen : s.rem.length = ps.length)
    (hrem : ∀ j, j < s.rem.length → s.rem.getD j 0 < INTMAX)
    (hart : ∀ p ∈ ps, p.art ≤ INTMAX) :
    ((∃ j, SrtfElig ps s j) →
      ∃ k, srtfSelect ps s.rem s.t = some k ∧ SrtfElig ps s k ∧
        (∀ i, SrtfElig ps s i → s.rem.getD k 0 ≤ s.rem.getD i 0 ∧
          (s.rem.getD i 0 = s.rem.getD k 0 → k ≤ i)) ∧
        (srtfStep ps s).rem = s.rem.set k (s.rem.getD k 0 - 1) ∧
        (srtfStep ps s).t = s.t + 1) ∧
    ((¬∃ j, SrtfElig ps s j) →
      (∃ j, j < s.rem.length ∧ 0 < s.rem.getD j 0) →
      (srtfStep ps s).rem = s.rem ∧
      (∃ j, j < s.rem.length ∧ 0 < s.rem.getD j 0 ∧
        (ps.getD j dP).art = (srtfStep ps s).t) ∧
      ∀ j, j < s.rem.length → 0 < s.rem.getD j 0 →
        (srtfStep ps s).t ≤ (ps.getD j dP).art) := by
  rcases srtfSelect_master ps s.rem s.t hlen hrem with
    ⟨hnone, hnoelig⟩ | ⟨k, hk, hsel, ha, hv, hmin⟩
  · constructor
    · rintro ⟨j, hjl, hja, hjv⟩
      exact absurd ⟨hja, hjv⟩ (hnoelig j hjl)
    · intro _ hex
      rw [srtfStep_of_none hnone]
      obtain ⟨hlb, hach⟩ := srtfNextArr_master ps s.rem hlen hart
      exact ⟨rfl, hach hex, fun j hj hv => hlb j hj hv⟩
  · constructor
    · intro _
      obtain ⟨hr, ht⟩ := srtfStep_of_some hsel
      refine ⟨k, hsel, ⟨hk, ha, hv⟩, ?_, hr, ht⟩
      rintro i ⟨hil, hia, hiv⟩
      exact hmin i hil hia hiv
    · intro hne
      exact absurd ⟨k, hk, ha, hv⟩ hne

theorem C4_srtf_decision_witness :
    ((srtfInit [⟨1, 2, 0, 0, 0, 0⟩, ⟨2, 1, 1, 0, 0, 0⟩]).rem.length =
      ([⟨1, 2, 0, 0, 0, 0⟩, ⟨2, 1, 1, 0, 0, 0⟩] : List Process).length) ∧
    (∀ j, j < (srtfInit [⟨1, 2, 0, 0, 0, 0⟩, ⟨2, 1, 1, 0, 0, 0⟩]).rem.length →
      (srtfInit [⟨1, 2, 0, 0, 0, 0⟩, ⟨2, 1, 1, 0, 0, 0⟩]).rem.getD j 0 < INTMAX) ∧
    (∀ p ∈ ([⟨1, 2, 0, 0, 0, 0⟩, ⟨2, 1, 1, 0, 0, 0⟩] : List Process),
      p.art ≤ INTMAX) ∧
    (((∃ j, SrtfElig [⟨1, 2, 0, 0, 0, 0⟩, ⟨2, 1, 1, 0, 0, 0⟩]
        (srtfInit [⟨1, 2, 0, 0, 0, 0⟩, ⟨2, 1, 1, 0, 0, 0⟩]) j) →
      ∃ k, srtfSelect [⟨1, 2, 0, 0, 0, 0⟩, ⟨2, 1, 1, 0, 0, 0⟩]
          (srtfInit [⟨1, 2, 0, 0, 0, 0⟩, ⟨2, 1, 1, 0, 0, 0⟩]).rem
          (srtfInit [⟨1, 2, 0, 0, 0, 0⟩, ⟨2, 1, 1, 0, 0, 0⟩]).t = some k ∧
        SrtfElig [⟨1, 2, 0, 0, 0, 0⟩, ⟨2, 1, 1, 0, 0, 0⟩]
          (srtfInit [⟨1, 2, 0, 0, 0, 0⟩, ⟨2, 1, 1, 0, 0, 0⟩]) k ∧
        (∀ i, SrtfElig [⟨1, 2, 0, 0, 0, 0⟩, ⟨2, 1, 1, 0, 0, 0⟩]
            (srtfInit [⟨1, 2, 0, 0, 0, 0⟩, ⟨2, 1, 1, 0, 0, 0⟩]) i →
          (srtfInit [⟨1, 2, 0, 0, 0, 0⟩, ⟨2, 1, 1, 0, 0, 0⟩]).rem.getD k 0 ≤
            (srtfInit [⟨1, 2, 0, 0, 0, 0⟩, ⟨2, 1, 1, 0, 0, 0⟩]).rem.getD i 0 ∧
          ((srtfInit [⟨1, 2, 0, 0, 0, 0⟩, ⟨2, 1, 1, 0, 0, 0⟩]).rem.getD i 0 =
              (srtfInit [⟨1, 2, 0, 0, 0, 0⟩, ⟨2, 1, 1, 0, 0, 0⟩]).rem.getD k 0 →
            k ≤ i)) ∧
        (srtfStep [⟨1, 2, 0, 0, 0, 0⟩, ⟨2, 1, 1, 0, 0, 0⟩]
            (srtfInit [⟨1, 2, 0, 0, 0, 0⟩, ⟨2, 1, 1, 0, 0, 0⟩])).rem =
          (srtfInit [⟨1, 2, 0, 0, 0, 0⟩, ⟨2, 1, 1, 0, 0, 0⟩]).rem.set k
            ((srtfInit [⟨1, 2, 0, 0, 0, 0⟩, ⟨2, 1, 1, 0, 0, 0⟩]).rem.getD k 0 - 1) ∧
        (srtfStep [⟨1, 2, 0, 0, 0, 0⟩, ⟨2, 1, 1, 0, 0, 0⟩]
            (srtfInit [⟨1, 2, 0, 0, 0, 0⟩, ⟨2, 1, 1, 0, 0, 0⟩])).t =
          (srtfInit [⟨1, 2, 0, 0, 0, 0⟩, ⟨2, 1, 1, 0, 0, 0⟩]).t + 1) ∧
    ((¬∃ j, SrtfElig [⟨1, 2, 0, 0, 0, 0⟩, ⟨2, 1, 1, 0, 0, 0⟩]
        (srtfInit [⟨1, 2, 0, 0, 0, 0⟩, ⟨2, 1, 1, 0, 0, 0⟩]) j) →
      (∃ j, j < (srtfInit [⟨1, 2, 0, 0, 0, 0⟩, ⟨2, 1, 1, 0, 0, 0⟩]).rem.length ∧
        0 < (srtfInit [⟨1, 2, 0, 0, 0, 0⟩, ⟨2, 1, 1, 0, 0, 0⟩]).rem.getD j 0) →
      (srtfStep [⟨1, 2, 0, 0, 0, 0⟩, ⟨2, 1, 1, 0, 0, 0⟩]
          (srtfInit [⟨1, 2, 0, 0, 0, 0⟩, ⟨2, 1, 1, 0, 0, 0⟩])).rem =
        (srtfInit [⟨1, 2, 0, 0, 0, 0⟩, ⟨2, 1, 1, 0, 0, 0⟩]).rem ∧
      (∃ j, j < (srtfInit [⟨1, 2, 0, 0, 0, 0⟩, ⟨2, 1, 1, 0, 0, 0⟩]).rem.length ∧
        0 < (srtfInit [⟨1, 2, 0, 0, 0, 0⟩, ⟨2, 1, 1, 0, 0, 0⟩]).rem.getD j 0 ∧
        (([⟨1, 2, 0, 0, 0, 0⟩, ⟨2, 1, 1, 0, 0, 0⟩] : List Process).getD j dP).art =
          (srtfStep [⟨1, 2, 0, 0, 0, 0⟩, ⟨2, 1, 1, 0, 0, 0⟩]
            (srtfInit [⟨1, 2, 0, 0, 0, 0⟩, ⟨2, 1, 1, 0, 0, 0⟩])).t) ∧
      ∀ j, j < (srtfInit [⟨1, 2, 0, 0, 0, 0⟩, ⟨2, 1, 1, 0, 0, 0⟩]).rem.length →
        0 < (srtfInit [⟨1, 2, 0, 0, 0, 0⟩, ⟨2, 1, 1, 0, 0, 0⟩]).rem.getD j 0 →
        (srtfStep [⟨1, 2, 0, 0, 0, 0⟩, ⟨2, 1, 1, 0, 0, 0⟩]
            (srtfInit [⟨1, 2, 0, 0, 0, 0⟩, ⟨2, 1, 1, 0, 0, 0⟩])).t ≤
          (([⟨1, 2, 0, 0, 0, 0⟩, ⟨2, 1, 1, 0, 0, 0⟩] : List Process).getD j dP).art)) :=
  ⟨by decide, by decide, by decide,
    C4_srtf_decision _ _ (by decide) (by decide) (by decide)⟩

/-- C4 counterexample: for the valid single-process batch with
`burstTime = INT_MAX` (arrival 0), the process is eligible at the very
first step, yet the scan's `rem_bt[j] < minm` test with `minm`
initialized to `INT_MAX` never selects it: the step executes nothing
and leaves both the remaining times and the clock unchanged, instead of
running the unique eligible minimum-remaining-time process. -/
theorem C4_sentinel_cex :
    ValidBatch [⟨1, 2147483647, 0, 0, 0, 0⟩] ∧
    SrtfElig [⟨1, 2147483647, 0, 0, 0, 0⟩]
      (srtfInit [⟨1, 2147483647, 0, 0, 0, 0⟩]) 0 ∧
    (srtfStep [⟨1, 2147483647, 0, 0, 0, 0⟩]
        (srtfInit [⟨1, 2147483647, 0, 0, 0, 0⟩])).rem =
      (srtfInit [⟨1, 2147483647, 0, 0, 0, 0⟩]).rem ∧
    (srtfStep [⟨1, 2147483647, 0, 0, 0, 0⟩]
        (srtfInit [⟨1, 2147483647, 0, 0, 0, 0⟩])).t =
      (srtfInit [⟨1, 2147483647, 0, 0, 0, 0⟩]).t := by
  decide

/-! ## SRTF invariants and termination -/

theorem countP_set_aux (p : Int → Bool) (l : List Int) :
    ∀ (j : Nat) (x : Int), j < l.length →
    (l.set j x).countP p + (if p (l.getD j 0) then 1 else 0) =
      l.countP p + (if p x then 1 else 0) := by
  induction l with
  | nil => intro j x h; simp at h
  | cons a l ih =>
    intro j x h
    cases j with
    | zero =>
      simp only [List.set, List.countP_cons, List.getD_cons_zero]
      omega
    | succ j =>
      have := ih j x (by simpa using h)
      simp only [List.set, List.countP_cons, List.getD_cons_succ]
      omega

theorem foldr_add_set (l : List Int) :
    ∀ (j : Nat) (x : Int), j < l.length →
    (l.set j x).foldr (· + ·) 0 = l.foldr (· + ·) 0 - l.getD j 0 + x := by
  induction l with
  | nil => intro j x h; simp at h
  | cons a l ih =>
    intro j x h
    cases j with
    | zero => simp only [List.set, List.foldr_cons, List.getD_cons_zero]; ring
    | succ j =>
      have := ih j x (by simpa using h)
      simp only [List.set, List.foldr_cons, List.getD_cons_succ, this]
      ring

theorem foldr_add_nonneg (l : List Int) (h : ∀ x ∈ l, 0 ≤ x) :
    0 ≤ l.foldr (· + ·) 0 := by
  induction l with
  | nil => exact le_refl 0
  | cons a l ih =>
    simp only [List.foldr_cons]
    have ha := h a (List.mem_cons_self a l)
    have hl := ih fun x hx => h x (List.mem_cons_of_mem a hx)
    omega

theorem getD_le_foldr_add (l : List Int) :
    ∀ j : Nat, (∀ x ∈ l, 0 ≤ x) → j < l.length →
    l.getD j 0 ≤ l.foldr (· + ·) 0 := by
  induction l with
  | nil => intro j _ h; simp at h
  | cons a l ih =>
    intro j h hj
    have ha := h a (List.mem_cons_self a l)
    have hl : ∀ x ∈ l, 0 ≤ x := fun x hx => h x (List.mem_cons_of_mem a hx)
    cases j with
    | zero =>
      simp only [List.getD_cons_zero, List.foldr_cons]
      have := foldr_add_nonneg l hl
      omega
    | succ j =>
      have := ih j hl (by simpa using hj)
      simp only [List.getD_cons_succ, List.foldr_cons]
      omega

theorem getD_surj (l : List Int) {a : Int} (h : a ∈ l) :
    ∃ j, j < l.length ∧ l.getD j 0 = a := by
  obtain ⟨j, hj, he⟩ := List.mem_iff_getElem.mp h
  exact ⟨j, hj, by rw [List.getD_eq_getElem l 0 hj]; exact he⟩

theorem srtfStep_of_some_full {ps : List Process} {s : SrtfState} {k : Nat}
    (h : srtfSelect ps s.rem s.t = some k) :
    srtfStep ps s =
      if (s.rem.set k (s.rem.getD k 0 - 1)).getD k 0 = 0 then
        { rem := s.rem.set k (s.rem.getD k 0 - 1),
          wt := s.wt.set k
            (if s.t + 1 - (ps.getD k dP).bt - (ps.getD k dP).art < 0 then 0
              else s.t + 1 - (ps.getD k dP).bt - (ps.getD k dP).art),
          t := s.t + 1, complete := s.complete + 1 }
      else
        { rem := s.rem.set k (s.rem.getD k 0 - 1), wt := s.wt,
          t := s.t + 1, complete := s.complete } := by
  simp only [srtfStep, h]

theorem srtfInv_rem_lt {ps : List Process} {s : SrtfState}
    (hbt : ∀ p ∈ ps, p.bt < INTMAX) (hInv : SrtfInv ps s) :
    ∀ j, j < s.rem.length → s.rem.getD j 0 < INTMAX := by
  intro j hj
  obtain ⟨hlen, -, hbounds, -, -⟩ := hInv
  have hjp : j < ps.length := hlen ▸ hj
  exact lt_of_le_of_lt (hbounds j hjp).2 (hbt _ (getD_mem_of_lt ps j dP hjp))

theorem selectGo_some_elig (t : Int) (l : List (Int × Int)) :
    ∀ (j0 : Nat) (s : Option Nat) (m : Int) (k : Nat),
    (selectGo t l j0 s m).1 = some k →
    s = some k ∨ (j0 ≤ k ∧ k - j0 < l.length ∧
      (l.getD (k - j0) (0, 0)).1 ≤ t ∧ 0 < (l.getD (k - j0) (0, 0)).2) := by
  induction l with
  | nil => intro j0 s m k h; exact Or.inl h
  | cons a l ih =>
    intro j0 s m k h
    simp only [selectGo] at h
    split at h
    · next hcond =>
      rcases ih (j0 + 1) (some j0) a.2 k h with heq | ⟨hge, hlt, hc1, hc2⟩
      · injection heq with heq
        subst heq
        refine Or.inr ⟨le_refl _, ?_, ?_, ?_⟩
        · simp
        · simpa using hcond.1
        · simpa using hcond.2.1
      · refine Or.inr ⟨by omega, ?_, ?_, ?_⟩
        · simp only [List.length_cons]; omega
        · have : k - j0 = (k - (j0 + 1)) + 1 := by omega
          rw [this, List.getD_cons_succ]
          exact hc1
        · have : k - j0 = (k - (j0 + 1)) + 1 := by omega
          rw [this, List.getD_cons_succ]
          exact hc2
    · next hcond =>
      rcases ih (j0 + 1) s m k h with heq | ⟨hge, hlt, hc1, hc2⟩
      · exact Or.inl heq
      · refine Or.inr ⟨by omega, ?_, ?_, ?_⟩
        · simp only [List.length_cons]; omega
        · have : k - j0 = (k - (j0 + 1)) + 1 := by omega
          rw [this, List.getD_cons_succ]
          exact hc1
        · have : k - j0 = (k - (j0 + 1)) + 1 := by omega
          rw [this, List.getD_cons_succ]
          exact hc2

theorem srtfSelect_some_elig {ps : List Process} {rem : List Int} {t : Int}
    {k : Nat} (hlen : rem.length = ps.length)
    (h : srtfSelect ps rem t = some k) :
    k < rem.length ∧ (ps.getD k dP).art ≤ t ∧ 0 < rem.getD k 0 := by
  rcases selectGo_some_elig t ((ps.map Process.art).zip rem) 0 none INTMAX k h
    with heq | ⟨-, hlt, hc1, hc2⟩
  · cases heq
  · rw [Nat.sub_zero] at hlt hc1 hc2
    rw [zipArtRem_length ps rem hlen] at hlt
    rw [zipArtRem_getD ps rem hlen k hlt] at hc1 hc2
    exact ⟨hlt, hc1, hc2⟩

theorem srtfStep_inv {ps : List Process} {s : SrtfState}
    (hInv : SrtfInv ps s) : SrtfInv ps (srtfStep ps s) := by
  obtain ⟨hlen, hwlen, hbounds, hcount, hwt⟩ := hInv
  rcases hselc : srtfSelect ps s.rem s.t with _ | k
  · rw [srtfStep_of_none hselc]
    exact ⟨hlen, hwlen, hbounds, hcount, hwt⟩
  · obtain ⟨hk', -, hv'⟩ := srtfSelect_some_elig hlen hselc
    have hs' := hselc
    have hkps : k < ps.length := hlen ▸ hk'
    have hset : (s.rem.set k (s.rem.getD k 0 - 1)).getD k 0 =
        s.rem.getD k 0 - 1 := getD_set_self _ _ _ _ hk'
    have hcnt := countP_set_aux (fun r => r == 0) s.rem k
      (s.rem.getD k 0 - 1) hk'
    have hvne : ((s.rem.getD k 0 == 0) : Bool) = false := by
      simp only [beq_eq_false_iff_ne, ne_eq]
      omega
    simp only [hvne, Bool.false_eq_true, if_false] at hcnt
    rw [srtfStep_of_some_full hs']
    split
    · next hzero =>
      rw [hset] at hzero
      have hcnt' : (s.rem.set k (s.rem.getD k 0 - 1)).countP
          (fun r => r == 0) = s.rem.countP (fun r => r == 0) + 1 := by
        rw [hzero] at hcnt ⊢
        simpa using hcnt
      refine ⟨by simpa using hlen, by simpa using hwlen, ?_, ?_, ?_⟩
      · intro j hj
        rcases eq_or_ne k j with rfl | hne
        · rw [getD_set_self _ _ _ _ hk']
          have := (hbounds k hj).2
          omega
        · rw [getD_set_ne _ _ _ hne]
          exact hbounds j hj
      · show s.complete + 1 =
          List.countP (fun r => r == 0) (s.rem.set k (s.rem.getD k 0 - 1))
        rw [hcnt']
        omega
      · intro j hj
        rcases eq_or_ne k j with rfl | hne
        · intro _
          rw [getD_set_self _ _ _ _ (hwlen ▸ hkps)]
          split <;> omega
        · rw [getD_set_ne _ _ _ hne, getD_set_ne _ _ _ hne]
          exact hwt j hj
    · next hnzero =>
      rw [hset] at hnzero
      have hcnt' : (s.rem.set k (s.rem.getD k 0 - 1)).countP
          (fun r => r == 0) = s.rem.countP (fun r => r == 0) := by
        have h0 : ((s.rem.getD k 0 - 1 == 0) : Bool) = false := by
          simp only [beq_eq_false_iff_ne, ne_eq]
          omega
        simp only [h0, Bool.false_eq_true, if_false] at hcnt
        simpa using hcnt
      refine ⟨by simpa using hlen, hwlen, ?_, by rw [hcnt']; exact hcount, ?_⟩
      · intro j hj
        rcases eq_or_ne k j with rfl | hne
        · rw [getD_set_self _ _ _ _ hk']
          have := (hbounds k hj).2
          omega
        · rw [getD_set_ne _ _ _ hne]
          exact hbounds j hj
      · intro j hj
        rcases eq_or_ne k j with rfl | hne
        · intro hc
          exfalso
          apply hnzero
          rw [← hset]
          exact hc
        · rw [getD_set_ne _ _ _ hne]
          exact hwt j hj

theorem srtfSelect_isSome_of_elig (ps : List Process) (rem : List Int)
    (t : Int) (hlen : rem.length = ps.length)
    (hrlt : ∀ j, j < rem.length → rem.getD j 0 < INTMAX)
    (h : ∃ j, j < rem.length ∧ (ps.getD j dP).art ≤ t ∧ 0 < rem.getD j 0) :
    (srtfSelect ps rem t).isSome := by
  rcases srtfSelect_master ps rem t hlen hrlt with
    ⟨hn, hno⟩ | ⟨k, -, hs, -, -, -⟩
  · obtain ⟨j, hj, ha, hv⟩ := h
    exact absurd ⟨ha, hv⟩ (hno j hj)
  · rw [hs]; rfl

theorem srtf_exists_incomplete {ps : List Process} {s : SrtfState}
    (hInv : SrtfInv ps s) (hne : s.complete ≠ ps.length) :
    ∃ j, j < s.rem.length ∧ 0 < s.rem.getD j 0 := by
  obtain ⟨hlen, -, hbounds, hcount, -⟩ := hInv
  by_contra hno
  push_neg at hno
  have hall : ∀ a ∈ s.rem, ((a == 0) : Bool) = true := by
    intro a ha
    obtain ⟨j, hj, he⟩ := getD_surj s.rem ha
    have h1 := hno j hj
    have h2 := (hbounds j (hlen ▸ hj)).1
    simp only [beq_iff_eq]
    omega
  have := List.countP_eq_length.mpr hall
  rw [← hcount] at this
  exact hne (by omega)

theorem srtfMeasure_decreases {ps : List Process} {s : SrtfState}
    (hbt : ∀ p ∈ ps, 0 < p.bt ∧ p.bt < INTMAX)
    (hart : ∀ p ∈ ps, p.art ≤ INTMAX)
    (hInv : SrtfInv ps s) (hne : s.complete ≠ ps.length) :
    srtfMeasure ps (srtfStep ps s) < srtfMeasure ps s := by
  have hlen : s.rem.length = ps.length := hInv.1
  have hrlt : ∀ j, j < s.rem.length → s.rem.getD j 0 < INTMAX :=
    srtfInv_rem_lt (fun p hp => (hbt p hp).2) hInv
  have hnonneg : ∀ x ∈ s.rem, 0 ≤ x := by
    intro x hx
    obtain ⟨j, hj, he⟩ := getD_surj s.rem hx
    have := (hInv.2.2.1 j (hlen ▸ hj)).1
    omega
  have hinc := srtf_exists_incomplete hInv hne
  rcases hselc : srtfSelect ps s.rem s.t with _ | k
  · -- idle jump: remaining work unchanged, but the next scan selects
    rw [srtfStep_of_none hselc]
    have hjump := (srtfNextArr_master ps s.rem hlen hart).2 hinc
    obtain ⟨j, hj, hv, ha⟩ := hjump
    have hsome : (srtfSelect ps s.rem (srtfNextArr ps s.rem)).isSome :=
      srtfSelect_isSome_of_elig ps s.rem _ hlen hrlt ⟨j, hj, le_of_eq ha, hv⟩
    simp only [srtfMeasure, hselc, hsome]
    simp
  · -- execution: remaining work strictly decreases
    rcases srtfSelect_master ps s.rem s.t hlen hrlt with
      ⟨hn, -⟩ | ⟨k', hk', hs', -, hv', -⟩
    · rw [hn] at hselc; cases hselc
    · rw [hs'] at hselc
      injection hselc with hkk
      rw [hkk] at hk' hs' hv'
      have hsum := foldr_add_set s.rem k (s.rem.getD k 0 - 1) hk'
      have hle := getD_le_foldr_add s.rem k hnonneg hk'
      have hpos : 0 ≤ s.rem.foldr (· + ·) 0 := foldr_add_nonneg s.rem hnonneg
      have hrem : (srtfStep ps s).rem = s.rem.set k (s.rem.getD k 0 - 1) :=
        (srtfStep_of_some hs').1
      have hflag0 : (if (srtfSelect ps s.rem s.t).isSome then 0 else 1) = 0 := by
        rw [hs']; rfl
      have hflag' : (if (srtfSelect ps (srtfStep ps s).rem
          (srtfStep ps s).t).isSome then 0 else 1) ≤ 1 := by
        split <;> omega
      simp only [srtfMeasure, hflag0, Nat.add_zero]
      have hs1 : (srtfStep ps s).rem.foldr (· + ·) 0 =
          s.rem.foldr (· + ·) 0 - 1 := by
        rw [hrem, hsum]
        omega
      rw [hs1]
      omega

theorem srtfLoop_runs (ps : List Process)
    (hbt : ∀ p ∈ ps, 0 < p.bt ∧ p.bt < INTMAX)
    (hart : ∀ p ∈ ps, p.art ≤ INTMAX) :
    ∀ (f : Nat) (s : SrtfState), SrtfInv ps s → srtfMeasure ps s < f →
    ∃ s', srtfLoop ps f s = some s' ∧ SrtfInv ps s' ∧
      s'.complete = ps.length := by
  intro f
  induction f with
  | zero => intro s _ h; omega
  | succ f ih =>
    intro s hInv hm
    by_cases hc : s.complete = ps.length
    · exact ⟨s, by simp [srtfLoop, hc], hInv, hc⟩
    · have hInv' := srtfStep_inv hInv
      have hdec := srtfMeasure_decreases hbt hart hInv hc
      obtain ⟨s', hs', hi', hc'⟩ := ih (srtfStep ps s) hInv' (by omega)
      exact ⟨s', by simp only [srtfLoop, hc, if_false]; exact hs', hi', hc'⟩

theorem srtfInit_inv {ps : List Process} (hv : ValidBatch ps) :
    SrtfInv ps (srtfInit ps) := by
  refine ⟨by simp [srtfInit], by simp [srtfInit], ?_, ?_, ?_⟩
  · intro j hj
    show 0 ≤ (ps.map Process.bt).getD j 0 ∧
      (ps.map Process.bt).getD j 0 ≤ (ps.getD j dP).bt
    rw [getD_map_bt]
    have := (hv.2 _ (getD_mem_of_lt ps j dP hj)).1
    omega
  · show 0 = (ps.map Process.bt).countP (fun r => r == 0)
    symm
    rw [List.countP_eq_zero]
    intro a ha
    obtain ⟨p, hp, rfl⟩ := List.mem_map.mp ha
    have := (hv.2 p hp).1
    simp only [beq_iff_eq]
    omega
  · intro j hj hz
    exfalso
    have hz' : (ps.map Process.bt).getD j 0 = 0 := hz
    rw [getD_map_bt] at hz'
    have := (hv.2 _ (getD_mem_of_lt ps j dP hj)).1
    omega

theorem srtfMeasure_init_lt (ps : List Process) :
    srtfMeasure ps (srtfInit ps) < srtfFuel ps := by
  simp only [srtfMeasure, srtfFuel, srtfInit]
  split <;> omega

theorem srtfLoop_inv_of_some (ps : List Process) {P : SrtfState → Prop}
    (hstep : ∀ s, P s → s.complete ≠ ps.length → P (srtfStep ps s)) :
    ∀ (f : Nat) (s s' : SrtfState), P s → srtfLoop ps f s = some s' →
    P s' ∧ s'.complete = ps.length := by
  intro f
  induction f with
  | zero =>
    intro s s' hP h
    simp only [srtfLoop] at h
    split at h
    · next hc => cases h; exact ⟨hP, hc⟩
    · cases h
  | succ f ih =>
    intro s s' hP h
    simp only [srtfLoop] at h
    split at h
    · next hc => cases h; exact ⟨hP, hc⟩
    · next hc => exact ih _ s' (hstep s hP hc) h

theorem mem_zipWith_set_wt {ps : List Process} {ws : List Int} {p : Process}
    (h : p ∈ List.zipWith (fun p w => { p with wt := w }) ps ws) :
    ∃ i, i < ps.length ∧ i < ws.length ∧
      p = { ps.getD i dP with wt := ws.getD i 0 } := by
  induction ps generalizing ws with
  | nil => simp at h
  | cons a ps ih =>
    cases ws with
    | nil => simp at h
    | cons w ws =>
      simp only [List.zipWith_cons_cons, List.mem_cons] at h
      rcases h with rfl | h
      · exact ⟨0, by simp, by simp, rfl⟩
      · obtain ⟨i, h1, h2, rfl⟩ := ih h
        exact ⟨i + 1, by simpa using h1, by simpa using h2, rfl⟩

theorem sjf_wt_nonneg {ps : List Process} (hv : ValidBatch ps) :
    ∀ out, findWaitingTimeSJF ps = some out → ∀ p ∈ out, 0 ≤ p.wt := by
  intro out hout p hp
  simp only [findWaitingTimeSJF, Option.map_eq_some'] at hout
  obtain ⟨s', hrun, rfl⟩ := hout
  obtain ⟨hInv', hcomp⟩ := srtfLoop_inv_of_some ps
    (fun s hs _ => srtfStep_inv hs) _ _ _ (srtfInit_inv hv) hrun
  obtain ⟨hlen, hwlen, hbounds, hcount, hwt⟩ := hInv'
  have hallz : ∀ a ∈ s'.rem, ((a == 0) : Bool) = true := by
    apply List.countP_eq_length.mp
    omega
  obtain ⟨i, hi1, hi2, rfl⟩ := mem_zipWith_set_wt hp
  have hz : s'.rem.getD i 0 = 0 := by
    have := hallz _ (getD_mem_of_lt s'.rem i 0 (by omega))
    simpa using this
  exact hwt i hi1 hz

theorem srtfLoop_none_of_fix {ps : List Process} {s : SrtfState}
    (hfix : srtfStep ps s = s) (hne : s.complete ≠ ps.length) :
    ∀ f, srtfLoop ps f s = none := by
  intro f
  induction f with
  | zero => simp [srtfLoop, hne]
  | succ f ih => simp [srtfLoop, hne, hfix, ih]

/-! ## C8: SRTF idle-gap batch -/

/-- C8: for the batch `{(pid=1, bt=4, art=5), (pid=2, bt=2, art=10)}`
the SRTF engine computes waiting time 0 for the process with pid 1 (the
idle gap from t=0 to t=5 is skipped, not charged as waiting); the
second process also waits 0. -/
theorem C8_srtf_idle_gap :
    (findWaitingTimeSJF [⟨1, 4, 5, 0, 0, 0⟩, ⟨2, 2, 10, 0, 0, 0⟩]).map
      (List.map fun p => (p.pid, p.wt)) = some [(1, 0), (2, 0)] := by
  decide

/-- C9 counterexample: the valid single-process batch with
`burstTime = INT_MAX` makes the SRTF loop spin forever: the selection
scan never picks the process (`rem_bt < minm` fails at the sentinel),
the idle jump resets `t` to the same arrival time, and the state is a
fixpoint of the loop body with `complete = 0 != n`, so the run never
completes (`none` for the canonical fuel, and `srtfLoop_none_of_fix`
shows `none` for every fuel). -/
theorem C9_srtf_nontermination_cex :
    ValidBatch [⟨1, 2147483647, 0, 0, 0, 0⟩] ∧
    findWaitingTimeSJF [⟨1, 2147483647, 0, 0, 0, 0⟩] = none := by
  refine ⟨by decide, ?_⟩
  show (srtfLoop _ _ _).map _ = none
  rw [srtfLoop_none_of_fix (by decide) (by decide)]
  rfl

/-! ## Correctness of the bubble sort on indices (schedsim.c 125-137) -/

theorem bpassN_perm (key : Nat → Int) :
    ∀ (m : Nat) (l : List Nat), (bpassN key m l).Perm l := by
  intro m
  induction m with
  | zero => intro l; exact List.Perm.refl l
  | succ m ih =>
    intro l
    match l with
    | [] => exact List.Perm.refl _
    | [a] => exact List.Perm.refl _
    | a :: b :: rest =>
      simp only [bpassN]
      split
      · exact ((ih _).cons b).trans (List.Perm.swap a b rest)
      · exact (ih _).cons a

theorem bpassN_append (key : Nat → Int) :
    ∀ (m : Nat) (l1 l2 : List Nat), l1.length = m + 1 →
    bpassN key m (l1 ++ l2) = bpassN key m l1 ++ l2 := by
  intro m
  induction m with
  | zero =>
    intro l1 l2 h
    match l1, h with
    | [a], _ => rfl
  | succ m ih =>
    intro l1 l2 h
    match l1, h with
    | a :: b :: l1', h =>
      have hl : l1'.length = m := by simpa using h
      simp only [List.cons_append, bpassN, List.append_eq]
      split
      · rw [show a :: (l1' ++ l2) = (a :: l1') ++ l2 from rfl,
          ih (a :: l1') l2 (by simp [hl])]
        rfl
      · rw [show b :: (l1' ++ l2) = (b :: l1') ++ l2 from rfl,
          ih (b :: l1') l2 (by simp [hl])]
        rfl

theorem bpassN_max (key : Nat → Int) :
    ∀ (m : Nat) (l : List Nat), l.length = m + 1 →
    ∃ l' x, bpassN key m l = l' ++ [x] ∧ (∀ y ∈ l', key y ≤ key x) ∧
      l'.length = m := by
  intro m
  induction m with
  | zero =>
    intro l h
    match l, h with
    | [a], _ => exact ⟨[], a, rfl, by simp, rfl⟩
  | succ m ih =>
    intro l h
    match l, h with
    | a :: b :: rest, h =>
      simp only [bpassN]
      split
      · next hswap =>
        obtain ⟨l', x, heq, hmax, hlen⟩ := ih (a :: rest) (by simpa using h)
        have hmem : a ∈ l' ++ [x] :=
          heq ▸ (bpassN_perm key m (a :: rest)).mem_iff.mpr
            (List.mem_cons_self a rest)
        have hax : key a ≤ key x := by
          rcases List.mem_append.mp hmem with hm | hm
          · exact hmax a hm
          · simp only [List.mem_singleton] at hm
            subst hm
            exact le_refl _
        refine ⟨b :: l', x, by rw [heq]; rfl, ?_, by simpa using hlen⟩
        intro y hy
        rcases List.mem_cons.mp hy with rfl | hy
        · exact le_trans (le_of_lt hswap) hax
        · exact hmax y hy
      · next hnoswap =>
        obtain ⟨l', x, heq, hmax, hlen⟩ := ih (b :: rest) (by simpa using h)
        have hmem : b ∈ l' ++ [x] :=
          heq ▸ (bpassN_perm key m (b :: rest)).mem_iff.mpr
            (List.mem_cons_self b rest)
        have hbx : key b ≤ key x := by
          rcases List.mem_append.mp hmem with hm | hm
          · exact hmax b hm
          · simp only [List.mem_singleton] at hm
            subst hm
            exact le_refl _
        refine ⟨a :: l', x, by rw [heq]; rfl, ?_, by simpa using hlen⟩
        intro y hy
        rcases List.mem_cons.mp hy with rfl | hy
        · exact le_trans (not_lt.mp hnoswap) hbx
        · exact hmax y hy

theorem bpassN_pairwise (key : Nat → Int) {S : Nat → Nat → Prop}
    (hS : ∀ a b, key b < key a → S b a) :
    ∀ (m : Nat) (l : List Nat), l.Pairwise S → (bpassN key m l).Pairwise S := by
  intro m
  induction m with
  | zero => intro l h; exact h
  | succ m ih =>
    intro l h
    match l, h with
    | [], _ => exact List.Pairwise.nil
    | [a], h => exact h
    | a :: b :: rest, h =>
      obtain ⟨ha, hrest⟩ := List.pairwise_cons.mp h
      obtain ⟨hb, hrest'⟩ := List.pairwise_cons.mp hrest
      simp only [bpassN]
      split
      · next hswap =>
        refine List.pairwise_cons.mpr ⟨?_, ?_⟩
        · intro y hy
          have : y ∈ a :: rest := (bpassN_perm key m _).subset hy
          rcases List.mem_cons.mp this with rfl | hyr
          · exact hS _ _ hswap
          · exact hb y hyr
        · refine ih _ (List.pairwise_cons.mpr ⟨?_, hrest'⟩)
          intro y hy
          exact ha y (List.mem_cons_of_mem b hy)
      · next hnoswap =>
        refine List.pairwise_cons.mpr ⟨?_, ?_⟩
        · intro y hy
          have : y ∈ b :: rest := (bpassN_perm key m _).subset hy
          rcases List.mem_cons.mp this with rfl | hyr
          · exact ha y (List.mem_cons_self y rest)
          · exact ha y (List.mem_cons_of_mem b hyr)
        · exact ih _ hrest

theorem bubbleGo_perm (key : Nat → Int) :
    ∀ (k : Nat) (l : List Nat), (bubbleGo key k l).Perm l := by
  intro k
  induction k with
  | zero => intro l; exact List.Perm.refl l
  | succ k ih =>
    intro l
    exact (ih (bpassN key (k + 1) l)).trans (bpassN_perm key (k + 1) l)

theorem bubbleGo_pairwise (key : Nat → Int) {S : Nat → Nat → Prop}
    (hS : ∀ a b, key b < key a → S b a) :
    ∀ (k : Nat) (l : List Nat), l.Pairwise S →
    (bubbleGo key k l).Pairwise S := by
  intro k
  induction k with
  | zero => intro l h; exact h
  | succ k ih =>
    intro l h
    exact ih _ (bpassN_pairwise key hS (k + 1) l h)

theorem bubbleGo_sorted (key : Nat → Int) :
    ∀ (k : Nat) (front back : List Nat), front.length = k + 1 →
    back.Pairwise (fun a b => key a ≤ key b) →
    (∀ x ∈ front, ∀ y ∈ back, key x ≤ key y) →
    (bubbleGo key k (front ++ back)).Pairwise (fun a b => key a ≤ key b) := by
  intro k
  induction k with
  | zero =>
    intro front back hlen hback hdom
    match front, hlen with
    | [a], _ =>
      simp only [bubbleGo, List.cons_append, List.nil_append]
      exact List.pairwise_cons.mpr ⟨fun y hy => hdom a (by simp) y hy, hback⟩
  | succ k ih =>
    intro front back hlen hback hdom
    simp only [bubbleGo]
    rw [bpassN_append key (k + 1) front back hlen]
    obtain ⟨l', x, heq, hmax, hlen'⟩ := bpassN_max key (k + 1) front hlen
    rw [heq]
    have hperm : (l' ++ [x]).Perm front := heq ▸ bpassN_perm key (k + 1) front
    have hxf : x ∈ front := hperm.subset (by simp)
    have hsubf : ∀ z ∈ l', z ∈ front := fun z hz =>
      hperm.subset (List.mem_append.mpr (Or.inl hz))
    have hassoc : l' ++ [x] ++ back = l' ++ (x :: back) := by
      rw [List.append_assoc]
      rfl
    rw [hassoc]
    refine ih l' (x :: back) hlen' ?_ ?_
    · refine List.pairwise_cons.mpr ⟨?_, hback⟩
      intro y hy
      exact hdom x hxf y hy
    · intro z hz y hy
      rcases List.mem_cons.mp hy with rfl | hy
      · exact hmax z hz
      · exact hdom z (hsubf z hz) y hy

theorem sortIdx_perm (ps : List Process) (l : List Nat) :
    (sortIdx ps l).Perm l := bubbleGo_perm _ _ l

theorem sortIdx_sorted (ps : List Process) (l : List Nat) :
    (sortIdx ps l).Pairwise (fun a b => artKey ps a ≤ artKey ps b) := by
  match l with
  | [] => exact List.Pairwise.nil
  | a :: l' =>
    have hlen : (a :: l').length = (a :: l').length - 1 + 1 := by simp
    have := bubbleGo_sorted (artKey ps) ((a :: l').length - 1) (a :: l') []
      (by simp) List.Pairwise.nil (by simp)
    simpa [sortIdx, List.append_nil] using this

theorem sortIdx_stable (ps : List Process) (l : List Nat)
    (h : l.Pairwise (fun a b => artKey ps a = artKey ps b → a ≤ b)) :
    (sortIdx ps l).Pairwise (fun a b => artKey ps a = artKey ps b → a ≤ b) := by
  refine bubbleGo_pairwise _ ?_ _ _ h
  intro a b hab heq
  exfalso
  rw [heq] at hab
  exact lt_irrefl _ hab

theorem sortIdx_sorted_lex (ps : List Process) (l : List Nat)
    (h : l.Pairwise (fun a b => artKey ps a = artKey ps b → a ≤ b)) :
    (sortIdx ps l).Pairwise (ArtIdxLe ps) := by
  have h1 := sortIdx_sorted ps l
  have h2 := sortIdx_stable ps l h
  have := h1.and h2
  refine this.imp ?_
  rintro a b ⟨hle, hst⟩
  rcases lt_or_eq_of_le hle with hlt | heq
  · exact Or.inl hlt
  · exact Or.inr ⟨heq, hst heq⟩

theorem artIdxLe_antisymm (ps : List Process) :
    ∀ a b : Nat, ArtIdxLe ps a b → ArtIdxLe ps b a → a = b := by
  intro a b hab hba
  rcases hab with h1 | ⟨h1, h2⟩ <;> rcases hba with h3 | ⟨h3, h4⟩ <;> omega

theorem eq_of_perm_sorted_lex {ps : List Process} {l1 l2 : List Nat}
    (hp : l1.Perm l2) (h1 : l1.Pairwise (ArtIdxLe ps))
    (h2 : l2.Pairwise (ArtIdxLe ps)) : l1 = l2 := by
  haveI : IsAntisymm Nat (ArtIdxLe ps) := ⟨artIdxLe_antisymm ps⟩
  exact List.eq_of_perm_of_sorted hp h1 h2

theorem range_pairwise_stable (ps : List Process) (n : Nat) :
    (List.range n).Pairwise (fun a b => artKey ps a = artKey ps b → a ≤ b) := by
  refine (List.pairwise_lt_range n).imp ?_
  intro a b hab
  exact fun _ => le_of_lt hab

theorem sortIdx_range_lex (ps : List Process) (n : Nat) :
    (sortIdx ps (List.range n)).Pairwise (ArtIdxLe ps) :=
  sortIdx_sorted_lex ps (List.range n) (range_pairwise_stable ps n)

theorem sortIdx_range_of_sorted {ps : List Process}
    (hsorted : SortedByArt ps) :
    sortIdx ps (List.range ps.length) = List.range ps.length := by
  refine eq_of_perm_sorted_lex (sortIdx_perm ps _)
    (sortIdx_range_lex ps ps.length) ?_
  have hart : ∀ (i j : Nat), i < ps.length → j < ps.length → i < j →
      (ps.getD i dP).art ≤ (ps.getD j dP).art := by
    intro i j hi hj hij
    have := List.pairwise_iff_getElem.mp hsorted i j hi hj hij
    rwa [List.getD_eq_getElem ps dP hi, List.getD_eq_getElem ps dP hj]
  refine (List.pairwise_lt_range ps.length).imp_of_mem ?_
  intro a b ha hb hab
  have ha' := List.mem_range.mp ha
  have hb' := List.mem_range.mp hb
  have := hart a b ha' hb' hab
  unfold ArtIdxLe
  rcases lt_or_eq_of_le this with hlt | heq
  · exact Or.inl hlt
  · exact Or.inr ⟨heq, le_of_lt hab⟩

/-! ## RR arrival-scan characterization -/

theorem scanArrNC_spec (ps : List Process) (t : Int) :
    ∀ (pending : List Nat) (inq : List Bool) (queue : List Nat),
    (∀ j ∈ pending, j < inq.length) →
    (scanArrNC ps t pending inq queue).1 =
        pending.dropWhile (fun idx => decide ((ps.getD idx dP).art ≤ t)) ∧
    (scanArrNC ps t pending inq queue).2.2 =
        queue ++
          pending.takeWhile (fun idx => decide ((ps.getD idx dP).art ≤ t)) ∧
    (scanArrNC ps t pending inq queue).2.1.length = inq.length ∧
    (∀ j, (scanArrNC ps t pending inq queue).2.1.getD j false = true ↔
      (inq.getD j false = true ∨
        j ∈ pending.takeWhile (fun idx => decide ((ps.getD idx dP).art ≤ t)))) := by
  intro pending
  induction pending with
  | nil =>
    intro inq queue _
    refine ⟨rfl, (List.append_nil queue).symm, rfl, ?_⟩
    intro j
    simp only [List.takeWhile_nil, List.not_mem_nil, or_false]
    exact Iff.rfl
  | cons idx rest ih =>
    intro inq queue hlt
    by_cases hart : (ps.getD idx dP).art ≤ t
    · have hstep : scanArrNC ps t (idx :: rest) inq queue =
          scanArrNC ps t rest (inq.set idx true) (queue ++ [idx]) := by
        rw [scanArrNC, if_pos hart]
      have hlt' : ∀ j ∈ rest, j < (inq.set idx true).length := by
        intro j hj
        rw [List.length_set]
        exact hlt j (List.mem_cons_of_mem idx hj)
      obtain ⟨h1, h2, h3, h4⟩ := ih (inq.set idx true) (queue ++ [idx]) hlt'
      have htake : (idx :: rest).takeWhile
          (fun i => decide ((ps.getD i dP).art ≤ t)) =
          idx :: rest.takeWhile (fun i => decide ((ps.getD i dP).art ≤ t)) := by
        simp only [List.takeWhile_cons, decide_eq_true_eq]
        rw [if_pos hart]
      have hdrop : (idx :: rest).dropWhile
          (fun i => decide ((ps.getD i dP).art ≤ t)) =
          rest.dropWhile (fun i => decide ((ps.getD i dP).art ≤ t)) := by
        simp only [List.dropWhile_cons, decide_eq_true_eq]
        rw [if_pos hart]
      rw [hstep, htake, hdrop]
      refine ⟨h1, ?_, by rw [h3, List.length_set], ?_⟩
      · rw [h2, List.append_assoc]
        rfl
      · intro j
        rw [h4 j]
        rcases eq_or_ne idx j with rfl | hne
        · rw [getD_set_self _ _ _ _ (hlt idx (List.mem_cons_self idx rest))]
          simp
        · rw [getD_set_ne _ _ _ hne]
          simp only [List.mem_cons]
          constructor
          · rintro (h | h)
            · exact Or.inl h
            · exact Or.inr (Or.inr h)
          · rintro (h | h | h)
            · exact Or.inl h
            · exact absurd h.symm hne
            · exact Or.inr h
    · have hstep : scanArrNC ps t (idx :: rest) inq queue =
          (idx :: rest, inq, queue) := by
        rw [scanArrNC, if_neg hart]
      have htake : (idx :: rest).takeWhile
          (fun i => decide ((ps.getD i dP).art ≤ t)) = [] := by
        simp only [List.takeWhile_cons, decide_eq_true_eq]
        rw [if_neg hart]
      have hdrop : (idx :: rest).dropWhile
          (fun i => decide ((ps.getD i dP).art ≤ t)) = idx :: rest := by
        simp only [List.dropWhile_cons, decide_eq_true_eq]
        rw [if_neg hart]
      rw [hstep, htake, hdrop]
      exact ⟨rfl, (List.append_nil queue).symm, rfl, fun j => by simp⟩

theorem scanArrC_spec (ps : List Process) (t : Int) (rem : List Int) :
    ∀ (pending : List Nat) (inq : List Bool) (queue : List Nat),
    pending.Nodup →
    (∀ j ∈ pending, j < inq.length ∧
      inq.getD j false = false ∧ 0 < rem.getD j 0) →
    (scanArrC ps t rem pending inq queue).1 =
        pending.dropWhile (fun idx => decide ((ps.getD idx dP).art ≤ t)) ∧
    (scanArrC ps t rem pending inq queue).2.2 =
        queue ++
          pending.takeWhile (fun idx => decide ((ps.getD idx dP).art ≤ t)) ∧
    (scanArrC ps t rem pending inq queue).2.1.length = inq.length ∧
    (∀ j, (scanArrC ps t rem pending inq queue).2.1.getD j false = true ↔
      (inq.getD j false = true ∨
        j ∈ pending.takeWhile (fun idx => decide ((ps.getD idx dP).art ≤ t)))) := by
  intro pending
  induction pending with
  | nil =>
    intro inq queue _ _
    refine ⟨rfl, (List.append_nil queue).symm, rfl, ?_⟩
    intro j
    simp only [List.takeWhile_nil, List.not_mem_nil, or_false]
    exact Iff.rfl
  | cons idx rest ih =>
    intro inq queue hnd hfresh
    obtain ⟨hidxlt, hidxf, hidxr⟩ := hfresh idx (List.mem_cons_self idx rest)
    by_cases hart : (ps.getD idx dP).art ≤ t
    · have hstep : scanArrC ps t rem (idx :: rest) inq queue =
          scanArrC ps t rem rest (inq.set idx true) (queue ++ [idx]) := by
        rw [scanArrC, if_pos hart, if_pos ⟨hidxf, hidxr⟩]
      have hfresh' : ∀ j ∈ rest, j < (inq.set idx true).length ∧
          (inq.set idx true).getD j false = false ∧ 0 < rem.getD j 0 := by
        intro j hj
        have hne : idx ≠ j := by
          intro hc
          subst hc
          exact (List.nodup_cons.mp hnd).1 hj
        obtain ⟨h1, h2, h3⟩ := hfresh j (List.mem_cons_of_mem idx hj)
        exact ⟨by rwa [List.length_set], by rwa [getD_set_ne _ _ _ hne], h3⟩
      obtain ⟨h1, h2, h3, h4⟩ := ih (inq.set idx true) (queue ++ [idx])
        (List.nodup_cons.mp hnd).2 hfresh'
      have htake : (idx :: rest).takeWhile
          (fun i => decide ((ps.getD i dP).art ≤ t)) =
          idx :: rest.takeWhile (fun i => decide ((ps.getD i dP).art ≤ t)) := by
        simp only [List.takeWhile_cons, decide_eq_true_eq]
        rw [if_pos hart]
      have hdrop : (idx :: rest).dropWhile
          (fun i => decide ((ps.getD i dP).art ≤ t)) =
          rest.dropWhile (fun i => decide ((ps.getD i dP).art ≤ t)) := by
        simp only [List.dropWhile_cons, decide_eq_true_eq]
        rw [if_pos hart]
      rw [hstep, htake, hdrop]
      refine ⟨h1, ?_, by rw [h3, List.length_set], ?_⟩
      · rw [h2, List.append_assoc]
        rfl
      · intro j
        rw [h4 j]
        rcases eq_or_ne idx j with rfl | hne
        · rw [getD_set_self _ _ _ _ hidxlt]
          simp
        · rw [getD_set_ne _ _ _ hne]
          simp only [List.mem_cons]
          constructor
          · rintro (h | h)
            · exact Or.inl h
            · exact Or.inr (Or.inr h)
          · rintro (h | h | h)
            · exact Or.inl h
            · exact absurd h.symm hne
            · exact Or.inr h
    · have hstep : scanArrC ps t rem (idx :: rest) inq queue =
          (idx :: rest, inq, queue) := by
        rw [scanArrC, if_neg hart]
      have htake : (idx :: rest).takeWhile
          (fun i => decide ((ps.getD i dP).art ≤ t)) = [] := by
        simp only [List.takeWhile_cons, decide_eq_true_eq]
        rw [if_neg hart]
      have hdrop : (idx :: rest).dropWhile
          (fun i => decide ((ps.getD i dP).art ≤ t)) = idx :: rest := by
        simp only [List.dropWhile_cons, decide_eq_true_eq]
        rw [if_neg hart]
      rw [hstep, htake, hdrop]
      exact ⟨rfl, (List.append_nil queue).symm, rfl, fun j => by simp⟩

theorem rrSidx_perm (ps : List Process) :
    (rrSidx ps).Perm (List.range ps.length) :=
  sortIdx_perm ps (List.range ps.length)

theorem rrSidx_nodup (ps : List Process) : (rrSidx ps).Nodup :=
  (rrSidx_perm ps).nodup_iff.mpr (List.nodup_range ps.length)

theorem rrSidx_lex (ps : List Process) :
    (rrSidx ps).Pairwise (ArtIdxLe ps) :=
  sortIdx_range_lex ps ps.length

theorem mem_rrSidx (ps : List Process) (j : Nat) :
    j ∈ rrSidx ps ↔ j < ps.length := by
  rw [(rrSidx_perm ps).mem_iff, List.mem_range]

theorem rrSidx_length (ps : List Process) :
    (rrSidx ps).length = ps.length := by
  rw [(rrSidx_perm ps).length_eq, List.length_range]

theorem pending_nodup {ps : List Process} {pending : List Nat}
    (h : pending.IsSuffix (rrSidx ps)) : pending.Nodup :=
  (rrSidx_nodup ps).sublist h.sublist

theorem pending_mem_lt {ps : List Process} {pending : List Nat}
    (h : pending.IsSuffix (rrSidx ps)) {j : Nat} (hj : j ∈ pending) :
    j < ps.length :=
  (mem_rrSidx ps j).mp (h.sublist.subset hj)

theorem pending_sorted {ps : List Process} {pending : List Nat}
    (h : pending.IsSuffix (rrSidx ps)) :
    pending.Pairwise (ArtIdxLe ps) :=
  (rrSidx_lex ps).sublist h.sublist

/-- Every element left behind by the arrival scan has arrival time
strictly above the scan clock, because the pending list is sorted by
arrival time. -/
theorem dropWhile_art_gt (ps : List Process) (t : Int) :
    ∀ l : List Nat, l.Pairwise (ArtIdxLe ps) →
    ∀ j ∈ l.dropWhile (fun idx => decide ((ps.getD idx dP).art ≤ t)),
      t < (ps.getD j dP).art := by
  intro l
  induction l with
  | nil => intro _ j hj; simp at hj
  | cons a l ih =>
    intro hp j hj
    obtain ⟨ha, hl⟩ := List.pairwise_cons.mp hp
    by_cases hart : (ps.getD a dP).art ≤ t
    · rw [List.dropWhile_cons] at hj
      simp only [decide_eq_true_eq, if_pos hart] at hj
      exact ih hl j hj
    · rw [List.dropWhile_cons] at hj
      simp only [decide_eq_true_eq, if_neg hart] at hj
      push_neg at hart
      rcases List.mem_cons.mp hj with rfl | hj'
      · exact hart
      · rcases ha j hj' with h1 | ⟨h1, -⟩
        · omega
        · omega

theorem rrStep_queue_nil_pending_nil {ps : List Process} {q : Int}
    {s : RRState} (hq : s.queue = []) (hp : s.pending = []) :
    rrStep ps q s = s := by
  rw [rrStep, hq, hp]

theorem rrStep_refill {ps : List Process} {q : Int} {s : RRState}
    {idx : Nat} {pend : List Nat} (hq : s.queue = [])
    (hp : s.pending = idx :: pend) :
    rrStep ps q s =
      { s with
        t := (ps.getD idx dP).art,
        pending :=
          (scanArrNC ps ((ps.getD idx dP).art) s.pending s.inq s.queue).1,
        inq :=
          (scanArrNC ps ((ps.getD idx dP).art) s.pending s.inq s.queue).2.1,
        queue :=
          (scanArrNC ps ((ps.getD idx dP).art) s.pending s.inq s.queue).2.2 } := by
  rw [rrStep, hq, hp]

theorem rrStep_exec {ps : List Process} {q : Int} {s : RRState}
    {curr : Nat} {qrest : List Nat} (hq : s.queue = curr :: qrest) :
    rrStep ps q s =
      (let rc := s.rem.getD curr 0
       let exec := if q < rc then q else rc
       let t' := s.t + exec
       let rem' := s.rem.set curr (rc - exec)
       let r := scanArrC ps t' rem' s.pending s.inq qrest
       if rem'.getD curr 0 = 0 then
         { rem := rem', finish := s.finish.set curr t',
           wt := s.wt.set curr
             (if t' - (ps.getD curr dP).bt - (ps.getD curr dP).art < 0 then 0
               else t' - (ps.getD curr dP).bt - (ps.getD curr dP).art),
           inq := r.2.1, queue := r.2.2, pending := r.1, t := t',
           completed := s.completed + 1 }
       else
         { rem := rem', finish := s.finish, wt := s.wt,
           inq := r.2.1, queue := r.2.2 ++ [curr], pending := r.1, t := t',
           completed := s.completed }) := by
  rw [rrStep, hq]

theorem bool_eq_false_of_ne_true {b : Bool} (h : ¬b = true) : b = false := by
  cases b
  · rfl
  · exact absurd rfl h

theorem takeWhile_disjoint_dropWhile {l : List Nat} (p : Nat → Bool)
    (h : l.Nodup) : (l.takeWhile p).Disjoint (l.dropWhile p) := by
  have hnd : ((l.takeWhile p) ++ (l.dropWhile p)).Nodup := by
    rw [List.takeWhile_append_dropWhile p l]
    exact h
  exact (List.nodup_append.mp hnd).2.2

theorem mem_takeWhile_or_dropWhile {l : List Nat} (p : Nat → Bool) {j : Nat}
    (h : j ∈ l) : j ∈ l.takeWhile p ∨ j ∈ l.dropWhile p := by
  rw [← List.takeWhile_append_dropWhile p l] at h
  exact List.mem_append.mp h

theorem rrStep_exec_eq {ps : List Process} {q : Int} {s : RRState}
    {curr : Nat} {qrest : List Nat} (hq : s.queue = curr :: qrest) :
    rrStep ps q s =
      (if (s.rem.set curr (s.rem.getD curr 0 -
            (if q < s.rem.getD curr 0 then q else s.rem.getD curr 0))).getD
          curr 0 = 0 then
        { rem := s.rem.set curr (s.rem.getD curr 0 -
            (if q < s.rem.getD curr 0 then q else s.rem.getD curr 0)),
          finish := s.finish.set curr (s.t +
            (if q < s.rem.getD curr 0 then q else s.rem.getD curr 0)),
          wt := s.wt.set curr
            (if s.t + (if q < s.rem.getD curr 0 then q else s.rem.getD curr 0) -
                (ps.getD curr dP).bt - (ps.getD curr dP).art < 0 then 0
              else s.t +
                (if q < s.rem.getD curr 0 then q else s.rem.getD curr 0) -
                (ps.getD curr dP).bt - (ps.getD curr dP).art),
          inq := (scanArrC ps
            (s.t + (if q < s.rem.getD curr 0 then q else s.rem.getD curr 0))
            (s.rem.set curr (s.rem.getD curr 0 -
              (if q < s.rem.getD curr 0 then q else s.rem.getD curr 0)))
            s.pending s.inq qrest).2.1,
          queue := (scanArrC ps
            (s.t + (if q < s.rem.getD curr 0 then q else s.rem.getD curr 0))
            (s.rem.set curr (s.rem.getD curr 0 -
              (if q < s.rem.getD curr 0 then q else s.rem.getD curr 0)))
            s.pending s.inq qrest).2.2,
          pending := (scanArrC ps
            (s.t + (if q < s.rem.getD curr 0 then q else s.rem.getD curr 0))
            (s.rem.set curr (s.rem.getD curr 0 -
              (if q < s.rem.getD curr 0 then q else s.rem.getD curr 0)))
            s.pending s.inq qrest).1,
          t := s.t + (if q < s.rem.getD curr 0 then q else s.rem.getD curr 0),
          completed := s.completed + 1 }
      else
        { rem := s.rem.set curr (s.rem.getD curr 0 -
            (if q < s.rem.getD curr 0 then q else s.rem.getD curr 0)),
          finish := s.finish, wt := s.wt,
          inq := (scanArrC ps
            (s.t + (if q < s.rem.getD curr 0 then q else s.rem.getD curr 0))
            (s.rem.set curr (s.rem.getD curr 0 -
              (if q < s.rem.getD curr 0 then q else s.rem.getD curr 0)))
            s.pending s.inq qrest).2.1,
          queue := (scanArrC ps
            (s.t + (if q < s.rem.getD curr 0 then q else s.rem.getD curr 0))
            (s.rem.set curr (s.rem.getD curr 0 -
              (if q < s.rem.getD curr 0 then q else s.rem.getD curr 0)))
            s.pending s.inq qrest).2.2 ++ [curr],
          pending := (scanArrC ps
            (s.t + (if q < s.rem.getD curr 0 then q else s.rem.getD curr 0))
            (s.rem.set curr (s.rem.getD curr 0 -
              (if q < s.rem.getD curr 0 then q else s.rem.getD curr 0)))
            s.pending s.inq qrest).1,
          t := s.t + (if q < s.rem.getD curr 0 then q else s.rem.getD curr 0),
          completed := s.completed }) := by
  rw [rrStep, hq]

theorem rrStep_inv {ps : List Process} {q : Int} {s : RRState}
    (hv : ValidBatch ps) (hq : 0 < q) (hInv : RRInv ps s) :
    RRInv ps (rrStep ps q s) := by
  obtain ⟨hrlen, hwlen, hilen, hflen, hsuf, hfresh, hflag, hqnd, hqmem,
    hinq2, hbounds, hcount, hwt⟩ := hInv
  have hpnd : s.pending.Nodup := pending_nodup hsuf
  rcases hqe : s.queue with _ | ⟨curr, qrest⟩
  · rcases hpe : s.pending with _ | ⟨idx, pend⟩
    · rw [rrStep_queue_nil_pending_nil hqe hpe]
      exact ⟨hrlen, hwlen, hilen, hflen, hsuf, hfresh, hflag, hqnd, hqmem,
        hinq2, hbounds, hcount, hwt⟩
    · rw [rrStep_refill hqe hpe]
      have hlt : ∀ j ∈ s.pending, j < s.inq.length := by
        intro j hj
        rw [hilen]
        exact pending_mem_lt hsuf hj
      obtain ⟨hS1, hS2, hS3, hS4⟩ :=
        scanArrNC_spec ps ((ps.getD idx dP).art) s.pending s.inq s.queue hlt
      rw [hqe] at hS1 hS2 hS3 hS4 ⊢
      rw [List.nil_append] at hS2
      have htksub : ∀ j ∈ s.pending.takeWhile
          (fun i => decide ((ps.getD i dP).art ≤ (ps.getD idx dP).art)),
          j ∈ s.pending := fun j hj =>
        (List.takeWhile_prefix _).sublist.subset hj
      have hdrsub : ∀ j ∈ s.pending.dropWhile
          (fun i => decide ((ps.getD i dP).art ≤ (ps.getD idx dP).art)),
          j ∈ s.pending := fun j hj =>
        (List.dropWhile_suffix _).sublist.subset hj
      have hdisj : (s.pending.takeWhile
          (fun i => decide ((ps.getD i dP).art ≤ (ps.getD idx dP).art))).Disjoint
          (s.pending.dropWhile
            (fun i => decide ((ps.getD i dP).art ≤ (ps.getD idx dP).art))) :=
        takeWhile_disjoint_dropWhile _ hpnd
      rw [hS1, hS2]
      refine ⟨hrlen, hwlen, by rw [hS3]; exact hilen, hflen, ?_, ?_, ?_, ?_,
        ?_, ?_, hbounds, hcount, hwt⟩
      · exact (List.dropWhile_suffix _).trans hsuf
      · intro j hj
        refine ⟨?_, (hfresh j (hdrsub j hj)).2⟩
        apply bool_eq_false_of_ne_true
        intro htrue
        rcases (hS4 j).mp htrue with hold | htk
        · rw [(hfresh j (hdrsub j hj)).1] at hold
          cases hold
        · exact hdisj htk hj
      · intro j hjn hjnd
        rcases Decidable.em (j ∈ s.pending) with hjp | hjp
        · rcases mem_takeWhile_or_dropWhile
            (fun i => decide ((ps.getD i dP).art ≤ (ps.getD idx dP).art)) hjp
            with htk | hdr
          · exact (hS4 j).mpr (Or.inr htk)
          · exact absurd hdr hjnd
        · exact (hS4 j).mpr (Or.inl (hflag j hjn hjp))
      · exact hpnd.sublist (List.takeWhile_prefix _).sublist
      · intro j hj
        have hjp := htksub j hj
        refine ⟨pending_mem_lt hsuf hjp, ?_, (hS4 j).mpr (Or.inr hj), ?_⟩
        · rw [(hfresh j hjp).2]
          exact (hv.2 _ (getD_mem_of_lt ps j dP (pending_mem_lt hsuf hjp))).1
        · intro hdr
          exact hdisj hj hdr
      · intro j hjn htrue
        rcases (hS4 j).mp htrue with hold | htk
        · rcases hinq2 j hjn hold with hjq | hz
          · rw [hqe] at hjq
            cases hjq
          · exact Or.inr hz
        · exact Or.inl htk
  · rw [rrStep_exec_eq hqe]
    obtain ⟨hcn, hcpos, hcinq, hcnp⟩ := hqmem curr
      (by rw [hqe]; exact List.mem_cons_self _ _)
    have hqrest_sub : ∀ j ∈ qrest, j ∈ s.queue := by
      rw [hqe]
      exact fun j hj => List.mem_cons_of_mem _ hj
    have hqndc : curr ∉ qrest ∧ qrest.Nodup := by
      rw [hqe] at hqnd
      exact ⟨(List.nodup_cons.mp hqnd).1, (List.nodup_cons.mp hqnd).2⟩
    set rc := s.rem.getD curr 0 with hrc
    set exec := (if q < rc then q else rc) with hex
    set t' := s.t + exec with ht'
    set rem' := s.rem.set curr (rc - exec) with hrem'
    have hexpos : 0 < exec := by
      rw [hex]
      split <;> omega
    have hexle : exec ≤ rc := by
      rw [hex]
      split <;> omega
    have hcultr : curr < s.rem.length := by
      rw [hrlen]
      exact hcn
    have hrem'c : rem'.getD curr 0 = rc - exec := by
      rw [hrem']
      exact getD_set_self _ _ _ _ hcultr
    have hrem'ne : ∀ j, j ≠ curr → rem'.getD j 0 = s.rem.getD j 0 := by
      intro j hj
      rw [hrem']
      exact getD_set_ne _ _ _ (fun h => hj h.symm)
    have hfresh' : ∀ j ∈ s.pending, j < s.inq.length ∧
        s.inq.getD j false = false ∧ 0 < rem'.getD j 0 := by
      intro j hj
      have hjne : j ≠ curr := fun h => hcnp (h ▸ hj)
      refine ⟨by rw [hilen]; exact pending_mem_lt hsuf hj,
        (hfresh j hj).1, ?_⟩
      rw [hrem'ne j hjne, (hfresh j hj).2]
      exact (hv.2 _ (getD_mem_of_lt ps j dP (pending_mem_lt hsuf hj))).1
    obtain ⟨hS1, hS2, hS3, hS4⟩ :=
      scanArrC_spec ps t' rem' s.pending s.inq qrest hpnd hfresh'
    have htksub : ∀ j ∈ s.pending.takeWhile
        (fun i => decide ((ps.getD i dP).art ≤ t')), j ∈ s.pending :=
      fun j hj => (List.takeWhile_prefix _).sublist.subset hj
    have hdrsub : ∀ j ∈ s.pending.dropWhile
        (fun i => decide ((ps.getD i dP).art ≤ t')), j ∈ s.pending :=
      fun j hj => (List.dropWhile_suffix _).sublist.subset hj
    have hdisj : (s.pending.takeWhile
        (fun i => decide ((ps.getD i dP).art ≤ t'))).Disjoint
        (s.pending.dropWhile (fun i => decide ((ps.getD i dP).art ≤ t'))) :=
      takeWhile_disjoint_dropWhile _ hpnd
    have hsuf1 : (s.pending.dropWhile
        (fun i => decide ((ps.getD i dP).art ≤ t'))).IsSuffix (rrSidx ps) :=
      (List.dropWhile_suffix _).trans hsuf
    have hfresh1 : ∀ j ∈ s.pending.dropWhile
        (fun i => decide ((ps.getD i dP).art ≤ t')),
        (scanArrC ps t' rem' s.pending s.inq qrest).2.1.getD j false = false ∧
        rem'.getD j 0 = (ps.getD j dP).bt := by
      intro j hj
      have hjp := hdrsub j hj
      have hjne : j ≠ curr := fun h => hcnp (h ▸ hjp)
      constructor
      · apply bool_eq_false_of_ne_true
        intro htrue
        rcases (hS4 j).mp htrue with hold | htk
        · rw [(hfresh j hjp).1] at hold
          cases hold
        · exact hdisj htk hj
      · rw [hrem'ne j hjne]
        exact (hfresh j hjp).2
    have hflag1 : ∀ j, j < ps.length →
        j ∉ s.pending.dropWhile (fun i => decide ((ps.getD i dP).art ≤ t')) →
        (scanArrC ps t' rem' s.pending s.inq qrest).2.1.getD j false = true := by
      intro j hjn hjnd
      rcases Decidable.em (j ∈ s.pending) with hjp | hjp
      · rcases mem_takeWhile_or_dropWhile
          (fun i => decide ((ps.getD i dP).art ≤ t')) hjp with htk | hdr
        · exact (hS4 j).mpr (Or.inr htk)
        · exact absurd hdr hjnd
      · exact (hS4 j).mpr (Or.inl (hflag j hjn hjp))
    have hnodup1 : ((qrest ++ s.pending.takeWhile
        (fun i => decide ((ps.getD i dP).art ≤ t')))).Nodup := by
      rw [List.nodup_append]
      refine ⟨hqndc.2, hpnd.sublist (List.takeWhile_prefix _).sublist, ?_⟩
      intro j hjq hjtk
      have h1 := (hqmem j (hqrest_sub j hjq)).2.2.1
      have h2 := (hfresh j (htksub j hjtk)).1
      rw [h1] at h2
      cases h2
    have hmem1 : ∀ j ∈ qrest ++ s.pending.takeWhile
        (fun i => decide ((ps.getD i dP).art ≤ t')),
        j < ps.length ∧ 0 < rem'.getD j 0 ∧
        (scanArrC ps t' rem' s.pending s.inq qrest).2.1.getD j false = true ∧
        j ∉ s.pending.dropWhile (fun i => decide ((ps.getD i dP).art ≤ t')) := by
      intro j hj
      rcases List.mem_append.mp hj with hjq | hjtk
      · obtain ⟨h1, h2, h3, h4⟩ := hqmem j (hqrest_sub j hjq)
        have hjne : j ≠ curr := fun h => hqndc.1 (h ▸ hjq)
        refine ⟨h1, ?_, (hS4 j).mpr (Or.inl h3), ?_⟩
        · rw [hrem'ne j hjne]
          exact h2
        · intro hdr
          exact h4 (hdrsub j hdr)
      · have hjp := htksub j hjtk
        have hjne : j ≠ curr := fun h => hcnp (h ▸ hjp)
        refine ⟨pending_mem_lt hsuf hjp, ?_,
          (hS4 j).mpr (Or.inr hjtk), fun hdr => hdisj hjtk hdr⟩
        rw [hrem'ne j hjne, (hfresh j hjp).2]
        exact (hv.2 _ (getD_mem_of_lt ps j dP (pending_mem_lt hsuf hjp))).1
    have hbounds1 : ∀ j, j < ps.length →
        0 ≤ rem'.getD j 0 ∧ rem'.getD j 0 ≤ (ps.getD j dP).bt := by
      intro j hjn
      rcases eq_or_ne j curr with rfl | hjne
      · rw [hrem'c]
        have := (hbounds j hjn).2
        rw [← hrc] at this
        constructor
        · omega
        · omega
      · rw [hrem'ne j hjne]
        exact hbounds j hjn
    have hcnt := countP_set_aux (fun r => r == 0) s.rem curr (rc - exec) hcultr
    have hrcne : ((s.rem.getD curr 0 == 0) : Bool) = false := by
      simp only [beq_eq_false_iff_ne, ne_eq]
      rw [← hrc]
      omega
    simp only [hrcne, Bool.false_eq_true, if_false] at hcnt
    split
    · next hzero =>
      have hz : rc - exec = 0 := by
        rw [← hrem'c]
        exact hzero
      have hcnt' : List.countP (fun r => r == 0) rem' =
          List.countP (fun r => r == 0) s.rem + 1 := by
        rw [hrem']
        rw [hz] at hcnt ⊢
        simpa using hcnt
      rw [hS1, hS2]
      refine ⟨by rw [List.length_set]; exact hrlen,
        by rw [List.length_set]; exact hwlen,
        by rw [hS3]; exact hilen,
        by rw [List.length_set]; exact hflen,
        hsuf1, hfresh1, hflag1, hnodup1, hmem1, ?_, hbounds1, ?_, ?_⟩
      · intro j hjn htrue
        rcases (hS4 j).mp htrue with hold | htk
        · rcases hinq2 j hjn hold with hjq | hz'
          · rw [hqe] at hjq
            rcases List.mem_cons.mp hjq with rfl | hjr
            · right
              rw [hrem'c]
              exact hz
            · exact Or.inl (List.mem_append.mpr (Or.inl hjr))
          · right
            have hjne : j ≠ curr := by
              intro h
              subst h
              rw [← hrc] at hz'
              omega
            rw [hrem'ne j hjne]
            exact hz'
        · exact Or.inl (List.mem_append.mpr (Or.inr htk))
      · show s.completed + 1 = List.countP (fun r => r == 0) rem'
        rw [hcnt']
        omega
      · intro j hjn hjz
        rcases eq_or_ne j curr with rfl | hjne
        · rw [getD_set_self _ _ _ _ (by rw [hwlen]; exact hjn)]
          split <;> omega
        · rw [getD_set_ne _ _ _ (fun h => hjne h.symm)]
          apply hwt j hjn
          rw [← hrem'ne j hjne]
          exact hjz
    · next hnzero =>
      have hnz : rc - exec ≠ 0 := by
        rw [← hrem'c]
        exact hnzero
      have hcnt' : List.countP (fun r => r == 0) rem' =
          List.countP (fun r => r == 0) s.rem := by
        have h0 : ((rc - exec == 0) : Bool) = false := by
          simp only [beq_eq_false_iff_ne, ne_eq]
          exact hnz
        rw [hrem']
        simp only [h0, Bool.false_eq_true, if_false] at hcnt
        simpa using hcnt
      rw [hS1, hS2]
      refine ⟨by rw [List.length_set]; exact hrlen, hwlen,
        by rw [hS3]; exact hilen, hflen,
        hsuf1, hfresh1, hflag1, ?_, ?_, ?_, hbounds1, ?_, ?_⟩
      · rw [List.nodup_append]
        refine ⟨hnodup1, List.nodup_singleton curr, ?_⟩
        intro j hj hj1
        rcases List.mem_singleton.mp hj1 with rfl
        rcases List.mem_append.mp hj with hjq | hjtk
        · exact hqndc.1 hjq
        · exact hcnp (htksub j hjtk)
      · intro j hj
        rcases List.mem_append.mp hj with hj1 | hj2
        · exact hmem1 j hj1
        · rcases List.mem_singleton.mp hj2 with rfl
          refine ⟨hcn, ?_, (hS4 j).mpr (Or.inl hcinq), ?_⟩
          · rw [hrem'c]
            have := hexle
            omega
          · intro hdr
            exact hcnp (hdrsub j hdr)
      · intro j hjn htrue
        rcases (hS4 j).mp htrue with hold | htk
        · rcases hinq2 j hjn hold with hjq | hz'
          · rw [hqe] at hjq
            rcases List.mem_cons.mp hjq with rfl | hjr
            · exact Or.inl (List.mem_append.mpr
                (Or.inr (List.mem_singleton.mpr rfl)))
            · exact Or.inl (List.mem_append.mpr
                (Or.inl (List.mem_append.mpr (Or.inl hjr))))
          · right
            have hjne : j ≠ curr := by
              intro h
              subst h
              rw [← hrc] at hz'
              omega
            rw [hrem'ne j hjne]
            exact hz'
        · exact Or.inl (List.mem_append.mpr
            (Or.inl (List.mem_append.mpr (Or.inr htk))))
      · show s.completed = List.countP (fun r => r == 0) rem'
        rw [hcnt']
        exact hcount
      · intro j hjn hjz
        rcases eq_or_ne j curr with rfl | hjne
        · exfalso
          rw [hrem'c] at hjz
          exact hnz hjz
        · apply hwt j hjn
          rw [← hrem'ne j hjne]
          exact hjz

theorem getD_replicate_false (n : Nat) :
    ∀ j : Nat, (List.replicate n false).getD j false = false := by
  induction n with
  | zero => intro j; cases j <;> rfl
  | succ n ih =>
    intro j
    cases j with
    | zero => rfl
    | succ j => exact ih j

theorem rrInit_eq (ps : List Process) :
    rrInit ps =
      { rem := ps.map Process.bt, finish := List.replicate ps.length 0,
        wt := ps.map Process.wt,
        inq := (scanArrNC ps 0 (rrSidx ps)
          (List.replicate ps.length false) []).2.1,
        queue := (scanArrNC ps 0 (rrSidx ps)
          (List.replicate ps.length false) []).2.2,
        pending := (scanArrNC ps 0 (rrSidx ps)
          (List.replicate ps.length false) []).1,
        t := 0, completed := 0 } := rfl

theorem rrInit_inv {ps : List Process} (hv : ValidBatch ps) :
    RRInv ps (rrInit ps) := by
  rw [rrInit_eq]
  have hlt : ∀ j ∈ rrSidx ps, j < (List.replicate ps.length false).length := by
    intro j hj
    rw [List.length_replicate]
    exact (mem_rrSidx ps j).mp hj
  obtain ⟨hS1, hS2, hS3, hS4⟩ :=
    scanArrNC_spec ps 0 (rrSidx ps) (List.replicate ps.length false) [] hlt
  rw [List.nil_append] at hS2
  have hrepl : ∀ j, (List.replicate ps.length false).getD j false = false :=
    getD_replicate_false ps.length
  have hiff : ∀ j, (scanArrNC ps 0 (rrSidx ps)
      (List.replicate ps.length false) []).2.1.getD j false = true ↔
      j ∈ (rrSidx ps).takeWhile (fun i => decide ((ps.getD i dP).art ≤ 0)) := by
    intro j
    rw [hS4 j, hrepl j]
    simp
  have htksub : ∀ j ∈ (rrSidx ps).takeWhile
      (fun i => decide ((ps.getD i dP).art ≤ 0)), j ∈ rrSidx ps :=
    fun j hj => (List.takeWhile_prefix _).sublist.subset hj
  have hdrsub : ∀ j ∈ (rrSidx ps).dropWhile
      (fun i => decide ((ps.getD i dP).art ≤ 0)), j ∈ rrSidx ps :=
    fun j hj => (List.dropWhile_suffix _).sublist.subset hj
  have hdisj : ((rrSidx ps).takeWhile
      (fun i => decide ((ps.getD i dP).art ≤ 0))).Disjoint
      ((rrSidx ps).dropWhile (fun i => decide ((ps.getD i dP).art ≤ 0))) :=
    takeWhile_disjoint_dropWhile _ (rrSidx_nodup ps)
  rw [hS1, hS2]
  refine ⟨by simp, by simp, by rw [hS3, List.length_replicate],
    by rw [List.length_replicate], ?_, ?_, ?_, ?_, ?_, ?_, ?_, ?_, ?_⟩
  · exact List.dropWhile_suffix _
  · intro j hj
    constructor
    · apply bool_eq_false_of_ne_true
      intro htrue
      exact hdisj ((hiff j).mp htrue) hj
    · exact getD_map_bt ps j
  · intro j hjn hjnd
    rcases mem_takeWhile_or_dropWhile
      (fun i => decide ((ps.getD i dP).art ≤ 0))
      ((mem_rrSidx ps j).mpr hjn) with htk | hdr
    · exact (hiff j).mpr htk
    · exact absurd hdr hjnd
  · exact (rrSidx_nodup ps).sublist (List.takeWhile_prefix _).sublist
  · intro j hj
    have hjn := (mem_rrSidx ps j).mp (htksub j hj)
    refine ⟨hjn, ?_, (hiff j).mpr hj, fun hdr => hdisj hj hdr⟩
    rw [getD_map_bt ps j]
    exact (hv.2 _ (getD_mem_of_lt ps j dP hjn)).1
  · intro j hjn htrue
    exact Or.inl ((hiff j).mp htrue)
  · intro j hjn
    rw [getD_map_bt ps j]
    have := (hv.2 _ (getD_mem_of_lt ps j dP hjn)).1
    omega
  · show (0 : Nat) = List.countP (fun r => r == 0) (ps.map Process.bt)
    symm
    rw [List.countP_eq_zero]
    intro a ha
    obtain ⟨p, hp, rfl⟩ := List.mem_map.mp ha
    have := (hv.2 p hp).1
    simp only [beq_iff_eq]
    omega
  · intro j hjn hz
    exfalso
    have hz' : (ps.map Process.bt).getD j 0 = 0 := hz
    rw [getD_map_bt] at hz'
    have := (hv.2 _ (getD_mem_of_lt ps j dP hjn)).1
    omega

theorem exists_pos_of_count_ne {rem : List Int}
    (hnn : ∀ j, j < rem.length → 0 ≤ rem.getD j 0)
    (hne : rem.countP (fun r => r == 0) ≠ rem.length) :
    ∃ j, j < rem.length ∧ 0 < rem.getD j 0 := by
  by_contra hno
  push_neg at hno
  have hall : ∀ a ∈ rem, ((a == 0) : Bool) = true := by
    intro a ha
    obtain ⟨j, hj, he⟩ := getD_surj rem ha
    have h1 := hno j hj
    have h2 := hnn j hj
    simp only [beq_iff_eq]
    omega
  exact hne (List.countP_eq_length.mpr hall)

theorem rr_exists_active {ps : List Process} {s : RRState}
    (hInv : RRInv ps s) (hne : s.completed ≠ ps.length)
    (hqe : s.queue = []) : s.pending ≠ [] := by
  obtain ⟨hrlen, -, -, -, hsuf, -, hflag, -, -, hinq2, hbounds, hcount, -⟩ :=
    hInv
  have hex : ∃ j, j < s.rem.length ∧ 0 < s.rem.getD j 0 := by
    apply exists_pos_of_count_ne
    · intro j hj
      exact (hbounds j (hrlen ▸ hj)).1
    · rw [← hcount, hrlen]
      exact hne
  obtain ⟨j, hj, hpos⟩ := hex
  have hjn : j < ps.length := hrlen ▸ hj
  rcases hiq : s.inq.getD j false with _ | _
  · have hjp : j ∈ s.pending := by
      by_contra hnp
      rw [hflag j hjn hnp] at hiq
      cases hiq
    intro hpe
    rw [hpe] at hjp
    cases hjp
  · rcases hinq2 j hjn hiq with hjq | hz
    · rw [hqe] at hjq
      cases hjq
    · omega

theorem rrMeasure_mk (rem finish wt : List Int) (inq : List Bool)
    (queue pending : List Nat) (t : Int) (completed : Nat) :
    rrMeasure ⟨rem, finish, wt, inq, queue, pending, t, completed⟩ =
      (rem.foldr (· + ·) 0).toNat + pending.length := rfl

theorem rrMeasure_decreases {ps : List Process} {q : Int} {s : RRState}
    (hv : ValidBatch ps) (hq : 0 < q) (hInv : RRInv ps s)
    (hne : s.completed ≠ ps.length) :
    rrMeasure (rrStep ps q s) < rrMeasure s := by
  obtain ⟨hrlen, hwlen, hilen, hflen, hsuf, hfresh, hflag, hqnd, hqmem,
    hinq2, hbounds, hcount, hwt⟩ := hInv
  have hpnd : s.pending.Nodup := pending_nodup hsuf
  rcases hqe : s.queue with _ | ⟨curr, qrest⟩
  · have hpne := rr_exists_active ⟨hrlen, hwlen, hilen, hflen, hsuf, hfresh,
      hflag, hqnd, hqmem, hinq2, hbounds, hcount, hwt⟩ hne hqe
    rcases hpe : s.pending with _ | ⟨idx, pend⟩
    · exact absurd hpe hpne
    · rw [rrStep_refill hqe hpe]
      have hlt : ∀ j ∈ s.pending, j < s.inq.length := by
        intro j hj
        rw [hilen]
        exact pending_mem_lt hsuf hj
      obtain ⟨hS1, -, -, -⟩ :=
        scanArrNC_spec ps ((ps.getD idx dP).art) s.pending s.inq s.queue hlt
      have hdrop : ((s.pending.dropWhile
          (fun i => decide ((ps.getD i dP).art ≤ (ps.getD idx dP).art)))).length
          ≤ pend.length := by
        rw [hpe, List.dropWhile_cons]
        simp only [decide_eq_true_eq, if_pos (le_refl (ps.getD idx dP).art)]
        exact (List.dropWhile_suffix _).sublist.length_le
      rw [rrMeasure_mk, rrMeasure, hS1]
      have hplen : s.pending.length = pend.length + 1 := by
        rw [hpe]
        rfl
      omega
  · obtain ⟨hcn, hcpos, -, -⟩ := hqmem curr
      (by rw [hqe]; exact List.mem_cons_self _ _)
    rw [rrStep_exec_eq hqe]
    set rc := s.rem.getD curr 0 with hrc
    set exec := (if q < rc then q else rc) with hex
    set t' := s.t + exec with ht'
    set rem' := s.rem.set curr (rc - exec) with hrem'
    have hcultr : curr < s.rem.length := by
      rw [hrlen]
      exact hcn
    have hnonneg : ∀ x ∈ s.rem, 0 ≤ x := by
      intro x hx
      obtain ⟨j, hj, he⟩ := getD_surj s.rem hx
      have := (hbounds j (hrlen ▸ hj)).1
      rw [← he]
      omega
    have hle : rc ≤ s.rem.foldr (· + ·) 0 :=
      getD_le_foldr_add s.rem curr hnonneg hcultr
    have hsum : rem'.foldr (· + ·) 0 =
        s.rem.foldr (· + ·) 0 - rc + (rc - exec) := by
      rw [hrem']
      exact foldr_add_set s.rem curr (rc - exec) hcultr
    have hexpos : 0 < exec := by
      rw [hex]
      split <;> omega
    have hexle : exec ≤ rc := by
      rw [hex]
      split <;> omega
    have hfresh' : ∀ j ∈ s.pending, j < s.inq.length ∧
        s.inq.getD j false = false ∧ 0 < rem'.getD j 0 := by
      intro j hj
      have hjne : curr ≠ j := by
        intro h
        exact (hqmem curr (by rw [hqe]; exact List.mem_cons_self _ _)).2.2.2
          (h ▸ hj)
      refine ⟨by rw [hilen]; exact pending_mem_lt hsuf hj,
        (hfresh j hj).1, ?_⟩
      rw [hrem', getD_set_ne _ _ _ hjne, (hfresh j hj).2]
      exact (hv.2 _ (getD_mem_of_lt ps j dP (pending_mem_lt hsuf hj))).1
    obtain ⟨hS1, -, -, -⟩ :=
      scanArrC_spec ps t' rem' s.pending s.inq qrest hpnd hfresh'
    have hplen : ((s.pending.dropWhile
        (fun i => decide ((ps.getD i dP).art ≤ t')))).length ≤
        s.pending.length :=
      (List.dropWhile_suffix _).sublist.length_le
    have hfold : 0 ≤ s.rem.foldr (· + ·) 0 := foldr_add_nonneg s.rem hnonneg
    split
    · rw [rrMeasure_mk, rrMeasure, hS1, hsum]
      omega
    · rw [rrMeasure_mk, rrMeasure, hS1, hsum]
      omega

theorem rrLoop_runs (ps : List Process) (q : Int)
    (hv : ValidBatch ps) (hq : 0 < q) :
    ∀ (f : Nat) (s : RRState), RRInv ps s → rrMeasure s < f →
    ∃ s', rrLoop ps q f s = some s' ∧ RRInv ps s' ∧
      s'.completed = ps.length := by
  intro f
  induction f with
  | zero => intro s _ h; omega
  | succ f ih =>
    intro s hInv hm
    by_cases hc : s.completed = ps.length
    · exact ⟨s, by simp [rrLoop, hc], hInv, hc⟩
    · have hInv' := rrStep_inv hv hq hInv
      have hdec := rrMeasure_decreases hv hq hInv hc
      obtain ⟨s', hs', hi', hc'⟩ := ih (rrStep ps q s) hInv' (by omega)
      exact ⟨s', by simp only [rrLoop, hc, if_false]; exact hs', hi', hc'⟩

theorem rrMeasure_init_lt (ps : List Process) :
    rrMeasure (rrInit ps) < rrFuel ps := by
  rw [rrInit_eq]
  simp only [rrMeasure, rrFuel]
  have h1 : ((scanArrNC ps 0 (rrSidx ps)
      (List.replicate ps.length false) []).1).length ≤ ps.length := by
    have hlt : ∀ j ∈ rrSidx ps,
        j < (List.replicate ps.length false).length := by
      intro j hj
      rw [List.length_replicate]
      exact (mem_rrSidx ps j).mp hj
    obtain ⟨hS1, -, -, -⟩ :=
      scanArrNC_spec ps 0 (rrSidx ps) (List.replicate ps.length false) [] hlt
    rw [hS1]
    calc ((rrSidx ps).dropWhile _).length ≤ (rrSidx ps).length :=
          (List.dropWhile_suffix _).sublist.length_le
      _ = ps.length := rrSidx_length ps
  omega

theorem rrLoop_inv_of_some (ps : List Process) (q : Int)
    {P : RRState → Prop}
    (hstep : ∀ s, P s → s.completed ≠ ps.length → P (rrStep ps q s)) :
    ∀ (f : Nat) (s s' : RRState), P s → rrLoop ps q f s = some s' →
    P s' ∧ s'.completed = ps.length := by
  intro f
  induction f with
  | zero =>
    intro s s' hP h
    simp only [rrLoop] at h
    split at h
    · next hc => cases h; exact ⟨hP, hc⟩
    · cases h
  | succ f ih =>
    intro s s' hP h
    simp only [rrLoop] at h
    split at h
    · next hc => cases h; exact ⟨hP, hc⟩
    · next hc => exact ih _ s' (hstep s hP hc) h

theorem rr_wt_nonneg {ps : List Process} {q : Int} (hv : ValidBatch ps)
    (hq : 0 < q) :
    ∀ out, findWaitingTimeRR ps q = some out → ∀ p ∈ out, 0 ≤ p.wt := by
  intro out hout p hp
  simp only [findWaitingTimeRR, Option.map_eq_some'] at hout
  obtain ⟨s', hrun, rfl⟩ := hout
  obtain ⟨hInv', hcomp⟩ := rrLoop_inv_of_some ps q
    (fun s hs _ => rrStep_inv hv hq hs) _ _ _ (rrInit_inv hv) hrun
  obtain ⟨hrlen, hwlen, -, -, -, -, -, -, -, -, hbounds, hcount, hwt⟩ := hInv'
  have hallz : ∀ a ∈ s'.rem, ((a == 0) : Bool) = true := by
    apply List.countP_eq_length.mp
    omega
  obtain ⟨i, hi1, hi2, rfl⟩ := mem_zipWith_set_wt hp
  have hz : s'.rem.getD i 0 = 0 := by
    have := hallz _ (getD_mem_of_lt s'.rem i 0 (by omega))
    simpa using this
  exact hwt i hi1 hz

/-! ## C9: termination of the simulation loops -/

/-- C9 amended: for every valid batch whose burst times are below
`INT_MAX` (and quantum > 0 for RR), the SRTF and RR simulation loops
terminate: the engines are total on such batches. (At
`burstTime = INT_MAX` the SRTF loop diverges; see the counterexample.) -/
theorem C9_engines_terminate (ps : List Process) (q : Int)
    (hv : ValidBatch ps) (hbt : ∀ p ∈ ps, p.bt < INTMAX) (hq : 0 < q) :
    (∃ out, findWaitingTimeSJF ps = some out) ∧
    (∃ out, findWaitingTimeRR ps q = some out) := by
  constructor
  · obtain ⟨s', hs', -, -⟩ := srtfLoop_runs ps
      (fun p hp => ⟨(hv.2 p hp).1, hbt p hp⟩)
      (fun p hp => (hv.2 p hp).2.2.2)
      (srtfFuel ps) (srtfInit ps) (srtfInit_inv hv) (srtfMeasure_init_lt ps)
    refine ⟨List.zipWith (fun p w => { p with wt := w }) ps s'.wt, ?_⟩
    rw [findWaitingTimeSJF, hs']
    rfl
  · obtain ⟨s', hs', -, -⟩ := rrLoop_runs ps q hv hq
      (rrFuel ps) (rrInit ps) (rrInit_inv hv) (rrMeasure_init_lt ps)
    refine ⟨List.zipWith (fun p w => { p with wt := w }) ps s'.wt, ?_⟩
    rw [findWaitingTimeRR, hs']
    rfl

theorem C9_engines_terminate_witness :
    ValidBatch [⟨1, 2, 0, 0, 0, 0⟩, ⟨2, 3, 4, 0, 0, 0⟩] ∧
    (∀ p ∈ ([⟨1, 2, 0, 0, 0, 0⟩, ⟨2, 3, 4, 0, 0, 0⟩] : List Process),
      p.bt < INTMAX) ∧ (0 : Int) < 2 ∧
    ((∃ out, findWaitingTimeSJF [⟨1, 2, 0, 0, 0, 0⟩, ⟨2, 3, 4, 0, 0, 0⟩] =
        some out) ∧
      (∃ out, findWaitingTimeRR [⟨1, 2, 0, 0, 0, 0⟩, ⟨2, 3, 4, 0, 0, 0⟩] 2 =
        some out)) :=
  ⟨by decide, by decide, by decide,
    C9_engines_terminate _ 2 (by decide) (by decide) (by decide)⟩

/-! ## C2: waiting times are non-negative -/

/-- C2: for every valid batch and every one of the four policies, every
computed waiting time is non-negative (negative intermediate values are
clamped to 0 by the engines; for the preemptive engines the guarantee
covers every completed run). -/
theorem C2_waiting_nonneg (ps : List Process) (q : Int)
    (hv : ValidBatch ps) (hq : 0 < q) :
    (∀ p ∈ findWaitingTimeFCFS ps, 0 ≤ p.wt) ∧
    (∀ sortFn : List Process → List Process, qsortPost ps (sortFn ps) →
      ∀ p ∈ findWaitingTimeFCFS (sortFn ps), 0 ≤ p.wt) ∧
    (∀ out, findWaitingTimeSJF ps = some out → ∀ p ∈ out, 0 ≤ p.wt) ∧
    (∀ out, findWaitingTimeRR ps q = some out → ∀ p ∈ out, 0 ≤ p.wt) :=
  ⟨fun _ hp => wt_findWaitingTimeFCFS_nonneg hp,
    fun _ _ _ hp => wt_findWaitingTimeFCFS_nonneg hp,
    sjf_wt_nonneg hv,
    rr_wt_nonneg hv hq⟩

theorem C2_waiting_nonneg_witness :
    ValidBatch [⟨1, 2, 3, 0, 0, 0⟩, ⟨2, 3, 0, 0, 0, 0⟩] ∧ (0 : Int) < 2 ∧
    ((∀ p ∈ findWaitingTimeFCFS [⟨1, 2, 3, 0, 0, 0⟩, ⟨2, 3, 0, 0, 0, 0⟩],
        0 ≤ p.wt) ∧
      (∀ sortFn : List Process → List Process,
        qsortPost [⟨1, 2, 3, 0, 0, 0⟩, ⟨2, 3, 0, 0, 0, 0⟩]
          (sortFn [⟨1, 2, 3, 0, 0, 0⟩, ⟨2, 3, 0, 0, 0, 0⟩]) →
        ∀ p ∈ findWaitingTimeFCFS
          (sortFn [⟨1, 2, 3, 0, 0, 0⟩, ⟨2, 3, 0, 0, 0, 0⟩]), 0 ≤ p.wt) ∧
      (∀ out, findWaitingTimeSJF [⟨1, 2, 3, 0, 0, 0⟩, ⟨2, 3, 0, 0, 0, 0⟩] =
        some out → ∀ p ∈ out, 0 ≤ p.wt) ∧
      (∀ out, findWaitingTimeRR [⟨1, 2, 3, 0, 0, 0⟩, ⟨2, 3, 0, 0, 0, 0⟩] 2 =
        some out → ∀ p ∈ out, 0 ≤ p.wt)) :=
  ⟨by decide, by decide,
    C2_waiting_nonneg _ 2 (by decide) (by decide)⟩

/-! ## C5: RR enqueue order and the no-double-enqueue invariant -/

theorem rrReach_inv {ps : List Process} {q : Int} {s : RRState}
    (hv : ValidBatch ps) (hq : 0 < q) (hreach : RRreach ps q s) :
    RRInv ps s := by
  induction hreach with
  | init => exact rrInit_inv hv
  | step s hs ih => exact rrStep_inv hv hq ih

theorem pairwise_lt_of_le_nodup {ps : List Process} {l : List Nat}
    (hle : l.Pairwise (ArtIdxLe ps)) (hnd : l.Nodup) :
    l.Pairwise (ArtIdxLt ps) := by
  have := hle.and hnd
  refine this.imp ?_
  rintro a b ⟨h1, h2⟩
  rcases h1 with h1 | ⟨h1, h1'⟩
  · exact Or.inl h1
  · exact Or.inr ⟨h1, lt_of_le_of_ne h1' h2⟩

/-- C5: in the RR engine, the ready queue never contains a process
twice (`in_queue` marks a process the first time it is enqueued and the
scans only admit unmarked processes), and when the process at the head
of the queue finishes its quantum, the processes that newly arrived by
the updated clock — exactly those not previously enqueued whose arrival
time is `≤` the new clock — are appended in arrival order (ties broken
by insertion order), and only after them is the preempted process
re-enqueued at the back (or dropped if it completed). -/
theorem C5_rr_enqueue_order (ps : List Process) (q : Int) (s : RRState)
    (hv : ValidBatch ps) (hq : 0 < q) (hreach : RRreach ps q s) :
    s.queue.Nodup ∧
    (∀ curr qrest, s.queue = curr :: qrest →
      ∃ newArr,
        newArr.Pairwise (ArtIdxLt ps) ∧
        (∀ j ∈ newArr, j < ps.length ∧ s.inq.getD j false = false ∧
          (ps.getD j dP).art ≤ (rrStep ps q s).t) ∧
        (∀ j, j < ps.length → s.inq.getD j false = false →
          (ps.getD j dP).art ≤ (rrStep ps q s).t → j ∈ newArr) ∧
        (((rrStep ps q s).rem.getD curr 0 = 0 ∧
            (rrStep ps q s).queue = qrest ++ newArr) ∨
          ((rrStep ps q s).rem.getD curr 0 ≠ 0 ∧
            (rrStep ps q s).queue = (qrest ++ newArr) ++ [curr]))) := by
  have hInv := rrReach_inv hv hq hreach
  obtain ⟨hrlen, hwlen, hilen, hflen, hsuf, hfresh, hflag, hqnd, hqmem,
    hinq2, hbounds, hcount, hwt⟩ := hInv
  refine ⟨hqnd, ?_⟩
  intro curr qrest hqe
  have hpnd : s.pending.Nodup := pending_nodup hsuf
  obtain ⟨hcn, hcpos, hcinq, hcnp⟩ := hqmem curr
    (by rw [hqe]; exact List.mem_cons_self _ _)
  rw [rrStep_exec_eq hqe]
  set rc := s.rem.getD curr 0 with hrc
  set exec := (if q < rc then q else rc) with hex
  set t' := s.t + exec with ht'
  set rem' := s.rem.set curr (rc - exec) with hrem'
  have hcultr : curr < s.rem.length := by
    rw [hrlen]
    exact hcn
  have hrem'c : rem'.getD curr 0 = rc - exec := by
    rw [hrem']
    exact getD_set_self _ _ _ _ hcultr
  have hfresh' : ∀ j ∈ s.pending, j < s.inq.length ∧
      s.inq.getD j false = false ∧ 0 < rem'.getD j 0 := by
    intro j hj
    have hjne : curr ≠ j := fun h => hcnp (h ▸ hj)
    refine ⟨by rw [hilen]; exact pending_mem_lt hsuf hj,
      (hfresh j hj).1, ?_⟩
    rw [hrem', getD_set_ne _ _ _ hjne, (hfresh j hj).2]
    exact (hv.2 _ (getD_mem_of_lt ps j dP (pending_mem_lt hsuf hj))).1
  obtain ⟨hS1, hS2, hS3, hS4⟩ :=
    scanArrC_spec ps t' rem' s.pending s.inq qrest hpnd hfresh'
  refine ⟨s.pending.takeWhile (fun i => decide ((ps.getD i dP).art ≤ t')),
    ?_, ?_, ?_, ?_⟩
  · refine pairwise_lt_of_le_nodup ?_ ?_
    · exact (pending_sorted hsuf).sublist (List.takeWhile_prefix _).sublist
    · exact hpnd.sublist (List.takeWhile_prefix _).sublist
  · intro j hj
    have hjp := (List.takeWhile_prefix _).sublist.subset hj
    have hart : (ps.getD j dP).art ≤ t' := by
      have := List.mem_takeWhile_imp hj
      simpa using this
    refine ⟨pending_mem_lt hsuf hjp, (hfresh j hjp).1, ?_⟩
    split <;> exact hart
  · intro j hjn hjq hart
    have hjp : j ∈ s.pending := by
      by_contra hnp
      rw [hflag j hjn hnp] at hjq
      cases hjq
    rcases mem_takeWhile_or_dropWhile
      (fun i => decide ((ps.getD i dP).art ≤ t')) hjp with htk | hdr
    · exact htk
    · exfalso
      have := dropWhile_art_gt ps t' s.pending (pending_sorted hsuf) j hdr
      have hart' : (ps.getD j dP).art ≤ t' := by
        revert hart
        split <;> exact id
      omega
  · by_cases hzc : rem'.getD curr 0 = 0
    · rw [if_pos hzc]
      left
      refine ⟨hzc, ?_⟩
      show (scanArrC ps t' rem' s.pending s.inq qrest).2.2 = _
      exact hS2
    · rw [if_neg hzc]
      right
      refine ⟨hzc, ?_⟩
      show (scanArrC ps t' rem' s.pending s.inq qrest).2.2 ++ [curr] = _
      rw [hS2]

theorem C5_rr_enqueue_order_witness :
    ValidBatch [⟨1, 1, 0, 0, 0, 0⟩] ∧ (0 : Int) < 1 ∧
    ((rrInit [⟨1, 1, 0, 0, 0, 0⟩]).queue.Nodup ∧
      (∀ curr qrest,
        (rrInit [⟨1, 1, 0, 0, 0, 0⟩]).queue = curr :: qrest →
        ∃ newArr,
          newArr.Pairwise (ArtIdxLt [⟨1, 1, 0, 0, 0, 0⟩]) ∧
          (∀ j ∈ newArr, j < ([⟨1, 1, 0, 0, 0, 0⟩] : List Process).length ∧
            (rrInit [⟨1, 1, 0, 0, 0, 0⟩]).inq.getD j false = false ∧
            (([⟨1, 1, 0, 0, 0, 0⟩] : List Process).getD j dP).art ≤
              (rrStep [⟨1, 1, 0, 0, 0, 0⟩] 1
                (rrInit [⟨1, 1, 0, 0, 0, 0⟩])).t) ∧
          (∀ j, j < ([⟨1, 1, 0, 0, 0, 0⟩] : List Process).length →
            (rrInit [⟨1, 1, 0, 0, 0, 0⟩]).inq.getD j false = false →
            (([⟨1, 1, 0, 0, 0, 0⟩] : List Process).getD j dP).art ≤
              (rrStep [⟨1, 1, 0, 0, 0, 0⟩] 1
                (rrInit [⟨1, 1, 0, 0, 0, 0⟩])).t → j ∈ newArr) ∧
          (((rrStep [⟨1, 1, 0, 0, 0, 0⟩] 1
                (rrInit [⟨1, 1, 0, 0, 0, 0⟩])).rem.getD curr 0 = 0 ∧
              (rrStep [⟨1, 1, 0, 0, 0, 0⟩] 1
                (rrInit [⟨1, 1, 0, 0, 0, 0⟩])).queue = qrest ++ newArr) ∨
            ((rrStep [⟨1, 1, 0, 0, 0, 0⟩] 1
                (rrInit [⟨1, 1, 0, 0, 0, 0⟩])).rem.getD curr 0 ≠ 0 ∧
              (rrStep [⟨1, 1, 0, 0, 0, 0⟩] 1
                (rrInit [⟨1, 1, 0, 0, 0, 0⟩])).queue =
                (qrest ++ newArr) ++ [curr])))) :=
  ⟨by decide, by decide,
    C5_rr_enqueue_order [⟨1, 1, 0, 0, 0, 0⟩] 1 (rrInit [⟨1, 1, 0, 0, 0, 0⟩])
      (by decide) (by decide) RRreach.init⟩

/-! ## C10: independence from the incoming wt/tat fields -/

theorem getD_set_self_or {α : Type} (l : List α) (k : Nat) (x d : α) :
    (l.set k x).getD k d = if k < l.length then x else d := by
  split
  · next h => exact getD_set_self l k x d h
  · next h =>
    rw [List.set_eq_of_length_le (by omega)]
    exact List.getD_eq_default l d (by omega)

theorem sameStatic_length {ps1 ps2 : List Process}
    (h : SameStatic ps1 ps2) : ps1.length = ps2.length :=
  List.Forall₂.length_eq h

theorem sameStatic_getD {ps1 ps2 : List Process} (h : SameStatic ps1 ps2) :
    ∀ j : Nat, (ps1.getD j dP).pid = (ps2.getD j dP).pid ∧
      (ps1.getD j dP).bt = (ps2.getD j dP).bt ∧
      (ps1.getD j dP).art = (ps2.getD j dP).art ∧
      (ps1.getD j dP).pri = (ps2.getD j dP).pri := by
  induction h with
  | nil => intro j; exact ⟨rfl, rfl, rfl, rfl⟩
  | cons hab hrest ih =>
    intro j
    cases j with
    | zero => exact hab
    | succ j => exact ih j

theorem sameStatic_map_art {ps1 ps2 : List Process}
    (h : SameStatic ps1 ps2) :
    ps1.map Process.art = ps2.map Process.art := by
  induction h with
  | nil => rfl
  | cons hab hrest ih =>
    simp only [List.map_cons, ih, hab.2.2.1]

theorem sameStatic_map_bt {ps1 ps2 : List Process}
    (h : SameStatic ps1 ps2) :
    ps1.map Process.bt = ps2.map Process.bt := by
  induction h with
  | nil => rfl
  | cons hab hrest ih =>
    simp only [List.map_cons, ih, hab.2.1]

theorem sameStatic_applyIdx {ps1 ps2 : List Process}
    (h : SameStatic ps1 ps2) (idxs : List Nat) :
    SameStatic (applyIdx idxs ps1) (applyIdx idxs ps2) := by
  induction idxs with
  | nil => exact List.Forall₂.nil
  | cons i idxs ih =>
    exact List.Forall₂.cons (sameStatic_getD h i) ih

theorem fcfsGo_tat_congr {ps1 ps2 : List Process}
    (h : SameStatic ps1 ps2) :
    ∀ s b : Int, findTurnAroundTime (fcfsGo s b ps1) =
      findTurnAroundTime (fcfsGo s b ps2) := by
  induction h with
  | nil => intro s b; rfl
  | cons hab hrest ih =>
    intro s b
    obtain ⟨hpid, hbt, hart, hpri⟩ := hab
    simp only [fcfsGo, findTurnAroundTime, List.map_cons]
    rw [← findTurnAroundTime, ← findTurnAroundTime, ih, hpid, hbt, hart, hpri]

theorem findavgTimeFCFS_congr {ps1 ps2 : List Process}
    (h : SameStatic ps1 ps2) :
    findavgTimeFCFS ps1 = findavgTimeFCFS ps2 := by
  cases h with
  | nil => rfl
  | cons hab hrest =>
    obtain ⟨hpid, hbt, hart, hpri⟩ := hab
    simp only [findavgTimeFCFS, findWaitingTimeFCFS, findTurnAroundTime,
      List.map_cons]
    rw [← findTurnAroundTime, ← findTurnAroundTime, fcfsGo_tat_congr hrest,
      hpid, hbt, hart, hpri]

theorem srtfStep_bisim {ps1 ps2 : List Process} (h : SameStatic ps1 ps2)
    {s1 s2 : SrtfState} (hrel : SrtfRel s1 s2) :
    SrtfRel (srtfStep ps1 s1) (srtfStep ps2 s2) := by
  obtain ⟨hrem, ht, hc, hwl, hwagree⟩ := hrel
  have hsel : srtfSelect ps2 s2.rem s2.t = srtfSelect ps1 s1.rem s1.t := by
    rw [srtfSelect, srtfSelect, sameStatic_map_art h, hrem, ht]
  have hnext : srtfNextArr ps2 s2.rem = srtfNextArr ps1 s1.rem := by
    rw [srtfNextArr, srtfNextArr, sameStatic_map_art h, hrem]
  rcases hsel1 : srtfSelect ps1 s1.rem s1.t with _ | k
  · rw [srtfStep_of_none hsel1, srtfStep_of_none (by rw [hsel, hsel1])]
    exact ⟨hrem, by rw [hnext], hc, hwl, hwagree⟩
  · obtain ⟨hpid, hbt, hart, hpri⟩ := sameStatic_getD h k
    rw [srtfStep_of_some_full hsel1,
      srtfStep_of_some_full (by rw [hsel, hsel1]), ← hrem, ← ht, ← hbt, ← hart]
    by_cases hz : (s1.rem.set k (s1.rem.getD k 0 - 1)).getD k 0 = 0
    · rw [if_pos hz, if_pos hz]
      refine ⟨rfl, rfl, by rw [hc], by rw [List.length_set, List.length_set,
        hwl], ?_⟩
      intro j hj hjz
      rcases eq_or_ne j k with rfl | hne
      · rw [getD_set_self_or, getD_set_self_or, hwl]
      · rw [getD_set_ne _ _ _ (fun hh => hne hh.symm),
          getD_set_ne _ _ _ (fun hh => hne hh.symm)]
        apply hwagree j (by simpa using hj)
        rw [← getD_set_ne s1.rem _ _ (fun hh : k = j => hne hh.symm)]
        exact hjz
    · rw [if_neg hz, if_neg hz]
      refine ⟨rfl, rfl, hc, hwl, ?_⟩
      intro j hj hjz
      rcases eq_or_ne j k with rfl | hne
      · exact absurd hjz hz
      · apply hwagree j (by simpa using hj)
        rw [← getD_set_ne s1.rem _ _ (fun hh : k = j => hne hh.symm)]
        exact hjz

theorem srtfLoop_bisim {ps1 ps2 : List Process} (h : SameStatic ps1 ps2) :
    ∀ (f : Nat) (s1 s2 : SrtfState), SrtfInv ps1 s1 → SrtfRel s1 s2 →
    (srtfLoop ps1 f s1 = none ∧ srtfLoop ps2 f s2 = none) ∨
    (∃ a b, srtfLoop ps1 f s1 = some a ∧ srtfLoop ps2 f s2 = some b ∧
      SrtfInv ps1 a ∧ SrtfRel a b ∧ a.complete = ps1.length) := by
  have hlen := sameStatic_length h
  intro f
  induction f with
  | zero =>
    intro s1 s2 hInv hrel
    by_cases hcz : s1.complete = ps1.length
    · right
      refine ⟨s1, s2, by simp [srtfLoop, hcz], ?_, hInv, hrel, hcz⟩
      have : s2.complete = ps2.length := by rw [← hrel.2.2.1, ← hlen]; exact hcz
      simp [srtfLoop, this]
    · left
      have : s2.complete ≠ ps2.length := by
        rw [← hrel.2.2.1, ← hlen]
        exact hcz
      exact ⟨by simp [srtfLoop, hcz], by simp [srtfLoop, this]⟩
  | succ f ih =>
    intro s1 s2 hInv hrel
    by_cases hcz : s1.complete = ps1.length
    · right
      refine ⟨s1, s2, by simp [srtfLoop, hcz], ?_, hInv, hrel, hcz⟩
      have : s2.complete = ps2.length := by rw [← hrel.2.2.1, ← hlen]; exact hcz
      simp [srtfLoop, this]
    · have hcz2 : s2.complete ≠ ps2.length := by
        rw [← hrel.2.2.1, ← hlen]
        exact hcz
      have hstep := srtfStep_bisim h hrel
      have hInv' := srtfStep_inv hInv
      rcases ih (srtfStep ps1 s1) (srtfStep ps2 s2) hInv' hstep with
        ⟨h1, h2⟩ | ⟨a, b, h1, h2, h3, h4, h5⟩
      · left
        exact ⟨by simp only [srtfLoop, hcz, if_false]; exact h1,
          by simp only [srtfLoop, hcz2, if_false]; exact h2⟩
      · right
        exact ⟨a, b, by simp only [srtfLoop, hcz, if_false]; exact h1,
          by simp only [srtfLoop, hcz2, if_false]; exact h2, h3, h4, h5⟩

theorem tat_zipWith_congr {ps1 ps2 : List Process}
    (h : SameStatic ps1 ps2) :
    ∀ w1 w2 : List Int, w1.length = w2.length →
    (∀ j, j < w1.length → w1.getD j 0 = w2.getD j 0) →
    findTurnAroundTime (List.zipWith (fun p w => { p with wt := w }) ps1 w1) =
      findTurnAroundTime
        (List.zipWith (fun p w => { p with wt := w }) ps2 w2) := by
  induction h with
  | nil => intro w1 w2 _ _; rfl
  | cons hab hrest ih =>
    intro w1 w2 hlen hagree
    obtain ⟨hpid, hbt, hart, hpri⟩ := hab
    cases w1 with
    | nil =>
      cases w2 with
      | nil => rfl
      | cons y ys => simp at hlen
    | cons x xs =>
      cases w2 with
      | nil => simp at hlen
      | cons y ys =>
        have hxy : x = y := hagree 0 (by simp)
        simp only [List.zipWith_cons_cons, findTurnAroundTime, List.map_cons]
        rw [← findTurnAroundTime, ← findTurnAroundTime,
          ih xs ys (by simpa using hlen)
            (fun j hj => hagree (j + 1) (by simpa using hj)),
          hpid, hbt, hart, hpri, hxy]

theorem findavgTimeSJF_congr {ps1 ps2 : List Process}
    (h : SameStatic ps1 ps2) (hv1 : ValidBatch ps1) :
    findavgTimeSJF ps1 = findavgTimeSJF ps2 := by
  have hlen := sameStatic_length h
  have hbt := sameStatic_map_bt h
  have hrel : SrtfRel (srtfInit ps1) (srtfInit ps2) := by
    refine ⟨by rw [srtfInit, srtfInit, hbt], rfl, rfl,
      by simp [srtfInit, hlen], ?_⟩
    intro j hj hz
    exfalso
    have hj' : j < ps1.length := by simpa [srtfInit] using hj
    have hz' : (ps1.map Process.bt).getD j 0 = 0 := hz
    rw [getD_map_bt] at hz'
    have := (hv1.2 _ (getD_mem_of_lt ps1 j dP hj')).1
    omega
  have hfuel : srtfFuel ps2 = srtfFuel ps1 := by
    rw [srtfFuel, srtfFuel, hbt]
  rcases srtfLoop_bisim h (srtfFuel ps1) (srtfInit ps1) (srtfInit ps2)
    (srtfInit_inv hv1) hrel with ⟨h1, h2⟩ | ⟨a, b, h1, h2, hInv, hab, hcomp⟩
  · simp only [findavgTimeSJF, findWaitingTimeSJF, h1, hfuel, h2,
      Option.map_none']
  · obtain ⟨hrem, ht, hc, hwl, hwag⟩ := hab
    obtain ⟨hrl, hwll, hbounds, hcount, -⟩ := hInv
    simp only [findavgTimeSJF, findWaitingTimeSJF, h1, hfuel, h2,
      Option.map_some']
    congr 1
    apply tat_zipWith_congr h a.wt b.wt (by omega)
    intro j hj
    apply hwag j (by omega)
    have hallz : ∀ x ∈ a.rem, ((x == 0) : Bool) = true := by
      apply List.countP_eq_length.mp
      omega
    have := hallz _ (getD_mem_of_lt a.rem j 0 (by omega))
    simpa using this

theorem scanArrNC_congr {ps1 ps2 : List Process}
    (hart : ∀ j, (ps1.getD j dP).art = (ps2.getD j dP).art) :
    ∀ (pending : List Nat) (t : Int) (inq : List Bool) (queue : List Nat),
    scanArrNC ps1 t pending inq queue = scanArrNC ps2 t pending inq queue := by
  intro pending
  induction pending with
  | nil => intro t inq queue; rfl
  | cons idx rest ih =>
    intro t inq queue
    rw [scanArrNC, scanArrNC, hart idx]
    split
    · exact ih t _ _
    · rfl

theorem scanArrC_congr {ps1 ps2 : List Process}
    (hart : ∀ j, (ps1.getD j dP).art = (ps2.getD j dP).art) :
    ∀ (pending : List Nat) (t : Int) (rem : List Int) (inq : List Bool)
      (queue : List Nat),
    scanArrC ps1 t rem pending inq queue =
      scanArrC ps2 t rem pending inq queue := by
  intro pending
  induction pending with
  | nil => intro t rem inq queue; rfl
  | cons idx rest ih =>
    intro t rem inq queue
    rw [scanArrC, scanArrC, hart idx]
    split
    · split
      · exact ih t rem _ _
      · exact ih t rem _ _
    · rfl

theorem sortIdx_congr {ps1 ps2 : List Process}
    (hart : ∀ j, (ps1.getD j dP).art = (ps2.getD j dP).art) (l : List Nat) :
    sortIdx ps1 l = sortIdx ps2 l := by
  have hkey : artKey ps1 = artKey ps2 := funext fun j => hart j
  rw [sortIdx, sortIdx, hkey]

theorem rrSidx_congr {ps1 ps2 : List Process} (h : SameStatic ps1 ps2) :
    rrSidx ps1 = rrSidx ps2 := by
  rw [rrSidx, rrSidx, sameStatic_length h,
    sortIdx_congr (fun j => (sameStatic_getD h j).2.2.1)]

theorem rrStep_bisim {ps1 ps2 : List Process} {q : Int}
    (h : SameStatic ps1 ps2) {s1 s2 : RRState} (hrel : RRRel s1 s2) :
    RRRel (rrStep ps1 q s1) (rrStep ps2 q s2) := by
  obtain ⟨hrem, hfin, hinq, hque, hpen, ht, hcm, hwl, hwag⟩ := hrel
  have hart : ∀ j, (ps1.getD j dP).art = (ps2.getD j dP).art :=
    fun j => (sameStatic_getD h j).2.2.1
  rcases hqe : s1.queue with _ | ⟨curr, qrest⟩
  · have hqe2 : s2.queue = [] := by rw [← hque]; exact hqe
    rcases hpe : s1.pending with _ | ⟨idx, pend⟩
    · have hpe2 : s2.pending = [] := by rw [← hpen]; exact hpe
      rw [rrStep_queue_nil_pending_nil hqe hpe,
        rrStep_queue_nil_pending_nil hqe2 hpe2]
      exact ⟨hrem, hfin, hinq, hque, hpen, ht, hcm, hwl, hwag⟩
    · have hpe2 : s2.pending = idx :: pend := by rw [← hpen]; exact hpe
      rw [rrStep_refill hqe hpe, rrStep_refill hqe2 hpe2]
      have hscan : scanArrNC ps1 ((ps1.getD idx dP).art)
          s1.pending s1.inq s1.queue =
          scanArrNC ps2 ((ps2.getD idx dP).art) s2.pending s2.inq s2.queue := by
        rw [hart idx, hpen, hinq, hque]
        exact scanArrNC_congr hart s2.pending _ s2.inq s2.queue
      exact ⟨hrem, hfin, congrArg (fun r => r.2.1) hscan,
        congrArg (fun r => r.2.2) hscan, congrArg (fun r => r.1) hscan,
        hart idx, hcm, hwl, hwag⟩
  · have hqe2 : s2.queue = curr :: qrest := by rw [← hque]; exact hqe
    obtain ⟨hpid, hbt, hartc, hpri⟩ := sameStatic_getD h curr
    rw [rrStep_exec_eq hqe, rrStep_exec_eq hqe2, ← hrem, ← ht, ← hbt, ← hartc,
      ← hinq, ← hpen]
    have hscan : scanArrC ps1
        (s1.t + (if q < s1.rem.getD curr 0 then q else s1.rem.getD curr 0))
        (s1.rem.set curr (s1.rem.getD curr 0 -
          (if q < s1.rem.getD curr 0 then q else s1.rem.getD curr 0)))
        s1.pending s1.inq qrest =
        scanArrC ps2
        (s1.t + (if q < s1.rem.getD curr 0 then q else s1.rem.getD curr 0))
        (s1.rem.set curr (s1.rem.getD curr 0 -
          (if q < s1.rem.getD curr 0 then q else s1.rem.getD curr 0)))
        s1.pending s1.inq qrest :=
      scanArrC_congr hart s1.pending _ _ s1.inq qrest
    rw [hscan]
    by_cases hz : (s1.rem.set curr (s1.rem.getD curr 0 -
        (if q < s1.rem.getD curr 0 then q else s1.rem.getD curr 0))).getD
        curr 0 = 0
    · rw [if_pos hz, if_pos hz]
      refine ⟨rfl, by rw [hfin], rfl, rfl, rfl, rfl, by rw [hcm],
        by rw [List.length_set, List.length_set, hwl], ?_⟩
      intro j hj hjz
      rcases eq_or_ne j curr with rfl | hne
      · rw [getD_set_self_or, getD_set_self_or, hwl]
      · rw [getD_set_ne _ _ _ (fun hh => hne hh.symm),
          getD_set_ne _ _ _ (fun hh => hne hh.symm)]
        apply hwag j (by simpa using hj)
        rw [← getD_set_ne s1.rem _ _ (fun hh : curr = j => hne hh.symm)]
        exact hjz
    · rw [if_neg hz, if_neg hz]
      refine ⟨rfl, hfin, rfl, rfl, rfl, rfl, hcm, hwl, ?_⟩
      intro j hj hjz
      rcases eq_or_ne j curr with rfl | hne
      · exact absurd hjz hz
      · apply hwag j (by simpa using hj)
        rw [← getD_set_ne s1.rem _ _ (fun hh : curr = j => hne hh.symm)]
        exact hjz

theorem rrLoop_bisim {ps1 ps2 : List Process} {q : Int}
    (h : SameStatic ps1 ps2) (hv1 : ValidBatch ps1) (hq : 0 < q) :
    ∀ (f : Nat) (s1 s2 : RRState), RRInv ps1 s1 → RRRel s1 s2 →
    (rrLoop ps1 q f s1 = none ∧ rrLoop ps2 q f s2 = none) ∨
    (∃ a b, rrLoop ps1 q f s1 = some a ∧ rrLoop ps2 q f s2 = some b ∧
      RRInv ps1 a ∧ RRRel a b ∧ a.completed = ps1.length) := by
  have hlen := sameStatic_length h
  intro f
  induction f with
  | zero =>
    intro s1 s2 hInv hrel
    by_cases hcz : s1.completed = ps1.length
    · right
      refine ⟨s1, s2, by simp [rrLoop, hcz], ?_, hInv, hrel, hcz⟩
      have : s2.completed = ps2.length := by
        rw [← hrel.2.2.2.2.2.2.1, ← hlen]
        exact hcz
      simp [rrLoop, this]
    · left
      have : s2.completed ≠ ps2.length := by
        rw [← hrel.2.2.2.2.2.2.1, ← hlen]
        exact hcz
      exact ⟨by simp [rrLoop, hcz], by simp [rrLoop, this]⟩
  | succ f ih =>
    intro s1 s2 hInv hrel
    by_cases hcz : s1.completed = ps1.length
    · right
      refine ⟨s1, s2, by simp [rrLoop, hcz], ?_, hInv, hrel, hcz⟩
      have : s2.completed = ps2.length := by
        rw [← hrel.2.2.2.2.2.2.1, ← hlen]
        exact hcz
      simp [rrLoop, this]
    · have hcz2 : s2.completed ≠ ps2.length := by
        rw [← hrel.2.2.2.2.2.2.1, ← hlen]
        exact hcz
      have hstep := rrStep_bisim (q := q) h hrel
      have hInv' := rrStep_inv hv1 hq hInv
      rcases ih (rrStep ps1 q s1) (rrStep ps2 q s2) hInv' hstep with
        ⟨h1, h2⟩ | ⟨a, b, h1, h2, h3, h4, h5⟩
      · left
        exact ⟨by simp only [rrLoop, hcz, if_false]; exact h1,
          by simp only [rrLoop, hcz2, if_false]; exact h2⟩
      · right
        exact ⟨a, b, by simp only [rrLoop, hcz, if_false]; exact h1,
          by simp only [rrLoop, hcz2, if_false]; exact h2, h3, h4, h5⟩

theorem findavgTimeRR_congr {ps1 ps2 : List Process} {q : Int}
    (h : SameStatic ps1 ps2) (hv1 : ValidBatch ps1) (hq : 0 < q) :
    findavgTimeRR ps1 q = findavgTimeRR ps2 q := by
  have hlen := sameStatic_length h
  have hbt := sameStatic_map_bt h
  have hart : ∀ j, (ps1.getD j dP).art = (ps2.getD j dP).art :=
    fun j => (sameStatic_getD h j).2.2.1
  have hrel : RRRel (rrInit ps1) (rrInit ps2) := by
    rw [rrInit_eq, rrInit_eq]
    have hscan : scanArrNC ps1 0 (rrSidx ps1)
        (List.replicate ps1.length false) [] =
        scanArrNC ps2 0 (rrSidx ps2)
        (List.replicate ps2.length false) [] := by
      rw [rrSidx_congr h, hlen]
      exact scanArrNC_congr hart (rrSidx ps2) 0 _ []
    refine ⟨by rw [hbt], by rw [hlen], congrArg (fun r => r.2.1) hscan,
      congrArg (fun r => r.2.2) hscan, congrArg (fun r => r.1) hscan,
      rfl, rfl, by simp [hlen], ?_⟩
    intro j hj hz
    exfalso
    have hj' : j < ps1.length := by simpa using hj
    have hz' : (ps1.map Process.bt).getD j 0 = 0 := hz
    rw [getD_map_bt] at hz'
    have := (hv1.2 _ (getD_mem_of_lt ps1 j dP hj')).1
    omega
  have hfuel : rrFuel ps2 = rrFuel ps1 := by
    rw [rrFuel, rrFuel, hbt, hlen]
  rcases rrLoop_bisim h hv1 hq (rrFuel ps1) (rrInit ps1) (rrInit ps2)
    (rrInit_inv hv1) hrel with ⟨h1, h2⟩ | ⟨a, b, h1, h2, hInv, hab, hcomp⟩
  · simp only [findavgTimeRR, findWaitingTimeRR, h1, hfuel, h2,
      Option.map_none']
  · obtain ⟨hrem, -, -, -, -, -, hcm, hwl, hwag⟩ := hab
    obtain ⟨hrl, hwll, -, -, -, -, -, -, -, -, hbounds, hcount, -⟩ := hInv
    simp only [findavgTimeRR, findWaitingTimeRR, h1, hfuel, h2,
      Option.map_some']
    congr 1
    apply tat_zipWith_congr h a.wt b.wt (by omega)
    intro j hj
    apply hwag j (by omega)
    have hallz : ∀ x ∈ a.rem, ((x == 0) : Bool) = true := by
      apply List.countP_eq_length.mp
      omega
    have := hallz _ (getD_mem_of_lt a.rem j 0 (by omega))
    simpa using this

/-- C10: the waiting and turnaround times an engine computes are
independent of the incoming values of those two fields: running any
engine (with `findTurnAroundTime`) on two copies of a batch that
differ only in their initial `wt`/`tat` fields yields identical
outputs, because every engine unconditionally overwrites both fields
for every process. The Priority engine is compared under the same
`qsort` index permutation, since `qsort` branches only on the
comparator, which reads only the (equal) priorities. -/
theorem C10_wt_tat_independent (ps1 ps2 : List Process) (q : Int)
    (hstat : SameStatic ps1 ps2) (hv1 : ValidBatch ps1) (hq : 0 < q) :
    findavgTimeFCFS ps1 = findavgTimeFCFS ps2 ∧
    (∀ idxs : List Nat,
      findavgTimePriority (fun _ => applyIdx idxs ps1) ps1 =
        findavgTimePriority (fun _ => applyIdx idxs ps2) ps2) ∧
    findavgTimeSJF ps1 = findavgTimeSJF ps2 ∧
    findavgTimeRR ps1 q = findavgTimeRR ps2 q := by
  refine ⟨findavgTimeFCFS_congr hstat, ?_,
    findavgTimeSJF_congr hstat hv1, findavgTimeRR_congr hstat hv1 hq⟩
  intro idxs
  show findavgTimeFCFS (applyIdx idxs ps1) = findavgTimeFCFS (applyIdx idxs ps2)
  exact findavgTimeFCFS_congr (sameStatic_applyIdx hstat idxs)

theorem C10_wt_tat_independent_witness :
    SameStatic [⟨1, 2, 0, 3, 0, 0⟩] [⟨1, 2, 0, 3, 7, 9⟩] ∧
    ValidBatch [⟨1, 2, 0, 3, 0, 0⟩] ∧ (0 : Int) < 2 ∧
    (findavgTimeFCFS [⟨1, 2, 0, 3, 0, 0⟩] =
        findavgTimeFCFS [⟨1, 2, 0, 3, 7, 9⟩] ∧
      (∀ idxs : List Nat,
        findavgTimePriority (fun _ => applyIdx idxs [⟨1, 2, 0, 3, 0, 0⟩])
            [⟨1, 2, 0, 3, 0, 0⟩] =
          findavgTimePriority (fun _ => applyIdx idxs [⟨1, 2, 0, 3, 7, 9⟩])
            [⟨1, 2, 0, 3, 7, 9⟩]) ∧
      findavgTimeSJF [⟨1, 2, 0, 3, 0, 0⟩] =
        findavgTimeSJF [⟨1, 2, 0, 3, 7, 9⟩] ∧
      findavgTimeRR [⟨1, 2, 0, 3, 0, 0⟩] 2 =
        findavgTimeRR [⟨1, 2, 0, 3, 7, 9⟩] 2) :=
  ⟨List.Forall₂.cons ⟨rfl, rfl, rfl, rfl⟩ List.Forall₂.nil, by decide, by decide,
    C10_wt_tat_independent _ _ 2
      (List.Forall₂.cons ⟨rfl, rfl, rfl, rfl⟩ List.Forall₂.nil)
      (by decide) (by decide)⟩

/-! ## C7: RR with a large quantum degenerates to FCFS -/

theorem drop_range'_aux : ∀ (i m s : Nat),
    (List.range' s m).drop i = List.range' (s + i) (m - i) := by
  intro i
  induction i with
  | zero => intro m s; simp
  | succ i ih =>
    intro m s
    cases m with
    | zero => simp
    | succ m =>
      rw [List.range'_succ, List.drop_succ_cons, ih m (s + 1)]
      congr 1 <;> omega

theorem range_drop_aux (n k : Nat) :
    (List.range n).drop k = List.range' k (n - k) := by
  rw [List.range_eq_range', drop_range'_aux]
  simp

theorem isPrefix_range'_eq : ∀ (l : List Nat) (s m : Nat),
    l.IsPrefix (List.range' s m) → l = List.range' s l.length := by
  intro l
  induction l with
  | nil => intro s m _; rfl
  | cons a l ih =>
    intro s m h
    cases m with
    | zero =>
      have := h.sublist.length_le
      simp at this
    | succ m =>
      rw [List.range'_succ] at h
      obtain ⟨t, ht⟩ := h
      rw [List.cons_append] at ht
      injection ht with h1 h2
      subst h1
      have hl : l.IsPrefix (List.range' (a + 1) m) := ⟨t, h2⟩
      rw [List.length_cons, List.range'_succ, ih (a + 1) m hl,
        List.length_range']

theorem takeWhile_range'_shape (p : Nat → Bool) (k L : Nat) :
    (List.range' k L).takeWhile p =
      List.range' k ((List.range' k L).takeWhile p).length :=
  isPrefix_range'_eq _ k L (List.takeWhile_prefix p)

theorem dropWhile_range'_shape (p : Nat → Bool) (k L : Nat) :
    (List.range' k L).dropWhile p =
      List.range' (k + ((List.range' k L).takeWhile p).length)
        (L - ((List.range' k L).takeWhile p).length) := by
  have h2 : (List.range' k L).dropWhile p =
      ((List.range' k L).takeWhile p ++ (List.range' k L).dropWhile p).drop
        ((List.range' k L).takeWhile p).length := by
    rw [List.drop_left]
  rw [h2, List.takeWhile_append_dropWhile, drop_range'_aux]

theorem range'_append_aux (s m n : Nat) :
    List.range' s m ++ List.range' (s + m) n = List.range' s (m + n) := by
  have := List.range'_append s m n 1
  rw [Nat.one_mul] at this
  rw [this, Nat.add_comm]

theorem length_range'_eq_zero {s m : Nat} (h : List.range' s m = []) :
    m = 0 := by
  have := congrArg List.length h
  rwa [List.length_range', List.length_nil] at this

theorem length_takeWhile_le_aux (p : Nat → Bool) (l : List Nat) :
    (l.takeWhile p).length ≤ l.length :=
  (List.takeWhile_prefix p).sublist.length_le

theorem foldr_ge_length : ∀ l : List Int, (∀ x ∈ l, 1 ≤ x) →
    (l.length : Int) ≤ l.foldr (· + ·) 0 := by
  intro l
  induction l with
  | nil => intro _; simp
  | cons a l ih =>
    intro h
    have h1 := h a (List.mem_cons_self a l)
    have h2 := ih fun x hx => h x (List.mem_cons_of_mem a hx)
    simp only [List.foldr_cons, List.length_cons]
    push_cast
    omega

theorem art_le_fcfsServiceSpec (ps : List Process) :
    ∀ c : Nat, (ps.getD c dP).art ≤ fcfsServiceSpec ps c := by
  intro c
  cases c with
  | zero => exact le_refl _
  | succ c =>
    rw [fcfsServiceSpec]
    exact le_max_right _ _

theorem fcfsFinishSpec_succ_lt {ps : List Process} (hv : ValidBatch ps)
    {j : Nat} (hj : j + 1 < ps.length) :
    fcfsFinishSpec ps j < fcfsFinishSpec ps (j + 1) := by
  have hbt : 0 < (ps.getD (j + 1) dP).bt :=
    (hv.2 _ (getD_mem_of_lt ps (j + 1) dP hj)).1
  have hle : fcfsServiceSpec ps j + (ps.getD j dP).bt ≤
      fcfsServiceSpec ps (j + 1) := le_max_left _ _
  rw [fcfsFinishSpec, fcfsFinishSpec]
  omega

theorem fcfsFinishSpec_lt {ps : List Process} (hv : ValidBatch ps) :
    ∀ (d i : Nat), i + d + 1 < ps.length →
      fcfsFinishSpec ps i < fcfsFinishSpec ps (i + d + 1) := by
  intro d
  induction d with
  | zero => intro i hi; exact fcfsFinishSpec_succ_lt hv hi
  | succ d ih =>
    intro i hi
    have h1 := ih i (by omega)
    have h2 : fcfsFinishSpec ps (i + d + 1) <
        fcfsFinishSpec ps (i + d + 1 + 1) :=
      fcfsFinishSpec_succ_lt hv (by omega)
    have he : i + (d + 1) + 1 = i + d + 1 + 1 := by omega
    rw [he]
    omega

theorem findWaitingTimeFCFS_wt_spec (ps : List Process) :
    ∀ i, i < ps.length →
      ((findWaitingTimeFCFS ps).getD i dP).wt = fcfsWtSpec ps i := by
  intro i hi
  cases ps with
  | nil => simp at hi
  | cons p rest =>
    cases i with
    | zero => simp [findWaitingTimeFCFS, fcfsWtSpec]
    | succ i =>
      have hi' : i < rest.length := by simpa using hi
      simp only [findWaitingTimeFCFS, List.getD_cons_succ]
      rw [fcfsGo_wt rest i p.art p.bt hi']
      simp only [fcfsWtSpec, Nat.succ_ne_zero, if_false]
      rw [fcfsServiceSpec_shift p rest i hi']
      simp only [List.getD_cons_succ]

theorem rrFcfs_init {ps : List Process} (hv : ValidBatch ps)
    (hsorted : SortedByArt ps) :
    ∃ k0, k0 ≤ ps.length ∧ rrFcfsInv ps 0 k0 (rrInit ps) := by
  have hrange : rrSidx ps = List.range' 0 ps.length := by
    rw [rrSidx, sortIdx_range_of_sorted hsorted, List.range_eq_range']
  have hlt : ∀ j ∈ rrSidx ps, j < (List.replicate ps.length false).length := by
    intro j hj
    rw [List.length_replicate]
    exact (mem_rrSidx ps j).mp hj
  obtain ⟨hS1, hS2, hS3, hS4⟩ :=
    scanArrNC_spec ps 0 (rrSidx ps) (List.replicate ps.length false) [] hlt
  rw [List.nil_append] at hS2
  have hpw : (List.range' 0 ps.length).Pairwise (ArtIdxLe ps) := by
    have := rrSidx_lex ps
    rwa [hrange] at this
  rw [hrange] at hS1 hS2 hS3 hS4
  have htake := takeWhile_range'_shape
    (fun idx => decide ((ps.getD idx dP).art ≤ (0 : Int))) 0 ps.length
  have hdropS := dropWhile_range'_shape
    (fun idx => decide ((ps.getD idx dP).art ≤ (0 : Int))) 0 ps.length
  have hmle : (((List.range' 0 ps.length).takeWhile
      (fun idx => decide ((ps.getD idx dP).art ≤ (0 : Int))))).length ≤
      ps.length := by
    have := length_takeWhile_le_aux
      (fun idx => decide ((ps.getD idx dP).art ≤ (0 : Int)))
      (List.range' 0 ps.length)
    rwa [List.length_range'] at this
  refine ⟨(((List.range' 0 ps.length).takeWhile
      (fun idx => decide ((ps.getD idx dP).art ≤ (0 : Int))))).length,
    hmle, ?_⟩
  rw [rrInit_eq, hrange]
  refine ⟨rfl, Nat.zero_le _, hmle, by simp, by simp, by simp,
    by rw [hS3, List.length_replicate], ?_, ?_, ?_, ?_, ?_, ?_, ?_, ?_,
    ?_, ?_, ?_, ?_⟩
  · show (scanArrNC ps 0 (List.range' 0 ps.length)
      (List.replicate ps.length false) []).2.2 = _
    rw [hS2, Nat.sub_zero]
    exact htake
  · show (scanArrNC ps 0 (List.range' 0 ps.length)
      (List.replicate ps.length false) []).1 = _
    rw [hS1, hdropS, Nat.zero_add]
  · intro j hj
    exact absurd hj (Nat.not_lt_zero j)
  · intro j _ hj
    exact getD_map_bt ps j
  · intro j hj
    exact absurd hj (Nat.not_lt_zero j)
  · intro j hj
    exact absurd hj (Nat.not_lt_zero j)
  · intro j hj
    have hjm : j ∈ List.range' 0 ((((List.range' 0 ps.length).takeWhile
        (fun idx => decide ((ps.getD idx dP).art ≤ (0 : Int))))).length) :=
      List.mem_range'_1.mpr ⟨Nat.zero_le j, by omega⟩
    rw [← htake] at hjm
    have := List.mem_takeWhile_imp hjm
    simpa using this
  · intro j hjk hjn
    have hjm : j ∈ List.range'
        (0 + (((List.range' 0 ps.length).takeWhile
          (fun idx => decide ((ps.getD idx dP).art ≤ (0 : Int))))).length)
        (ps.length - (((List.range' 0 ps.length).takeWhile
          (fun idx => decide ((ps.getD idx dP).art ≤ (0 : Int))))).length) :=
      List.mem_range'_1.mpr ⟨by omega, by omega⟩
    rw [← hdropS] at hjm
    exact dropWhile_art_gt ps 0 _ hpw j hjm
  · intro j hj
    refine (hS4 j).mpr (Or.inr ?_)
    have hjm : j ∈ List.range' 0 ((((List.range' 0 ps.length).takeWhile
        (fun idx => decide ((ps.getD idx dP).art ≤ (0 : Int))))).length) :=
      List.mem_range'_1.mpr ⟨Nat.zero_le j, by omega⟩
    rwa [← htake] at hjm
  · intro j hjk hjn
    apply bool_eq_false_of_ne_true
    intro htrue
    rcases (hS4 j).mp htrue with hold | htk
    · rw [getD_replicate_false ps.length j] at hold
      cases hold
    · rw [htake] at htk
      have := List.mem_range'_1.mp htk
      omega
  · intro hpos
    have h0n : 0 < ps.length := by omega
    have hart0 : (ps.getD 0 dP).art ≤ 0 := by
      have hjm : (0 : Nat) ∈ List.range' 0 ((((List.range' 0
          ps.length).takeWhile
          (fun idx => decide ((ps.getD idx dP).art ≤ (0 : Int))))).length) :=
        List.mem_range'_1.mpr ⟨Nat.zero_le 0, by omega⟩
      rw [← htake] at hjm
      have := List.mem_takeWhile_imp hjm
      simpa using this
    have hart0' : 0 ≤ (ps.getD 0 dP).art :=
      (hv.2 _ (getD_mem_of_lt ps 0 dP h0n)).2.2.1
    show (0 : Int) = fcfsServiceSpec ps 0
    rw [fcfsServiceSpec]
    omega
  · intro _
    exact Or.inl ⟨rfl, rfl⟩

theorem rrFcfs_refill {ps : List Process} {q : Int} {c : Nat} {s : RRState}
    (hsorted : SortedByArt ps)
    (hI : rrFcfsInv ps c c s) (hcn : c < ps.length) :
    ∃ k', c < k' ∧ k' ≤ ps.length ∧ rrFcfsInv ps c k' (rrStep ps q s) := by
  obtain ⟨hcomp, hck, hkn, hrlen, hwlen, hflen, hilen, hque, hpend, hrem0,
    hremf, hwtc, hfinc, harr, hunarr, hinqT, hinqF, htq, hte⟩ := hI
  have hqe : s.queue = [] := by
    rw [hque, Nat.sub_self]
    rfl
  have hsub : ps.length - c = (ps.length - (c + 1)) + 1 := by omega
  have hpe : s.pending = c :: List.range' (c + 1) (ps.length - (c + 1)) := by
    rw [hpend, hsub, List.range'_succ]
  have hpw0 : (List.range' 0 ps.length).Pairwise (ArtIdxLe ps) := by
    have := rrSidx_lex ps
    rwa [rrSidx, sortIdx_range_of_sorted hsorted, List.range_eq_range'] at this
  have hpw : (List.range' c (ps.length - c)).Pairwise (ArtIdxLe ps) := by
    have hd : (List.range' 0 ps.length).drop c =
        List.range' c (ps.length - c) := by
      rw [drop_range'_aux, Nat.zero_add]
    rw [← hd]
    exact hpw0.sublist (List.drop_sublist _ _)
  have hlt' : ∀ j ∈ List.range' c (ps.length - c), j < s.inq.length := by
    intro j hj
    have := List.mem_range'_1.mp hj
    rw [hilen]
    omega
  obtain ⟨hS1, hS2, hS3, hS4⟩ := scanArrNC_spec ps ((ps.getD c dP).art)
    (List.range' c (ps.length - c)) s.inq [] hlt'
  rw [List.nil_append] at hS2
  have htake := takeWhile_range'_shape
    (fun idx => decide ((ps.getD idx dP).art ≤ (ps.getD c dP).art))
    c (ps.length - c)
  have hdropS := dropWhile_range'_shape
    (fun idx => decide ((ps.getD idx dP).art ≤ (ps.getD c dP).art))
    c (ps.length - c)
  have hmle : (((List.range' c (ps.length - c)).takeWhile
      (fun idx => decide ((ps.getD idx dP).art ≤ (ps.getD c dP).art)))).length ≤
      ps.length - c := by
    have := length_takeWhile_le_aux
      (fun idx => decide ((ps.getD idx dP).art ≤ (ps.getD c dP).art))
      (List.range' c (ps.length - c))
    rwa [List.length_range'] at this
  have hm1 : 1 ≤ (((List.range' c (ps.length - c)).takeWhile
      (fun idx => decide ((ps.getD idx dP).art ≤ (ps.getD c dP).art)))).length := by
    by_contra hcon
    have hm0 : (((List.range' c (ps.length - c)).takeWhile
        (fun idx => decide ((ps.getD idx dP).art ≤
          (ps.getD c dP).art)))).length = 0 := by omega
    have hdv : (List.range' c (ps.length - c)).dropWhile
        (fun idx => decide ((ps.getD idx dP).art ≤ (ps.getD c dP).art)) =
        List.range' c (ps.length - c) := by
      rw [hdropS, hm0, Nat.add_zero, Nat.sub_zero]
    have hcd : c ∈ (List.range' c (ps.length - c)).dropWhile
        (fun idx => decide ((ps.getD idx dP).art ≤ (ps.getD c dP).art)) := by
      rw [hdv]
      exact List.mem_range'_1.mpr ⟨le_refl c, by omega⟩
    have := dropWhile_art_gt ps ((ps.getD c dP).art) _ hpw c hcd
    omega
  refine ⟨c + (((List.range' c (ps.length - c)).takeWhile
      (fun idx => decide ((ps.getD idx dP).art ≤ (ps.getD c dP).art)))).length,
    by omega, by omega, ?_⟩
  rw [rrStep_refill hqe hpe, hqe, hpend]
  refine ⟨hcomp, by omega, by omega, hrlen, hwlen, hflen,
    by rw [hS3]; exact hilen, ?_, ?_, hrem0, hremf, hwtc, hfinc, ?_, ?_,
    ?_, ?_, ?_, ?_⟩
  · show (scanArrNC ps ((ps.getD c dP).art) (List.range' c (ps.length - c))
        s.inq []).2.2 = _
    have he : c + (((List.range' c (ps.length - c)).takeWhile
        (fun idx => decide ((ps.getD idx dP).art ≤
          (ps.getD c dP).art)))).length - c =
        (((List.range' c (ps.length - c)).takeWhile
          (fun idx => decide ((ps.getD idx dP).art ≤
            (ps.getD c dP).art)))).length := by omega
    rw [he, hS2]
    exact htake
  · show (scanArrNC ps ((ps.getD c dP).art) (List.range' c (ps.length - c))
        s.inq []).1 = _
    have he2 : ps.length - c - (((List.range' c (ps.length - c)).takeWhile
        (fun idx => decide ((ps.getD idx dP).art ≤
          (ps.getD c dP).art)))).length =
        ps.length - (c + (((List.range' c (ps.length - c)).takeWhile
          (fun idx => decide ((ps.getD idx dP).art ≤
            (ps.getD c dP).art)))).length) := by omega
    rw [hS1, hdropS, he2]
  · intro j hj
    rcases Nat.lt_or_ge j c with hjc | hjc
    · have h1 := harr j hjc
      have h2 := hunarr c (le_refl c) hcn
      show (ps.getD j dP).art ≤ (ps.getD c dP).art
      omega
    · have hjm : j ∈ List.range' c ((((List.range' c
          (ps.length - c)).takeWhile
          (fun idx => decide ((ps.getD idx dP).art ≤
            (ps.getD c dP).art)))).length) :=
        List.mem_range'_1.mpr ⟨hjc, by omega⟩
      rw [← htake] at hjm
      have := List.mem_takeWhile_imp hjm
      simpa using this
  · intro j hjk hjn
    have hjm : j ∈ List.range'
        (c + (((List.range' c (ps.length - c)).takeWhile
          (fun idx => decide ((ps.getD idx dP).art ≤
            (ps.getD c dP).art)))).length)
        (ps.length - c - (((List.range' c (ps.length - c)).takeWhile
          (fun idx => decide ((ps.getD idx dP).art ≤
            (ps.getD c dP).art)))).length) :=
      List.mem_range'_1.mpr ⟨by omega, by omega⟩
    rw [← hdropS] at hjm
    exact dropWhile_art_gt ps ((ps.getD c dP).art) _ hpw j hjm
  · intro j hj
    rcases Nat.lt_or_ge j c with hjc | hjc
    · exact (hS4 j).mpr (Or.inl (hinqT j hjc))
    · refine (hS4 j).mpr (Or.inr ?_)
      have hjm : j ∈ List.range' c ((((List.range' c
          (ps.length - c)).takeWhile
          (fun idx => decide ((ps.getD idx dP).art ≤
            (ps.getD c dP).art)))).length) :=
        List.mem_range'_1.mpr ⟨hjc, by omega⟩
      rwa [← htake] at hjm
  · intro j hjk hjn
    apply bool_eq_false_of_ne_true
    intro htrue
    rcases (hS4 j).mp htrue with hold | htk
    · rw [hinqF j (by omega) hjn] at hold
      cases hold
    · rw [htake] at htk
      have := List.mem_range'_1.mp htk
      omega
  · intro _
    show (ps.getD c dP).art = fcfsServiceSpec ps c
    cases c with
    | zero => rw [fcfsServiceSpec]
    | succ c' =>
      rcases hte rfl with ⟨hc0, -⟩ | ⟨-, hst⟩
      · exact absurd hc0 (Nat.succ_ne_zero c')
      · rw [fcfsFinishSpec, Nat.succ_sub_one] at hst
        have hlt2 : s.t < (ps.getD (c' + 1) dP).art :=
          hunarr (c' + 1) (le_refl _) hcn
        have hle2 : fcfsServiceSpec ps c' + (ps.getD c' dP).bt ≤
            (ps.getD (c' + 1) dP).art := by omega
        rw [fcfsServiceSpec, max_eq_right hle2]
  · intro h
    exact absurd h (by omega)

theorem rrFcfs_exec {ps : List Process} {q : Int} {c k : Nat} {s : RRState}
    (hv : ValidBatch ps) (hsorted : SortedByArt ps)
    (hquant : ∀ p ∈ ps, p.bt ≤ q)
    (hI : rrFcfsInv ps c k s) (hck : c < k) :
    ∃ k', k ≤ k' ∧ k' ≤ ps.length ∧
      rrFcfsInv ps (c + 1) k' (rrStep ps q s) := by
  obtain ⟨hcomp, _hck, hkn, hrlen, hwlen, hflen, hilen, hque, hpend, hrem0,
    hremf, hwtc, hfinc, harr, hunarr, hinqT, hinqF, htq, hte⟩ := hI
  have hcn : c < ps.length := Nat.lt_of_lt_of_le hck hkn
  have hsubq : k - c = (k - (c + 1)) + 1 := by omega
  have hqe : s.queue = c :: List.range' (c + 1) (k - (c + 1)) := by
    rw [hque, hsubq, List.range'_succ]
  have hrcc : s.rem.getD c 0 = (ps.getD c dP).bt := hremf c (le_refl c) hcn
  have hbtpos : 0 < (ps.getD c dP).bt :=
    (hv.2 _ (getD_mem_of_lt ps c dP hcn)).1
  have hbtq : (ps.getD c dP).bt ≤ q := hquant _ (getD_mem_of_lt ps c dP hcn)
  have hnotlt : ¬ q < s.rem.getD c 0 := by
    rw [hrcc]
    omega
  have hst : s.t = fcfsServiceSpec ps c := htq hck
  have harts : (ps.getD c dP).art ≤ fcfsServiceSpec ps c :=
    art_le_fcfsServiceSpec ps c
  have hset0 : (s.rem.set c 0).getD c 0 = 0 :=
    getD_set_self _ _ _ _ (by rw [hrlen]; exact hcn)
  have hpw0 : (List.range' 0 ps.length).Pairwise (ArtIdxLe ps) := by
    have := rrSidx_lex ps
    rwa [rrSidx, sortIdx_range_of_sorted hsorted, List.range_eq_range'] at this
  have hdk : (List.range' 0 ps.length).drop k =
      List.range' k (ps.length - k) := by
    rw [drop_range'_aux, Nat.zero_add]
  have hpwk : (List.range' k (ps.length - k)).Pairwise (ArtIdxLe ps) := by
    rw [← hdk]
    exact hpw0.sublist (List.drop_sublist _ _)
  have hnd0 : (List.range' 0 ps.length).Nodup := by
    rw [← List.range_eq_range']
    exact List.nodup_range ps.length
  have hndk : (List.range' k (ps.length - k)).Nodup := by
    rw [← hdk]
    exact hnd0.sublist (List.drop_sublist _ _)
  have hfreshk : ∀ j ∈ List.range' k (ps.length - k), j < s.inq.length ∧
      s.inq.getD j false = false ∧ 0 < (s.rem.set c 0).getD j 0 := by
    intro j hj
    have hjb := List.mem_range'_1.mp hj
    have hjne : c ≠ j := by omega
    refine ⟨by rw [hilen]; omega, hinqF j (by omega) (by omega), ?_⟩
    rw [getD_set_ne _ _ _ hjne, hremf j (by omega) (by omega)]
    exact (hv.2 _ (getD_mem_of_lt ps j dP (by omega))).1
  obtain ⟨hS1, hS2, hS3, hS4⟩ := scanArrC_spec ps
    (s.t + (ps.getD c dP).bt) (s.rem.set c 0)
    (List.range' k (ps.length - k)) s.inq
    (List.range' (c + 1) (k - (c + 1))) hndk hfreshk
  have htake := takeWhile_range'_shape
    (fun idx => decide ((ps.getD idx dP).art ≤ s.t + (ps.getD c dP).bt))
    k (ps.length - k)
  have hdropS := dropWhile_range'_shape
    (fun idx => decide ((ps.getD idx dP).art ≤ s.t + (ps.getD c dP).bt))
    k (ps.length - k)
  have hmle : (((List.range' k (ps.length - k)).takeWhile
      (fun idx => decide ((ps.getD idx dP).art ≤
        s.t + (ps.getD c dP).bt)))).length ≤ ps.length - k := by
    have := length_takeWhile_le_aux
      (fun idx => decide ((ps.getD idx dP).art ≤ s.t + (ps.getD c dP).bt))
      (List.range' k (ps.length - k))
    rwa [List.length_range'] at this
  have harr' : ∀ j, j < k + (((List.range' k (ps.length - k)).takeWhile
      (fun idx => decide ((ps.getD idx dP).art ≤
        s.t + (ps.getD c dP).bt)))).length →
      (ps.getD j dP).art ≤ s.t + (ps.getD c dP).bt := by
    intro j hj
    rcases Nat.lt_or_ge j k with hjk | hjk
    · have := harr j hjk
      omega
    · have hjm : j ∈ List.range' k ((((List.range' k
          (ps.length - k)).takeWhile
          (fun idx => decide ((ps.getD idx dP).art ≤
            s.t + (ps.getD c dP).bt)))).length) :=
        List.mem_range'_1.mpr ⟨hjk, by omega⟩
      rw [← htake] at hjm
      have := List.mem_takeWhile_imp hjm
      simpa using this
  refine ⟨k + (((List.range' k (ps.length - k)).takeWhile
      (fun idx => decide ((ps.getD idx dP).art ≤
        s.t + (ps.getD c dP).bt)))).length,
    Nat.le_add_right _ _, by omega, ?_⟩
  rw [rrStep_exec_eq hqe, hpend]
  simp only [if_neg hnotlt, sub_self]
  rw [hrcc, if_pos hset0]
  refine ⟨by rw [hcomp], by omega, by omega,
    by rw [List.length_set]; exact hrlen,
    by rw [List.length_set]; exact hwlen,
    by rw [List.length_set]; exact hflen,
    by rw [hS3]; exact hilen, ?_, ?_, ?_, ?_, ?_, ?_, ?_, ?_, ?_, ?_, ?_, ?_⟩
  · show (scanArrC ps (s.t + (ps.getD c dP).bt) (s.rem.set c 0)
        (List.range' k (ps.length - k)) s.inq
        (List.range' (c + 1) (k - (c + 1)))).2.2 = _
    rw [hS2]
    have hke : c + 1 + (k - (c + 1)) = k := by omega
    have happ := range'_append_aux (c + 1) (k - (c + 1))
      ((((List.range' k (ps.length - k)).takeWhile
        (fun idx => decide ((ps.getD idx dP).art ≤
          s.t + (ps.getD c dP).bt)))).length)
    rw [hke] at happ
    have hlen : k - (c + 1) + (((List.range' k (ps.length - k)).takeWhile
        (fun idx => decide ((ps.getD idx dP).art ≤
          s.t + (ps.getD c dP).bt)))).length =
        k + (((List.range' k (ps.length - k)).takeWhile
          (fun idx => decide ((ps.getD idx dP).art ≤
            s.t + (ps.getD c dP).bt)))).length - (c + 1) := by omega
    rw [hlen] at happ
    conv_lhs => rw [htake]
    exact happ
  · show (scanArrC ps (s.t + (ps.getD c dP).bt) (s.rem.set c 0)
        (List.range' k (ps.length - k)) s.inq
        (List.range' (c + 1) (k - (c + 1)))).1 = _
    have he2 : ps.length - k - (((List.range' k (ps.length - k)).takeWhile
        (fun idx => decide ((ps.getD idx dP).art ≤
          s.t + (ps.getD c dP).bt)))).length =
        ps.length - (k + (((List.range' k (ps.length - k)).takeWhile
          (fun idx => decide ((ps.getD idx dP).art ≤
            s.t + (ps.getD c dP).bt)))).length) := by omega
    rw [hS1, hdropS, he2]
  · intro j hj
    rcases Nat.lt_or_ge j c with hjc | hjc
    · have hjne : c ≠ j := by omega
      rw [getD_set_ne _ _ _ hjne]
      exact hrem0 j hjc
    · have hjc' : j = c := by omega
      rw [hjc']
      exact hset0
  · intro j hjc hjn
    have hjne : c ≠ j := by omega
    rw [getD_set_ne _ _ _ hjne]
    exact hremf j (by omega) hjn
  · intro j hj
    rcases Nat.lt_or_ge j c with hjc | hjc
    · have hjne : c ≠ j := by omega
      rw [getD_set_ne _ _ _ hjne]
      exact hwtc j hjc
    · have hjc' : j = c := by omega
      subst hjc'
      rw [getD_set_self _ _ _ _ (by rw [hwlen]; exact hcn)]
      have hnneg : ¬ (s.t + (ps.getD j dP).bt - (ps.getD j dP).bt -
          (ps.getD j dP).art < 0) := by
        rw [hst]
        omega
      rw [if_neg hnneg, fcfsWtSpec]
      by_cases hc0 : j = 0
      · rw [if_pos hc0]
        subst hc0
        rw [fcfsServiceSpec] at hst
        omega
      · rw [if_neg hc0]
        have hmx : fcfsServiceSpec ps j - (ps.getD j dP).art ≥ 0 := by omega
        rw [max_eq_left hmx, hst]
        omega
  · intro j hj
    rcases Nat.lt_or_ge j c with hjc | hjc
    · have hjne : c ≠ j := by omega
      rw [getD_set_ne _ _ _ hjne]
      exact hfinc j hjc
    · have hjc' : j = c := by omega
      subst hjc'
      rw [getD_set_self _ _ _ _ (by rw [hflen]; exact hcn),
        fcfsFinishSpec, hst]
  · exact harr'
  · intro j hjk hjn
    have hjm : j ∈ List.range'
        (k + (((List.range' k (ps.length - k)).takeWhile
          (fun idx => decide ((ps.getD idx dP).art ≤
            s.t + (ps.getD c dP).bt)))).length)
        (ps.length - k - (((List.range' k (ps.length - k)).takeWhile
          (fun idx => decide ((ps.getD idx dP).art ≤
            s.t + (ps.getD c dP).bt)))).length) :=
      List.mem_range'_1.mpr ⟨by omega, by omega⟩
    rw [← hdropS] at hjm
    exact dropWhile_art_gt ps (s.t + (ps.getD c dP).bt) _ hpwk j hjm
  · intro j hj
    rcases Nat.lt_or_ge j k with hjk | hjk
    · exact (hS4 j).mpr (Or.inl (hinqT j hjk))
    · refine (hS4 j).mpr (Or.inr ?_)
      have hjm : j ∈ List.range' k ((((List.range' k
          (ps.length - k)).takeWhile
          (fun idx => decide ((ps.getD idx dP).art ≤
            s.t + (ps.getD c dP).bt)))).length) :=
        List.mem_range'_1.mpr ⟨hjk, by omega⟩
      rwa [← htake] at hjm
  · intro j hjk hjn
    apply bool_eq_false_of_ne_true
    intro htrue
    rcases (hS4 j).mp htrue with hold | htk
    · rw [hinqF j (by omega) hjn] at hold
      cases hold
    · rw [htake] at htk
      have := List.mem_range'_1.mp htk
      omega
  · intro hlt
    show s.t + (ps.getD c dP).bt = fcfsServiceSpec ps (c + 1)
    rw [fcfsServiceSpec, ← hst]
    rw [max_eq_left (harr' (c + 1) hlt)]
  · intro hkeq
    refine Or.inr ⟨Nat.succ_pos c, ?_⟩
    show s.t + (ps.getD c dP).bt = fcfsFinishSpec ps (c + 1 - 1)
    have hc1 : c + 1 - 1 = c := rfl
    rw [hc1, fcfsFinishSpec, hst]

theorem rrFcfs_run (ps : List Process) (q : Int) (hv : ValidBatch ps)
    (hsorted : SortedByArt ps) (hquant : ∀ p ∈ ps, p.bt ≤ q) :
    ∀ (fuel c k : Nat) (s : RRState), rrFcfsInv ps c k s →
      2 * (ps.length - c) - (if c < k then 1 else 0) < fuel →
      ∃ s', rrLoop ps q fuel s = some s' ∧
        rrFcfsInv ps ps.length ps.length s' := by
  intro fuel
  induction fuel with
  | zero =>
    intro c k s _ hfu
    exact absurd hfu (Nat.not_lt_zero _)
  | succ fuel ih =>
    intro c k s hI hfu
    have hcomp : s.completed = c := hI.1
    have hck : c ≤ k := hI.2.1
    have hkn : k ≤ ps.length := hI.2.2.1
    by_cases hcn : c = ps.length
    · subst hcn
      have hkeq : k = ps.length := Nat.le_antisymm hkn hck
      subst hkeq
      exact ⟨s, by rw [rrLoop, if_pos hcomp], hI⟩
    · have hstep : rrLoop ps q (fuel + 1) s = rrLoop ps q fuel (rrStep ps q s) := by
        rw [rrLoop, if_neg (by rw [hcomp]; exact hcn)]
      have hcn' : c < ps.length :=
        Nat.lt_of_le_of_ne (Nat.le_trans hck hkn) hcn
      rw [hstep]
      by_cases hcltk : c < k
      · obtain ⟨k', _hk1, _hk2, hI'⟩ := rrFcfs_exec hv hsorted hquant hI hcltk
        refine ih (c + 1) k' (rrStep ps q s) hI' ?_
        rw [if_pos hcltk] at hfu
        split <;> omega
      · have hkc : k = c := by omega
        rw [hkc] at hI
        obtain ⟨k', hk1, _hk2, hI'⟩ := rrFcfs_refill hsorted hI hcn'
        refine ih c k' (rrStep ps q s) hI' ?_
        rw [if_neg hcltk] at hfu
        rw [if_pos hk1]
        omega

/-- C7: on a batch sorted ascending by arrival time, the RR engine run
with a quantum at least every burst time terminates, produces exactly
the FCFS waiting time for every process, and completes the processes
in strictly increasing finish-time order of their (FCFS) index — the
completion order and waiting times coincide with FCFS. -/
theorem C7_rr_large_quantum (ps : List Process) (q : Int)
    (hv : ValidBatch ps) (hsorted : SortedByArt ps)
    (hquant : ∀ p ∈ ps, p.bt ≤ q) :
    ∃ s', rrLoop ps q (rrFuel ps) (rrInit ps) = some s' ∧
      findWaitingTimeRR ps q =
        some (List.zipWith (fun p w => { p with wt := w }) ps s'.wt) ∧
      (∀ i, i < ps.length →
        s'.wt.getD i 0 = ((findWaitingTimeFCFS ps).getD i dP).wt) ∧
      (∀ i j, i < j → j < ps.length →
        s'.finish.getD i 0 < s'.finish.getD j 0) := by
  obtain ⟨k0, _hk0, hI0⟩ := rrFcfs_init hv hsorted
  have hfuelb : 2 * (ps.length - 0) - (if 0 < k0 then 1 else 0) <
      rrFuel ps := by
    have hsum : ((ps.map Process.bt).length : Int) ≤
        (ps.map Process.bt).foldr (· + ·) 0 := by
      refine foldr_ge_length (ps.map Process.bt) ?_
      intro x hx
      obtain ⟨p, hp, rfl⟩ := List.mem_map.mp hx
      have := (hv.2 p hp).1
      omega
    rw [List.length_map] at hsum
    have hsum' : ps.length ≤ ((ps.map Process.bt).foldr (· + ·) 0).toNat := by
      omega
    rw [rrFuel]
    split <;> omega
  obtain ⟨s', hrun, hIf⟩ := rrFcfs_run ps q hv hsorted hquant
    (rrFuel ps) 0 k0 (rrInit ps) hI0 hfuelb
  obtain ⟨_, _, _, _, _, _, _, _, _, _, _, hwtf, hfinf, _⟩ := hIf
  refine ⟨s', hrun, ?_, ?_, ?_⟩
  · rw [findWaitingTimeRR, hrun]
    rfl
  · intro i hi
    rw [hwtf i hi, findWaitingTimeFCFS_wt_spec ps i hi]
  · intro i j hij hj
    rw [hfinf i (by omega), hfinf j hj]
    have hd : j = i + (j - i - 1) + 1 := by omega
    rw [hd]
    exact fcfsFinishSpec_lt hv (j - i - 1) i (by omega)

theorem C7_rr_large_quantum_witness :
    ValidBatch [⟨1, 2, 0, 5, 0, 0⟩, ⟨2, 3, 1, 4, 0, 0⟩] ∧
    SortedByArt [⟨1, 2, 0, 5, 0, 0⟩, ⟨2, 3, 1, 4, 0, 0⟩] ∧
    (∀ p ∈ ([⟨1, 2, 0, 5, 0, 0⟩, ⟨2, 3, 1, 4, 0, 0⟩] : List Process),
      p.bt ≤ (3 : Int)) ∧
    (∃ s', rrLoop [⟨1, 2, 0, 5, 0, 0⟩, ⟨2, 3, 1, 4, 0, 0⟩] 3
        (rrFuel [⟨1, 2, 0, 5, 0, 0⟩, ⟨2, 3, 1, 4, 0, 0⟩])
        (rrInit [⟨1, 2, 0, 5, 0, 0⟩, ⟨2, 3, 1, 4, 0, 0⟩]) = some s' ∧
      findWaitingTimeRR
          ([⟨1, 2, 0, 5, 0, 0⟩, ⟨2, 3, 1, 4, 0, 0⟩] : List Process) 3 =
        some (List.zipWith (fun p w => { p with wt := w })
          ([⟨1, 2, 0, 5, 0, 0⟩, ⟨2, 3, 1, 4, 0, 0⟩] : List Process) s'.wt) ∧
      (∀ i, i < ([⟨1, 2, 0, 5, 0, 0⟩, ⟨2, 3, 1, 4, 0, 0⟩] :
          List Process).length →
        s'.wt.getD i 0 = ((findWaitingTimeFCFS
          [⟨1, 2, 0, 5, 0, 0⟩, ⟨2, 3, 1, 4, 0, 0⟩]).getD i dP).wt) ∧
      (∀ i j, i < j → j < ([⟨1, 2, 0, 5, 0, 0⟩, ⟨2, 3, 1, 4, 0, 0⟩] :
          List Process).length →
        s'.finish.getD i 0 < s'.finish.getD j 0)) :=
  ⟨by decide, by decide, by decide,
    C7_rr_large_quantum [⟨1, 2, 0, 5, 0, 0⟩, ⟨2, 3, 1, 4, 0, 0⟩] 3
      (by decide) (by decide) (by decide)⟩
